import Mathlib

/-!
Verification of the bigi fixed-width multi-precision integer library.

The Rust type `Bigi<N>` is an array of `N` little-endian `u64` digits. We
embed it as a `List Nat` of length `N` whose entries are below `B = 2^64`
(predicate `Good`). Each Rust operation is translated digit-for-digit:
index loops become structural recursions carrying the same carry/borrow
variables, `u64` wrap-around becomes explicit `% B`, and unbounded `loop`
constructs take a fuel parameter and return `Option`.
-/

namespace Bigi

/-- Word base: `u64` arithmetic wraps modulo `B`. -/
def B : Nat := 2 ^ 64

theorem B_pos : 0 < B := by norm_num [B]

theorem one_lt_B : 1 < B := by norm_num [B]

theorem B_eq : B = 18446744073709551616 := by norm_num [B]

/-- Value of a little-endian digit list: `value = Σ digit[i] * B^i`. -/
def valB : List Nat → Nat
  | [] => 0
  | d :: ds => d + B * valB ds

/-- A well-formed digit array for `Bigi<N>`: `N` digits, each a `u64`. -/
def Good (N : Nat) (a : List Nat) : Prop :=
  a.length = N ∧ ∀ x ∈ a, x < B

instance (N : Nat) (a : List Nat) : Decidable (Good N a) := by
  unfold Good; infer_instance

theorem Good.length {N a} (h : Good N a) : a.length = N := h.1

theorem Good.digits {N a} (h : Good N a) : ∀ x ∈ a, x < B := h.2

theorem valB_nil : valB [] = 0 := rfl

theorem valB_cons (d : Nat) (ds : List Nat) : valB (d :: ds) = d + B * valB ds := rfl

theorem valB_lt_pow (a : List Nat) (h : ∀ x ∈ a, x < B) :
    valB a < B ^ a.length := by
  induction a with
  | nil => simp [valB]
  | cons d ds ih =>
    have hd : d < B := h d (by simp)
    have hds := ih (fun x hx => h x (by simp [hx]))
    calc valB (d :: ds) = d + B * valB ds := rfl
      _ < B * (valB ds + 1) := by rw [Nat.mul_add, Nat.mul_one]; omega
      _ ≤ B * B ^ ds.length := Nat.mul_le_mul_left _ hds
      _ = B ^ (d :: ds).length := by rw [List.length_cons, pow_succ, Nat.mul_comm]

theorem valB_lt (N : Nat) (a : List Nat) (h : Good N a) : valB a < B ^ N := by
  have := valB_lt_pow a h.2
  rwa [h.1] at this

/-- `B`-adic digit lists with bounded digits and equal lengths are
determined by their value. -/
theorem valB_inj : ∀ (a b : List Nat), a.length = b.length →
    (∀ x ∈ a, x < B) → (∀ x ∈ b, x < B) → valB a = valB b → a = b
  | [], [], _, _, _, _ => rfl
  | a :: as, b :: bs, hlen, ha, hb, hval => by
    have ha0 : a < B := ha a (by simp)
    have hb0 : b < B := hb b (by simp)
    have hval' : a + B * valB as = b + B * valB bs := hval
    have hab : a = b := by
      have h1 : (a + B * valB as) % B = (b + B * valB bs) % B := by rw [hval']
      simpa [Nat.add_mul_mod_self_left, Nat.mod_eq_of_lt ha0, Nat.mod_eq_of_lt hb0] using h1
    have hrest : valB as = valB bs := by
      have hBpos := B_pos
      have : B * valB as = B * valB bs := by omega
      exact Nat.eq_of_mul_eq_mul_left hBpos this
    have := valB_inj as bs (by simpa using hlen)
      (fun x hx => ha x (by simp [hx])) (fun x hx => hb x (by simp [hx])) hrest
    rw [hab, this]

/-- Key digit/mod interchange: prepending a digit below `B`. -/
theorem digit_mod_pow (d X n : Nat) (hd : d < B) :
    (d + B * X) % B ^ (n + 1) = d + B * (X % B ^ n) := by
  have hBpos := B_pos
  have hBn : 0 < B ^ n := Nat.pos_pow_of_pos _ hBpos
  conv_lhs => rw [show X = B ^ n * (X / B ^ n) + X % B ^ n from (Nat.div_add_mod X (B ^ n)).symm]
  have hrw : d + B * (B ^ n * (X / B ^ n) + X % B ^ n)
      = (d + B * (X % B ^ n)) + B ^ (n + 1) * (X / B ^ n) := by ring
  rw [hrw, Nat.add_mul_mod_self_left]
  apply Nat.mod_eq_of_lt
  have hXn : X % B ^ n < B ^ n := Nat.mod_lt _ hBn
  calc d + B * (X % B ^ n) < B * (X % B ^ n + 1) := by rw [Nat.mul_add, Nat.mul_one]; omega
    _ ≤ B * B ^ n := Nat.mul_le_mul_left _ hXn
    _ = B ^ (n + 1) := by rw [pow_succ, Nat.mul_comm]

/-! ## Addition (`AddAssign for Bigi`)

Rust: per digit, `pair = self[i].overflowing_add(other[i]);
self[i] = pair.0.overflowing_add(fw).0; fw = (pair.1 || (fw == 1 && self[i] == 0)) as u64`. -/

def addLoop : List Nat → List Nat → Nat → List Nat
  | a :: as, b :: bs, fw =>
    let p0 := (a + b) % B
    let d := (p0 + fw) % B
    let fw2 := if B ≤ a + b ∨ (fw = 1 ∧ d = 0) then 1 else 0
    d :: addLoop as bs fw2
  | _, _, _ => []

/-- `Bigi + Bigi` (the loop `for i in 0..N`). -/
def addB (a b : List Nat) : List Nat := addLoop a b 0

/-- The overflowing-add pair logic computes the true carry chain. -/
theorem add_carry_step (a b fw : Nat) (ha : a < B) (hb : b < B) (hfw : fw ≤ 1) :
    ((a + b) % B + fw) % B = (a + b + fw) % B ∧
    (if B ≤ a + b ∨ (fw = 1 ∧ ((a + b) % B + fw) % B = 0) then 1 else 0) = (a + b + fw) / B := by
  rw [B_eq] at ha hb ⊢
  constructor
  · omega
  · split <;> omega

theorem addLoop_val : ∀ (a b : List Nat) (fw : Nat), a.length = b.length →
    (∀ x ∈ a, x < B) → (∀ x ∈ b, x < B) → fw ≤ 1 →
    valB (addLoop a b fw) = (valB a + valB b + fw) % B ^ a.length
  | [], [], fw, _, _, _, _ => by simp [addLoop, valB, Nat.mod_one]
  | [], _ :: _, _, hlen, _, _, _ => by simp at hlen
  | _ :: _, [], _, hlen, _, _, _ => by simp at hlen
  | a :: as, b :: bs, fw, hlen, ha, hb, hfw => by
    have ha0 : a < B := ha a (by simp)
    have hb0 : b < B := hb b (by simp)
    obtain ⟨hdig, hcar⟩ := add_carry_step a b fw ha0 hb0 hfw
    have hfw2 : (if B ≤ a + b ∨ (fw = 1 ∧ ((a + b) % B + fw) % B = 0) then 1 else 0) ≤ 1 := by
      split <;> omega
    have hdm : B * ((a + b + fw) / B) + (a + b + fw) % B = a + b + fw :=
      Nat.div_add_mod _ _
    have hdlt : (a + b + fw) % B < B := Nat.mod_lt _ B_pos
    calc valB (addLoop (a :: as) (b :: bs) fw)
        = (a + b + fw) % B + B * valB (addLoop as bs ((a + b + fw) / B)) := by
          rw [addLoop, valB_cons, hcar, hdig]
      _ = (a + b + fw) % B
          + B * ((valB as + valB bs + (a + b + fw) / B) % B ^ as.length) := by
          rw [addLoop_val as bs _ (by simpa using hlen)
            (fun x hx => ha x (by simp [hx])) (fun x hx => hb x (by simp [hx]))
            (by rw [← hcar]; exact hfw2)]
      _ = ((a + b + fw) % B + B * (valB as + valB bs + (a + b + fw) / B))
          % B ^ (as.length + 1) := (digit_mod_pow _ _ _ hdlt).symm
      _ = (valB (a :: as) + valB (b :: bs) + fw) % B ^ (a :: as).length := by
          rw [valB_cons, valB_cons, List.length_cons]
          congr 1
          rw [Nat.mul_add, Nat.mul_add]
          omega

theorem addLoop_length : ∀ (a b : List Nat) (fw : Nat), a.length = b.length →
    (addLoop a b fw).length = a.length
  | [], [], _, _ => rfl
  | [], _ :: _, _, h => by simp at h
  | _ :: _, [], _, h => by simp at h
  | a :: as, b :: bs, fw, h => by
    rw [addLoop]
    simpa using addLoop_length as bs _ (by simpa using h)

theorem addLoop_digits : ∀ (a b : List Nat) (fw : Nat),
    ∀ x ∈ addLoop a b fw, x < B
  | [], _, _ => by simp [addLoop]
  | _ :: _, [], _ => by simp [addLoop]
  | a :: as, b :: bs, fw => by
    rw [addLoop]
    intro x hx
    rcases List.mem_cons.mp hx with h | h
    · subst h; exact Nat.mod_lt _ B_pos
    · exact addLoop_digits as bs _ x h

theorem addB_good {N a b} (ha : Good N a) (hb : Good N b) : Good N (addB a b) :=
  ⟨by rw [addB, addLoop_length a b 0 (by rw [ha.1, hb.1])]; exact ha.1,
   addLoop_digits a b 0⟩

theorem addB_val {N a b} (ha : Good N a) (hb : Good N b) :
    valB (addB a b) = (valB a + valB b) % B ^ N := by
  have := addLoop_val a b 0 (by rw [ha.1, hb.1]) ha.2 hb.2 (by omega)
  simpa [addB, ha.1] using this

/-! ## Subtraction (`SubAssign for Bigi`)

Rust: `pair = self[i].overflowing_sub(other[i]); self[i] = pair.0.overflowing_sub(fw).0;
fw = (pair.1 || (fw == 1 && pair.0 == 0)) as u64`. -/

def subLoop : List Nat → List Nat → Nat → List Nat
  | a :: as, b :: bs, fw =>
    let p0 := (B + a - b) % B
    let d := (B + p0 - fw) % B
    let fw2 := if a < b ∨ (fw = 1 ∧ p0 = 0) then 1 else 0
    d :: subLoop as bs fw2
  | _, _, _ => []

/-- `Bigi - Bigi` (wrapping). -/
def subB (a b : List Nat) : List Nat := subLoop a b 0

/-- The overflowing-sub pair logic computes the true borrow chain:
digit `d` and borrow `c` satisfy `d + b + fw = a + B * c`. -/
theorem sub_borrow_step (a b fw : Nat) (ha : a < B) (hb : b < B) (hfw : fw ≤ 1) :
    (B + (B + a - b) % B - fw) % B + b + fw
      = a + B * (if a < b ∨ (fw = 1 ∧ (B + a - b) % B = 0) then 1 else 0) ∧
    (B + (B + a - b) % B - fw) % B < B := by
  rw [B_eq] at ha hb ⊢
  constructor
  · split <;> omega
  · omega

theorem subLoop_val : ∀ (a b : List Nat) (fw : Nat), a.length = b.length →
    (∀ x ∈ a, x < B) → (∀ x ∈ b, x < B) → fw ≤ 1 →
    valB (subLoop a b fw) = (valB a + B ^ a.length - valB b - fw) % B ^ a.length
  | [], [], fw, _, _, _, hfw => by
    simp [subLoop, valB, Nat.mod_one]
  | [], _ :: _, _, hlen, _, _, _ => by simp at hlen
  | _ :: _, [], _, hlen, _, _, _ => by simp at hlen
  | a :: as, b :: bs, fw, hlen, ha, hb, hfw => by
    have ha0 : a < B := ha a (by simp)
    have hb0 : b < B := hb b (by simp)
    obtain ⟨hdm, hdlt⟩ := sub_borrow_step a b fw ha0 hb0 hfw
    set c := if a < b ∨ (fw = 1 ∧ (B + a - b) % B = 0) then 1 else 0 with hc
    have hcle : c ≤ 1 := by rw [hc]; split <;> omega
    set d := (B + (B + a - b) % B - fw) % B with hd
    have hbsval : valB bs < B ^ bs.length := valB_lt_pow bs (fun x hx => hb x (by simp [hx]))
    have hasval : valB as < B ^ as.length := valB_lt_pow as (fun x hx => ha x (by simp [hx]))
    have hlen2 : as.length = bs.length := by simpa using hlen
    -- the inner truncated subtraction never underflows
    have hinner : valB bs + c ≤ valB as + B ^ as.length := by
      rw [hlen2]; omega
    have hmulinner : B * (valB as + B ^ as.length - valB bs - c)
        + B * valB bs + B * c = B * valB as + B * B ^ as.length := by
      rw [← Nat.mul_add, ← Nat.mul_add, ← Nat.mul_add]
      congr 1
      omega
    calc valB (subLoop (a :: as) (b :: bs) fw)
        = d + B * valB (subLoop as bs c) := by rw [subLoop]; rfl
      _ = d + B * ((valB as + B ^ as.length - valB bs - c) % B ^ as.length) := by
          rw [subLoop_val as bs c (by simpa using hlen)
            (fun x hx => ha x (by simp [hx])) (fun x hx => hb x (by simp [hx])) hcle]
      _ = (d + B * (valB as + B ^ as.length - valB bs - c)) % B ^ (as.length + 1) :=
          (digit_mod_pow _ _ _ hdlt).symm
      _ = (valB (a :: as) + B ^ (a :: as).length - valB (b :: bs) - fw)
          % B ^ (a :: as).length := by
          rw [valB_cons, valB_cons, List.length_cons]
          congr 1
          have hp : B ^ (as.length + 1) = B * B ^ as.length := by
            rw [pow_succ, Nat.mul_comm]
          rw [hp]
          omega

theorem subLoop_length : ∀ (a b : List Nat) (fw : Nat), a.length = b.length →
    (subLoop a b fw).length = a.length
  | [], [], _, _ => rfl
  | [], _ :: _, _, h => by simp at h
  | _ :: _, [], _, h => by simp at h
  | a :: as, b :: bs, fw, h => by
    rw [subLoop]
    simpa using subLoop_length as bs _ (by simpa using h)

theorem subLoop_digits : ∀ (a b : List Nat) (fw : Nat),
    ∀ x ∈ subLoop a b fw, x < B
  | [], _, _ => by simp [subLoop]
  | _ :: _, [], _ => by simp [subLoop]
  | a :: as, b :: bs, fw => by
    rw [subLoop]
    intro x hx
    rcases List.mem_cons.mp hx with h | h
    · subst h; exact Nat.mod_lt _ B_pos
    · exact subLoop_digits as bs _ x h

theorem subB_good {N a b} (ha : Good N a) (hb : Good N b) : Good N (subB a b) :=
  ⟨by rw [subB, subLoop_length a b 0 (by rw [ha.1, hb.1])]; exact ha.1,
   subLoop_digits a b 0⟩

theorem subB_val {N a b} (ha : Good N a) (hb : Good N b) :
    valB (subB a b) = (valB a + B ^ N - valB b) % B ^ N := by
  have := subLoop_val a b 0 (by rw [ha.1, hb.1]) ha.2 hb.2 (by omega)
  simpa [subB, ha.1] using this

/-- Exact subtraction when no underflow. -/
theorem subB_val_exact {N a b} (ha : Good N a) (hb : Good N b) (h : valB b ≤ valB a) :
    valB (subB a b) = valB a - valB b := by
  rw [subB_val ha hb]
  have haN := valB_lt N a ha
  have : valB a + B ^ N - valB b = (valB a - valB b) + B ^ N := by omega
  rw [this, Nat.add_mod_right]
  apply Nat.mod_eq_of_lt
  omega

theorem valB_append : ∀ (xs ys : List Nat),
    valB (xs ++ ys) = valB xs + B ^ xs.length * valB ys
  | [], ys => by simp [valB]
  | x :: xs, ys => by
    rw [List.cons_append, valB_cons, valB_cons, valB_append xs ys, List.length_cons, pow_succ]
    ring

/-! ## Multiplication (`Mul for Bigi`)

Rust: `for i in 0..N { fw = 0; for j in 0..(N-i) { fw = other[i]*self[j] + res[i+j] + fw;
res[i+j] = fw as u64; fw >>= 64 } }`.  The inner loop (index `j`) walks the digits of
`self` together with the suffix of `res` starting at `i`; the outer loop (index `i`)
peels one digit of `other` and moves to the next suffix of `res`. -/

def mulInner (bi : Nat) : List Nat → List Nat → Nat → List Nat
  | _, [], _ => []
  | [], rs, _ => rs
  | aj :: as, r :: rs, fw =>
    let t := bi * aj + r + fw
    t % B :: mulInner bi as rs (t / B)

def mulOuter (a : List Nat) : List Nat → List Nat → List Nat
  | [], res => res
  | bi :: bs, res =>
    match mulInner bi a res 0 with
    | [] => []
    | r0 :: rs => r0 :: mulOuter a bs rs

/-- `Bigi * Bigi` (truncating at `N` digits). -/
def mulB (a b : List Nat) : List Nat := mulOuter a b (List.replicate b.length 0)

theorem mulInner_length (bi : Nat) : ∀ (a rs : List Nat) (fw : Nat),
    (mulInner bi a rs fw).length = rs.length
  | _, [], _ => by simp [mulInner]
  | [], _ :: _, _ => by simp [mulInner]
  | aj :: as, r :: rs, fw => by
    rw [mulInner]
    simpa using mulInner_length bi as rs _

theorem mulInner_digits (bi : Nat) : ∀ (a rs : List Nat) (fw : Nat),
    (∀ x ∈ rs, x < B) → ∀ x ∈ mulInner bi a rs fw, x < B
  | _, [], _, _ => by simp [mulInner]
  | [], r :: rs, _, h => by simpa [mulInner] using h
  | aj :: as, r :: rs, fw, h => by
    rw [mulInner]
    intro x hx
    rcases List.mem_cons.mp hx with h1 | h1
    · subst h1; exact Nat.mod_lt _ B_pos
    · exact mulInner_digits bi as rs _ (fun y hy => h y (by simp [hy])) x h1

/-- Value identity for the inner accumulate loop. -/
theorem mulInner_val (bi : Nat) : ∀ (a rs : List Nat) (fw : Nat),
    rs.length ≤ a.length →
    valB (mulInner bi a rs fw)
      = (bi * valB (a.take rs.length) + valB rs + fw) % B ^ rs.length
  | _, [], _, _ => by simp [mulInner, valB, Nat.mod_one]
  | [], r :: rs, _, h => by simp at h
  | aj :: as, r :: rs, fw, h => by
    rw [mulInner]
    have ih := mulInner_val bi as rs ((bi * aj + r + fw) / B) (by simpa using h)
    have hdm : B * ((bi * aj + r + fw) / B) + (bi * aj + r + fw) % B = bi * aj + r + fw :=
      Nat.div_add_mod _ _
    have hdlt : (bi * aj + r + fw) % B < B := Nat.mod_lt _ B_pos
    calc valB ((bi * aj + r + fw) % B :: mulInner bi as rs ((bi * aj + r + fw) / B))
        = (bi * aj + r + fw) % B
          + B * ((bi * valB (as.take rs.length) + valB rs + (bi * aj + r + fw) / B)
                  % B ^ rs.length) := by rw [valB_cons, ih]
      _ = ((bi * aj + r + fw) % B
          + B * (bi * valB (as.take rs.length) + valB rs + (bi * aj + r + fw) / B))
          % B ^ (rs.length + 1) := (digit_mod_pow _ _ _ hdlt).symm
      _ = (bi * valB ((aj :: as).take (r :: rs).length) + valB (r :: rs) + fw)
          % B ^ (r :: rs).length := by
          rw [List.length_cons, List.take_succ_cons, valB_cons, valB_cons]
          congr 1
          rw [Nat.mul_add, Nat.mul_add, Nat.mul_add]
          ring_nf
          ring_nf at hdm
          omega

theorem mulOuter_length (a : List Nat) : ∀ (bs res : List Nat),
    (mulOuter a bs res).length = res.length
  | [], res => by simp [mulOuter]
  | bi :: bs, res => by
    rw [mulOuter]
    have h := mulInner_length bi a res 0
    match hm : mulInner bi a res 0 with
    | [] => simp [hm] at h ⊢; omega
    | r0 :: rs =>
      rw [hm] at h
      simpa [← h] using mulOuter_length a bs rs

theorem mulOuter_digits (a : List Nat) : ∀ (bs res : List Nat),
    (∀ x ∈ res, x < B) → ∀ x ∈ mulOuter a bs res, x < B
  | [], res, h => by simpa [mulOuter] using h
  | bi :: bs, res, h => by
    rw [mulOuter]
    have hd := mulInner_digits bi a res 0 h
    match hm : mulInner bi a res 0 with
    | [] => simp
    | r0 :: rs =>
      rw [hm] at hd
      intro x hx
      rcases List.mem_cons.mp hx with h1 | h1
      · subst h1; exact hd x (by simp)
      · exact mulOuter_digits a bs rs (fun y hy => hd y (by simp [hy])) x h1

theorem mulOuter_val (a : List Nat) (ha : ∀ x ∈ a, x < B) :
    ∀ (bs res : List Nat), res.length ≤ a.length → (∀ x ∈ res, x < B) →
    valB (mulOuter a bs res) = (valB a * valB bs + valB res) % B ^ res.length
  | [], res, _, hres => by
    have := valB_lt_pow res hres
    simp [mulOuter, valB]
    rw [Nat.mod_eq_of_lt this]
  | bi :: bs, res, hlen, hres => by
    rw [mulOuter]
    have hiv := mulInner_val bi a res 0 hlen
    have hidig := mulInner_digits bi a res 0 hres
    have hilen := mulInner_length bi a res 0
    -- `bi * take res.length a ≡ bi * a  [MOD B ^ res.length]`
    have hsplit : valB a
        = valB (a.take res.length) + B ^ res.length * valB (a.drop res.length) := by
      conv_lhs => rw [← List.take_append_drop res.length a]
      rw [valB_append, List.length_take, Nat.min_eq_left hlen]
    have htake : (bi * valB (a.take res.length) + valB res + 0) % B ^ res.length
        = (bi * valB a + valB res) % B ^ res.length := by
      calc (bi * valB (a.take res.length) + valB res + 0) % B ^ res.length
          = (bi * valB (a.take res.length) + valB res) % B ^ res.length := by
            rw [Nat.add_zero]
        _ = (bi * valB (a.take res.length) + valB res
            + B ^ res.length * (bi * valB (a.drop res.length))) % B ^ res.length := by
            rw [Nat.add_mul_mod_self_left]
        _ = (bi * valB a + valB res) % B ^ res.length := by
            rw [hsplit]; congr 1; ring
    match hm : mulInner bi a res 0 with
    | [] =>
      have : res.length = 0 := by have := hilen; rw [hm] at this; simpa using this.symm
      have hres0 : res = [] := List.length_eq_zero.mp this
      subst hres0
      simp [mulOuter, valB, Nat.mod_one]
    | r0 :: rs =>
      rw [hm] at hiv hidig hilen
      have hr0 : r0 < B := hidig r0 (by simp)
      have hlen2 : rs.length + 1 = res.length := by simpa using hilen
      have ihv := mulOuter_val a ha bs rs
        (by omega) (fun y hy => hidig y (by simp [hy]))
      calc valB (r0 :: mulOuter a bs rs)
          = r0 + B * ((valB a * valB bs + valB rs) % B ^ rs.length) := by
            rw [valB_cons, ihv]
        _ = (r0 + B * (valB a * valB bs + valB rs)) % B ^ (rs.length + 1) :=
            (digit_mod_pow _ _ _ hr0).symm
        _ = (valB a * valB (bi :: bs) + valB res) % B ^ res.length := by
            rw [hlen2, valB_cons]
            have hiv2 : valB (r0 :: rs) = (bi * valB a + valB res) % B ^ res.length := by
              rw [hiv, htake]
            rw [show r0 + B * (valB a * valB bs + valB rs)
              = (r0 + B * valB rs) + B * (valB a * valB bs) by ring]
            rw [show r0 + B * valB rs = valB (r0 :: rs) from rfl, hiv2, Nat.mod_add_mod]
            congr 1
            ring


theorem mulB_good {N a b} (ha : Good N a) (hb : Good N b) : Good N (mulB a b) := by
  constructor
  · rw [mulB, mulOuter_length, List.length_replicate, hb.1]
  · exact mulOuter_digits a b _
      (fun x hx => by rw [List.eq_of_mem_replicate hx]; exact B_pos)

theorem valB_replicate_zero (n : Nat) : valB (List.replicate n 0) = 0 := by
  induction n with
  | zero => rfl
  | succ n ih => rw [List.replicate_succ, valB_cons, ih]; simp

theorem mulB_val {N a b} (ha : Good N a) (hb : Good N b) :
    valB (mulB a b) = valB a * valB b % B ^ N := by
  rw [mulB, mulOuter_val a ha.2 b _ (by rw [List.length_replicate, hb.1, ha.1])
    (by simp [B_eq]), valB_replicate_zero, List.length_replicate, hb.1, Nat.add_zero]

/-! ## Comparison (`PartialOrd for Bigi`)

Rust compares digits from the most significant (index `N-1`) down. We embed the loop
as lexicographic comparison of the reversed digit lists. -/

def cmpRev : List Nat → List Nat → Ordering
  | a :: as, b :: bs =>
    if b < a then .gt
    else if a < b then .lt
    else cmpRev as bs
  | _, _ => .eq

/-- `Bigi::partial_cmp` (digits scanned from index `N-1` down to `0`). -/
def cmpB (a b : List Nat) : Ordering := cmpRev a.reverse b.reverse

def ltB (a b : List Nat) : Bool := cmpB a b == .lt

/-- Value of a most-significant-first digit list. -/
def valM : List Nat → Nat
  | [] => 0
  | d :: ds => d * B ^ ds.length + valM ds

theorem valM_append_one : ∀ (l : List Nat) (d : Nat), valM (l ++ [d]) = valM l * B + d
  | [], d => by simp [valM]
  | x :: xs, d => by
    rw [List.cons_append, valM, valM, valM_append_one xs d, List.length_append]
    simp [valM]
    ring

theorem valM_reverse : ∀ (a : List Nat), valM a.reverse = valB a
  | [] => rfl
  | d :: ds => by
    rw [List.reverse_cons, valB_cons, valM_append_one, valM_reverse ds]
    ring

theorem valM_lt_pow (a : List Nat) (h : ∀ x ∈ a, x < B) : valM a < B ^ a.length := by
  have h1 := valB_lt_pow a.reverse (by simpa using fun x hx => h x hx)
  rw [← valM_reverse] at h1
  simp only [List.reverse_reverse, List.length_reverse] at h1
  exact h1

theorem cmpRev_correct : ∀ (a b : List Nat), a.length = b.length →
    (∀ x ∈ a, x < B) → (∀ x ∈ b, x < B) →
    cmpRev a b = compare (valM a) (valM b)
  | [], [], _, _, _ => by simp [cmpRev, valM, compare, compareOfLessAndEq]
  | [], _ :: _, h, _, _ => by simp at h
  | _ :: _, [], h, _, _ => by simp at h
  | a :: as, b :: bs, hlen, ha, hb => by
    have hlen2 : as.length = bs.length := by simpa using hlen
    have hasb := valM_lt_pow as (fun x hx => ha x (by simp [hx]))
    have hbsb := valM_lt_pow bs (fun x hx => hb x (by simp [hx]))
    rw [hlen2] at hasb
    rw [cmpRev]
    by_cases hgt : b < a
    · rw [if_pos hgt]
      have hlt2 : valM (b :: bs) < valM (a :: as) := by
        rw [valM, valM, hlen2]
        have : (b + 1) * B ^ bs.length ≤ a * B ^ bs.length :=
          Nat.mul_le_mul_right _ hgt
        rw [Nat.add_mul, Nat.one_mul] at this
        omega
      have h1 : ¬ valM (a :: as) < valM (b :: bs) := Nat.lt_asymm hlt2
      have h2 : valM (a :: as) ≠ valM (b :: bs) := Nat.ne_of_gt hlt2
      simp [compare, compareOfLessAndEq, h1, h2]
    · rw [if_neg hgt]
      by_cases hlt : a < b
      · rw [if_pos hlt]
        have hlt2 : valM (a :: as) < valM (b :: bs) := by
          rw [valM, valM, hlen2]
          have : (a + 1) * B ^ bs.length ≤ b * B ^ bs.length :=
            Nat.mul_le_mul_right _ hlt
          rw [Nat.add_mul, Nat.one_mul] at this
          omega
        simp [compare, compareOfLessAndEq, hlt2]
      · rw [if_neg hlt]
        have hab : a = b := by omega
        subst hab
        rw [cmpRev_correct as bs hlen2
          (fun x hx => ha x (by simp [hx])) (fun x hx => hb x (by simp [hx]))]
        rw [valM, valM, hlen2]
        rcases Nat.lt_trichotomy (valM as) (valM bs) with h | h | h
        · have h2 : valM as ≠ valM bs := Nat.ne_of_lt h
          have h3 : a * B ^ bs.length + valM as < a * B ^ bs.length + valM bs := by omega
          have h4 : a * B ^ bs.length + valM as ≠ a * B ^ bs.length + valM bs := by omega
          simp [compare, compareOfLessAndEq, h, h2, h3, h4]
        · simp [compare, compareOfLessAndEq, h]
        · have h1 : ¬ valM as < valM bs := Nat.lt_asymm h
          have h2 : valM as ≠ valM bs := Nat.ne_of_gt h
          have h3 : ¬ (a * B ^ bs.length + valM as < a * B ^ bs.length + valM bs) := by omega
          have h4 : a * B ^ bs.length + valM as ≠ a * B ^ bs.length + valM bs := by omega
          simp [compare, compareOfLessAndEq, h1, h2, h3, h4]

theorem cmpB_correct {N a b} (ha : Good N a) (hb : Good N b) :
    cmpB a b = compare (valB a) (valB b) := by
  rw [cmpB, cmpRev_correct a.reverse b.reverse
    (by simp [ha.1, hb.1]) (by simpa using ha.2) (by simpa using hb.2),
    valM_reverse, valM_reverse]

theorem ltB_iff {N a b} (ha : Good N a) (hb : Good N b) :
    ltB a b = true ↔ valB a < valB b := by
  rw [ltB, cmpB_correct ha hb]
  rcases Nat.lt_trichotomy (valB a) (valB b) with h | h | h
  · simp only [compare, compareOfLessAndEq, if_pos h]
    constructor
    · intro _; exact h
    · intro _; rfl
  · have h1 : ¬ valB a < valB b := by omega
    simp only [compare, compareOfLessAndEq, if_neg h1, if_pos h]
    constructor
    · intro hcon; exact absurd hcon (by decide)
    · intro hcon; exact absurd hcon h1
  · have h1 : ¬ valB a < valB b := Nat.lt_asymm h
    have h2 : valB a ≠ valB b := Nat.ne_of_gt h
    simp only [compare, compareOfLessAndEq, if_neg h1, if_neg h2]
    constructor
    · intro hcon; exact absurd hcon (by decide)
    · intro hcon; exact absurd hcon h1

/-! ## Conversion and basic probes -/

/-- `From<u64> for Bigi`: `res.digits[0] = z`. -/
def fromU64 (N : Nat) (z : Nat) : List Nat := (List.replicate N 0).set 0 z

theorem fromU64_good {N z} (hN : 1 ≤ N) (hz : z < B) : Good N (fromU64 N z) := by
  constructor
  · simp [fromU64]
  · intro x hx
    rcases List.mem_or_eq_of_mem_set hx with h | h
    · have := List.eq_of_mem_replicate h
      omega
    · omega

theorem fromU64_val {N z} (hN : 1 ≤ N) : valB (fromU64 N z) = z := by
  match N, hN with
  | n + 1, _ =>
    rw [fromU64, List.replicate_succ, List.set_cons_zero, valB_cons, valB_replicate_zero]
    ring

/-- `Bigi::is_zero`: all digits are zero. -/
def isZero (a : List Nat) : Bool := a.all (· == 0)

theorem isZero_iff (a : List Nat) : isZero a = true ↔ valB a = 0 := by
  induction a with
  | nil => simp [isZero, valB]
  | cons d ds ih =>
    rw [isZero] at ih ⊢
    simp only [List.all_cons, Bool.and_eq_true, beq_iff_eq, valB_cons]
    have := B_pos
    constructor
    · rintro ⟨h1, h2⟩
      rw [h1, ih.mp h2]
      ring
    · intro h
      have hd : d = 0 := by omega
      have hds : B * valB ds = 0 := by omega
      have hds2 : valB ds = 0 := by
        rcases Nat.mul_eq_zero.mp hds with h1 | h1
        · exact absurd h1 (by omega)
        · exact h1
      exact ⟨hd, ih.mpr hds2⟩

/-- `Bigi::is_odd`: `digits[0] & 1 == 1`. -/
def isOdd (a : List Nat) : Bool := a.getD 0 0 % 2 == 1

/-- `Bigi::is_even`: `digits[0] & 1 == 0`. -/
def isEven (a : List Nat) : Bool := a.getD 0 0 % 2 == 0

theorem isOdd_iff {N a} (hN : 1 ≤ N) (ha : Good N a) : isOdd a = true ↔ valB a % 2 = 1 := by
  match a, N, hN with
  | d :: ds, n + 1, _ =>
    rw [isOdd, valB_cons]
    have hB2 : B * valB ds % 2 = 0 := by
      rw [Nat.mul_mod, B_eq]
      simp
    have hmod : (d + B * valB ds) % 2 = d % 2 := by omega
    rw [hmod]
    simp
  | [], n + 1, _ => exact absurd ha.1 (by simp)

theorem isEven_iff {N a} (hN : 1 ≤ N) (ha : Good N a) : isEven a = true ↔ valB a % 2 = 0 := by
  match a, N, hN with
  | d :: ds, n + 1, _ =>
    rw [isEven, valB_cons]
    have hB2 : B * valB ds % 2 = 0 := by
      rw [Nat.mul_mod, B_eq]
      simp
    have hmod : (d + B * valB ds) % 2 = d % 2 := by omega
    rw [hmod]
    simp
  | [], n + 1, _ => exact absurd ha.1 (by simp)

/-! ## Modular addition (`prime::add_mod` and `Modulo::add`)

Rust (both sites have the identical body):
`let yi = *m - y; if *x < yi { *x + y } else { *x - &yi }`. -/

def add_mod (x y m : List Nat) : List Nat :=
  let yi := subB m y
  if ltB x yi then addB x y else subB x yi

/-- `Modulo<N>` holds a copy of the modulus. -/
structure Modulo where
  modulo : List Nat

/-- `Modulo::add`. -/
def Modulo.add (self : Modulo) (x y : List Nat) : List Nat :=
  let yi := subB self.modulo y
  if ltB x yi then addB x y else subB x yi

theorem add_mod_val {N : Nat} {x y m : List Nat} (hx : Good N x) (hy : Good N y) (hm : Good N m)
    (hxm : valB x < valB m) (hym : valB y < valB m) :
    valB (add_mod x y m) = (valB x + valB y) % valB m := by
  have hyi : valB (subB m y) = valB m - valB y := subB_val_exact hm hy (by omega)
  have hyig : Good N (subB m y) := subB_good hm hy
  have hmN := valB_lt N m hm
  rw [add_mod]
  by_cases hlt : ltB x (subB m y) = true
  · rw [if_pos hlt]
    rw [ltB_iff hx hyig, hyi] at hlt
    have hsum : valB x + valB y < valB m := by omega
    rw [addB_val hx hy, Nat.mod_eq_of_lt (by omega), Nat.mod_eq_of_lt hsum]
  · rw [if_neg (by simpa using hlt)]
    rw [ltB_iff hx hyig, hyi] at hlt
    push_neg at hlt
    have hge : valB m - valB y ≤ valB x := hlt
    rw [subB_val_exact hx hyig (by omega), hyi]
    have h2m : valB x + valB y < 2 * valB m := by omega
    have hge2 : valB m ≤ valB x + valB y := by omega
    rw [Nat.mod_eq_sub_mod hge2, Nat.mod_eq_of_lt (by omega)]
    omega

/--
C7: for a positive modulus `m` and reduced inputs `x, y < m`, the free function
`add_mod` and `Modulo::add` (which have the same one-conditional-subtraction body,
built only from width-`N` compare/add/sub, with no double-width addition) both
return exactly `(x + y) mod m`.
-/
theorem C7_add_mod_exact {N : Nat} (x y m : List Nat) (hx : Good N x) (hy : Good N y)
    (hm : Good N m) (hxm : valB x < valB m) (hym : valB y < valB m) :
    valB (add_mod x y m) = (valB x + valB y) % valB m ∧
    (Modulo.mk m).add x y = add_mod x y m :=
  ⟨add_mod_val hx hy hm hxm hym, rfl⟩

/-- C7 witness: `Modulo(19).add(13, 6)` at width `N = 1`. -/
theorem C7_add_mod_exact_witness :
    valB (add_mod [13] [6] [19]) = (valB [13] + valB [6]) % valB [19] ∧
    (Modulo.mk [19]).add [13] [6] = add_mod [13] [6] [19] :=
  @C7_add_mod_exact 1 [13] [6] [19] (by decide) (by decide) (by decide)
    (by norm_num [valB, B]) (by norm_num [valB, B])

/--
C8: fixed-width arithmetic wraps silently modulo `2^(64*N)`: for all
well-formed `a`, `b`, `(a + b) - b == a`, `a * 1 == a` and `a + 0 == a`
hold as digit arrays.
-/
theorem C8_wrap_identities {N : Nat} (a b : List Nat) (hN : 1 ≤ N)
    (ha : Good N a) (hb : Good N b) :
    subB (addB a b) b = a ∧ mulB a (fromU64 N 1) = a ∧ addB a (fromU64 N 0) = a := by
  have hone : Good N (fromU64 N 1) := fromU64_good hN one_lt_B
  have hzero : Good N (fromU64 N 0) := fromU64_good hN B_pos
  have haM := valB_lt N a ha
  have hbM := valB_lt N b hb
  have hM : 0 < B ^ N := Nat.pos_pow_of_pos _ B_pos
  refine ⟨?_, ?_, ?_⟩
  · apply valB_inj _ _ (by rw [(subB_good (addB_good ha hb) hb).1, ha.1])
      (subB_good (addB_good ha hb) hb).2 ha.2
    rw [subB_val (addB_good ha hb) hb, addB_val ha hb]
    by_cases hxy : valB a + valB b < B ^ N
    · rw [Nat.mod_eq_of_lt hxy]
      have heq : valB a + valB b + B ^ N - valB b = valB a + B ^ N := by omega
      rw [heq, Nat.add_mod_right, Nat.mod_eq_of_lt haM]
    · push_neg at hxy
      have hsub : (valB a + valB b - B ^ N) % B ^ N = valB a + valB b - B ^ N :=
        Nat.mod_eq_of_lt (by omega)
      rw [Nat.mod_eq_sub_mod hxy, hsub]
      have heq : valB a + valB b - B ^ N + B ^ N - valB b = valB a := by omega
      rw [heq, Nat.mod_eq_of_lt haM]
  · apply valB_inj _ _ (by rw [(mulB_good ha hone).1, ha.1]) (mulB_good ha hone).2 ha.2
    rw [mulB_val ha hone, fromU64_val hN, Nat.mul_one, Nat.mod_eq_of_lt haM]
  · apply valB_inj _ _ (by rw [(addB_good ha hzero).1, ha.1]) (addB_good ha hzero).2 ha.2
    rw [addB_val ha hzero, fromU64_val hN, Nat.add_zero, Nat.mod_eq_of_lt haM]

/-- C8 witness at `N = 1`, `a = [5]`, `b = [3]`. -/
theorem C8_wrap_identities_witness :
    subB (addB [5] [3]) [3] = [5] ∧ mulB [5] (fromU64 1 1) = [5] ∧
    addB [5] (fromU64 1 0) = [5] :=
  @C8_wrap_identities 1 [5] [3] (by decide) (by decide) (by decide)

/-! ## Order (`Bigi::get_order`)

Rust: `idx = N; while idx > 0 && digits[idx-1] == 0 { idx -= 1 }` — i.e. the length
after discarding the zero digits at the most significant end. -/

def getOrder (a : List Nat) : Nat := (a.reverse.dropWhile (· == 0)).length

theorem getOrder_le (a : List Nat) : getOrder a ≤ a.length := by
  rw [getOrder]
  calc (a.reverse.dropWhile (· == 0)).length ≤ a.reverse.length :=
        (List.dropWhile_sublist _).length_le
    _ = a.length := List.length_reverse a

theorem getOrder_split (a : List Nat) :
    a = a.take (getOrder a) ++ List.replicate (a.length - getOrder a) 0 := by
  set c := (a.reverse.dropWhile (· == 0)).reverse with hc
  set z := (a.reverse.takeWhile (· == 0)).reverse with hz
  have h1 : a.reverse.takeWhile (· == 0) ++ a.reverse.dropWhile (· == 0) = a.reverse :=
    List.takeWhile_append_dropWhile _ _
  have h2 : a = c ++ z := by
    have h3 := congrArg List.reverse h1
    rw [List.reverse_append, List.reverse_reverse] at h3
    rw [hc, hz]
    exact h3.symm
  have hclen : c.length = getOrder a := by rw [hc, List.length_reverse, getOrder]
  have hzlen : z.length = a.length - getOrder a := by
    have h4 := congrArg List.length h1
    rw [List.length_append, List.length_reverse] at h4
    rw [hz, List.length_reverse, getOrder]
    omega
  have hzrepl : z = List.replicate (a.length - getOrder a) 0 := by
    have hmem : ∀ x ∈ z, x = 0 := by
      intro x hx
      rw [hz, List.mem_reverse] at hx
      simpa using List.mem_takeWhile_imp hx
    rw [← hzlen]
    exact List.eq_replicate_of_mem hmem
  have htake : a.take (getOrder a) = c := by
    rw [← hclen, h2]
    exact List.take_left c z
  rw [htake, ← hzrepl]
  exact h2

theorem valB_take_getOrder (a : List Nat) : valB (a.take (getOrder a)) = valB a := by
  conv_rhs => rw [getOrder_split a]
  rw [valB_append, valB_replicate_zero]
  ring

theorem valB_lt_pow_getOrder {N a} (ha : Good N a) : valB a < B ^ getOrder a := by
  rw [← valB_take_getOrder]
  have h := valB_lt_pow (a.take (getOrder a))
    (fun x hx => ha.2 x (List.mem_of_mem_take hx))
  have hlen : (a.take (getOrder a)).length = getOrder a := by
    rw [List.length_take, Nat.min_eq_left (getOrder_le a)]
  rwa [hlen] at h

/-- When the order is positive, the top retained digit is nonzero. -/
theorem getOrder_top_ne (a : List Nat) (h : 0 < getOrder a) :
    a.getD (getOrder a - 1) 0 ≠ 0 := by
  set c := (a.reverse.dropWhile (· == 0)).reverse with hc
  have h1 : a.reverse.takeWhile (· == 0) ++ a.reverse.dropWhile (· == 0) = a.reverse :=
    List.takeWhile_append_dropWhile _ _
  have h2 : a = c ++ (a.reverse.takeWhile (· == 0)).reverse := by
    have h3 := congrArg List.reverse h1
    rw [List.reverse_append, List.reverse_reverse] at h3
    rw [hc]
    exact h3.symm
  have hclen : c.length = getOrder a := by rw [hc, List.length_reverse, getOrder]
  have hne : a.reverse.dropWhile (· == 0) ≠ [] := by
    intro hcon
    rw [getOrder, hcon] at h
    simp at h
  have hhead := List.head_dropWhile_not (fun x => x == 0) a.reverse hne
  rw [beq_eq_false_iff_ne] at hhead
  have hcne : c ≠ [] := by
    rw [hc]
    simpa using hne
  have hlast : c.getLast hcne = (a.reverse.dropWhile (· == 0)).head hne := by
    exact List.getLast_reverse hcne
  have hlt : getOrder a - 1 < a.length := by
    have := getOrder_le a
    omega
  have hgetd : a.getD (getOrder a - 1) 0 = c.getLast hcne := by
    have hidx : getOrder a - 1 < c.length := by omega
    have h4 : a.getD (getOrder a - 1) 0 =
        (c ++ (a.reverse.takeWhile (· == 0)).reverse).getD (getOrder a - 1) 0 := by
      rw [← h2]
    rw [h4, List.getD_append _ _ _ _ hidx, List.getLast_eq_getElem,
      List.getD_eq_getElem?_getD, List.getElem?_eq_getElem hidx, Option.getD_some]
    congr 1
    omega
  rw [hgetd, hlast]
  exact hhead

/-- Lower bound from the top nonzero digit. -/
theorem valB_ge_top (a : List Nat) (h : 0 < getOrder a) :
    B ^ (getOrder a - 1) * a.getD (getOrder a - 1) 0 ≤ valB a := by
  have hlt : getOrder a - 1 < a.length := by
    have := getOrder_le a
    omega
  set g1 := getOrder a - 1 with hg1
  have hsucc : getOrder a = g1 + 1 := by omega
  have htake : a.take (getOrder a) = a.take g1 ++ [a.getD g1 0] := by
    rw [hsucc, List.take_succ, List.getElem?_eq_getElem hlt]
    congr 1
    rw [List.getD_eq_getElem?_getD, List.getElem?_eq_getElem hlt]
    rfl
  have hlen : (a.take g1).length = g1 := by
    rw [List.length_take, Nat.min_eq_left (by omega)]
  calc B ^ g1 * a.getD g1 0
      ≤ valB (a.take g1) + B ^ g1 * (a.getD g1 0 + B * 0) := by
        rw [Nat.mul_add]
        omega
    _ = valB (a.take (getOrder a)) := by
        rw [htake, valB_append, hlen]
        rfl
    _ = valB a := valB_take_getOrder a

theorem getOrder_pos_of_valB_pos (a : List Nat) (h : 0 < valB a) : 0 < getOrder a := by
  by_contra hcon
  push_neg at hcon
  have h0 : getOrder a = 0 := by omega
  have := valB_take_getOrder a
  rw [h0] at this
  simp [valB] at this
  omega

/-! ## Bit length (`Bigi::bit_length`)

Rust: binary search on the top nonzero digit,
`r = 0; s = 32; while s > 0 { if val >= 1 << (r+s) { r += s }; s >>= 1 }`. -/

def leadBit (v : Nat) : Nat → Nat → Nat → Nat
  | 0, r, _ => r
  | _ + 1, r, 0 => r
  | fuel + 1, r, s + 1 =>
    if 2 ^ (r + (s + 1)) ≤ v then leadBit v fuel (r + (s + 1)) ((s + 1) / 2)
    else leadBit v fuel r ((s + 1) / 2)

theorem leadBit_pos (v fuel r s : Nat) (h : 0 < s) :
    leadBit v (fuel + 1) r s
      = if 2 ^ (r + s) ≤ v then leadBit v fuel (r + s) (s / 2)
        else leadBit v fuel r (s / 2) := by
  match s, h with
  | s + 1, _ => rw [leadBit]

theorem leadBit_correct (v : Nat) : ∀ (k r : Nat), 2 ^ r ≤ v → v < 2 ^ (r + 2 * 2 ^ k) →
    2 ^ leadBit v (k + 1) r (2 ^ k) ≤ v ∧ v < 2 ^ (leadBit v (k + 1) r (2 ^ k) + 1) := by
  intro k
  induction k with
  | zero =>
    intro r hlo hhi
    rw [pow_zero] at hhi ⊢
    rw [leadBit_pos v 0 r 1 (by omega)]
    by_cases hc : 2 ^ (r + 1) ≤ v
    · rw [if_pos hc]
      norm_num [leadBit]
      refine ⟨hc, ?_⟩
      have : r + 2 * 1 = r + 1 + 1 := by omega
      rwa [this] at hhi
    · rw [if_neg hc]
      norm_num [leadBit]
      exact ⟨hlo, by omega⟩
  | succ k ih =>
    intro r hlo hhi
    have hdiv : 2 ^ (k + 1) / 2 = 2 ^ k := by
      rw [pow_succ]
      exact Nat.mul_div_cancel _ (by omega)
    rw [leadBit_pos v (k + 1) r (2 ^ (k + 1)) (Nat.pos_pow_of_pos _ (by omega)), hdiv]
    by_cases hc : 2 ^ (r + 2 ^ (k + 1)) ≤ v
    · rw [if_pos hc]
      apply ih (r + 2 ^ (k + 1)) hc
      have : r + 2 ^ (k + 1) + 2 * 2 ^ k = r + 2 * 2 ^ (k + 1) := by
        rw [pow_succ]
        ring
      rwa [this]
    · rw [if_neg hc]
      apply ih r hlo
      have hle : r + 2 * 2 ^ k = r + 2 ^ (k + 1) := by
        rw [pow_succ]
        ring
      rw [hle]
      omega

/-- `Bigi::bit_length`. -/
def bitLength (a : List Nat) : Nat :=
  let idx := getOrder a
  if 0 < idx then ((idx - 1) <<< 6) + leadBit (a.getD (idx - 1) 0) 6 0 32 + 1 else 0

theorem bitLength_zero (a : List Nat) (h : valB a = 0) : bitLength a = 0 := by
  rw [bitLength]
  have hnot : ¬ 0 < getOrder a := by
    intro hcon
    have h1 := getOrder_top_ne a hcon
    have h2 := valB_ge_top a hcon
    rw [h] at h2
    have h4 := Nat.pos_pow_of_pos (getOrder a - 1) B_pos
    have h3 : 0 < B ^ (getOrder a - 1) * a.getD (getOrder a - 1) 0 :=
      Nat.mul_pos h4 (by omega)
    omega
  rw [if_neg hnot]

/-- Digits of a well-formed array are `u64`s wherever probed. -/
theorem getD_lt {N a} (ha : Good N a) (i : Nat) (h : i < N) : a.getD i 0 < B := by
  have hlen : i < a.length := by rw [ha.1]; exact h
  rw [List.getD_eq_getElem?_getD, List.getElem?_eq_getElem hlen, Option.getD_some]
  exact ha.2 _ (List.getElem_mem hlen)

theorem bitLength_spec {N a} (ha : Good N a) (h : 0 < valB a) :
    0 < bitLength a ∧ 2 ^ (bitLength a - 1) ≤ valB a ∧ valB a < 2 ^ bitLength a := by
  have hg : 0 < getOrder a := getOrder_pos_of_valB_pos a h
  have hgle := getOrder_le a
  set g1 := getOrder a - 1 with hg1
  set d := a.getD g1 0 with hd
  have hdne : d ≠ 0 := getOrder_top_ne a hg
  have hdlt : d < B := getD_lt ha g1 (by rw [← ha.1]; omega)
  have hlead := leadBit_correct d 5 0 (by simpa using Nat.one_le_iff_ne_zero.mpr hdne)
    (by simpa [B_eq] using hdlt)
  norm_num at hlead
  obtain ⟨hlo, hhi⟩ := hlead
  set e := leadBit d 6 0 32 with he
  have hbl : bitLength a = g1 * 64 + e + 1 := by
    rw [bitLength]
    simp only [← hg1, ← hd, ← he, if_pos hg]
    rw [Nat.shiftLeft_eq]
  have hBpow : B ^ g1 = 2 ^ (64 * g1) := by
    rw [B, ← pow_mul]
  have he64 : e < 64 := by
    by_contra hcon
    push_neg at hcon
    have : 2 ^ 64 ≤ 2 ^ e := Nat.pow_le_pow_right (by omega) hcon
    rw [B_eq] at hdlt
    have h64 : (2 : Nat) ^ 64 = 18446744073709551616 := by norm_num
    omega
  refine ⟨by omega, ?_, ?_⟩
  · -- lower bound
    rw [hbl]
    have h1 : 2 ^ (g1 * 64 + e + 1 - 1) = 2 ^ (64 * g1) * 2 ^ e := by
      rw [← pow_add]
      congr 1
      omega
    rw [h1, ← hBpow]
    calc B ^ g1 * 2 ^ e ≤ B ^ g1 * d := Nat.mul_le_mul_left _ hlo
      _ ≤ valB a := valB_ge_top a hg
  · -- upper bound
    rw [hbl]
    have hgeq : getOrder a = g1 + 1 := by omega
    have htk : valB a = valB (a.take g1) + B ^ g1 * d := by
      have hlt : g1 < a.length := by omega
      have htake : a.take (getOrder a) = a.take g1 ++ [d] := by
        rw [hgeq, List.take_succ, List.getElem?_eq_getElem hlt]
        congr 1
        rw [hd, List.getD_eq_getElem?_getD, List.getElem?_eq_getElem hlt]
        rfl
      have hlen : (a.take g1).length = g1 := by
        rw [List.length_take, Nat.min_eq_left (by omega)]
      rw [← valB_take_getOrder a, htake, valB_append, hlen]
      simp [valB]
    have hlow : valB (a.take g1) < B ^ g1 := by
      have hx := valB_lt_pow (a.take g1) (fun x hx => ha.2 x (List.mem_of_mem_take hx))
      have hlen : (a.take g1).length = g1 := by
        rw [List.length_take, Nat.min_eq_left (by omega)]
      rwa [hlen] at hx
    have h2 : 2 ^ (g1 * 64 + e + 1) = 2 ^ (64 * g1) * 2 ^ (e + 1) := by
      rw [← pow_add]
      congr 1
      ring
    rw [h2, ← hBpow, htk]
    calc valB (a.take g1) + B ^ g1 * d < B ^ g1 * (d + 1) := by
          rw [Nat.mul_add, Nat.mul_one]
          omega
      _ ≤ B ^ g1 * 2 ^ (e + 1) := Nat.mul_le_mul_left _ hhi

/-- `bitLength` equals `log2 + 1` on nonzero values; packaged for rewriting. -/
theorem bitLength_le_of_lt {N a} (ha : Good N a) (k : Nat) (h : valB a < 2 ^ k) :
    bitLength a ≤ k := by
  by_cases h0 : valB a = 0
  · rw [bitLength_zero a h0]
    omega
  · obtain ⟨hpos, hlo, hhi⟩ := bitLength_spec ha (by omega)
    by_contra hcon
    push_neg at hcon
    have : 2 ^ k ≤ 2 ^ (bitLength a - 1) := Nat.pow_le_pow_right (by omega) (by omega)
    omega

theorem lt_pow_bitLength {N a} (ha : Good N a) : valB a < 2 ^ bitLength a := by
  by_cases h0 : valB a = 0
  · rw [h0]
    exact Nat.pos_pow_of_pos _ (by omega)
  · exact (bitLength_spec ha (by omega)).2.2

/-! ## Bit probe (`Bigi::get_bit`)

Rust: `(digits[bit >> 6] & (1 << (bit & 63))) != 0`. -/

def getBit (a : List Nat) (bit : Nat) : Bool :=
  Nat.testBit (a.getD (bit >>> 6) 0) (bit % 64)

theorem getBit_correct {N a} (ha : Good N a) (bit : Nat) (hbit : bit < 64 * N) :
    getBit a bit = Nat.testBit (valB a) bit := by
  have hq : bit >>> 6 = bit / 64 := by
    rw [Nat.shiftRight_eq_div_pow]
  set q := bit / 64 with hqdef
  set r := bit % 64 with hrdef
  have hqlt : q < N := by
    rw [hqdef]
    omega
  have hr64 : r < 64 := by
    rw [hrdef]
    omega
  have hqla : q < a.length := by rw [ha.1]; exact hqlt
  have hsplit : valB a = valB (a.take q) + B ^ q * valB (a.drop q) := by
    conv_lhs => rw [← List.take_append_drop q a]
    rw [valB_append, List.length_take, Nat.min_eq_left (by omega)]
  have hdrop : a.drop q = a.getD q 0 :: a.drop (q + 1) := by
    rw [List.getD_eq_getElem?_getD, List.getElem?_eq_getElem hqla, Option.getD_some]
    exact List.drop_eq_getElem_cons hqla
  have htq : valB (a.take q) < B ^ q := by
    have hx := valB_lt_pow (a.take q) (fun x hx => ha.2 x (List.mem_of_mem_take hx))
    rwa [List.length_take, Nat.min_eq_left (by omega)] at hx
  have hbit_eq : bit = 64 * q + r := by omega
  have hpow : (2 : Nat) ^ bit = B ^ q * 2 ^ r := by
    rw [hbit_eq, pow_add, B, ← pow_mul]
  have hBr : B = 2 ^ r * 2 ^ (64 - r) := by
    rw [B, ← pow_add]
    congr 1
    omega
  have hstep : valB a / 2 ^ bit % 2 = a.getD q 0 / 2 ^ r % 2 := by
    rw [hsplit, hdrop, valB_cons, hpow, ← Nat.div_div_eq_div_mul]
    have h1 : (valB (a.take q) + B ^ q * (a.getD q 0 + B * valB (a.drop (q + 1)))) / B ^ q
        = a.getD q 0 + B * valB (a.drop (q + 1)) := by
      rw [Nat.add_mul_div_left _ _ (Nat.pos_pow_of_pos _ B_pos),
        Nat.div_eq_of_lt htq]
      omega
    rw [h1]
    have hform : a.getD q 0 + B * valB (a.drop (q + 1))
        = a.getD q 0 + 2 ^ r * (2 ^ (64 - r) * valB (a.drop (q + 1))) := by
      rw [hBr]
      ring
    have h2 : (a.getD q 0 + B * valB (a.drop (q + 1))) / 2 ^ r
        = a.getD q 0 / 2 ^ r + 2 ^ (64 - r) * valB (a.drop (q + 1)) := by
      rw [hform, Nat.add_mul_div_left _ _ (Nat.pos_pow_of_pos _ (by omega))]
    rw [h2]
    have heven : 2 ^ (64 - r) * valB (a.drop (q + 1)) % 2 = 0 := by
      have h3 : 64 - r = (63 - r) + 1 := by omega
      rw [h3, pow_succ]
      rw [show 2 ^ (63 - r) * 2 * valB (a.drop (q + 1))
        = 2 * (2 ^ (63 - r) * valB (a.drop (q + 1))) by ring]
      exact Nat.mul_mod_right _ _
    omega
  rw [getBit, hq, ← hrdef, Nat.testBit_to_div_mod, Nat.testBit_to_div_mod, hstep]

/-! ## Remainder modulo a power of two (`Bigi::mod_2k`)

Rust: `q = k >> 6; r = k & 63; digits[q+1..] = 0; digits[q] &= (1 << r) - 1`. -/

def mod2k (a : List Nat) (k : Nat) : List Nat :=
  let q := k >>> 6
  let r := k % 64
  a.take q ++
    (if q < a.length then [a.getD q 0 % 2 ^ r] ++ List.replicate (a.length - q - 1) 0 else [])

/-- Generalized digit/mod interchange at an arbitrary cut. -/
theorem mod_mul_split (x y m t : Nat) (hx : x < m) (ht : 0 < t) :
    (x + m * y) % (m * t) = x + m * (y % t) := by
  have h1 : y = t * (y / t) + y % t := (Nat.div_add_mod y t).symm
  conv_lhs => rw [h1]
  have h2 : x + m * (t * (y / t) + y % t) = (x + m * (y % t)) + m * t * (y / t) := by ring
  rw [h2, Nat.add_mul_mod_self_left]
  apply Nat.mod_eq_of_lt
  have h3 : y % t < t := Nat.mod_lt _ ht
  calc x + m * (y % t) < m * (y % t + 1) := by rw [Nat.mul_add, Nat.mul_one]; omega
    _ ≤ m * t := Nat.mul_le_mul_left _ h3

theorem mod2k_good {N a} (ha : Good N a) (k : Nat) : Good N (mod2k a k) := by
  rw [mod2k]
  constructor
  · by_cases hq : k >>> 6 < a.length
    · rw [if_pos hq]
      simp only [List.length_append, List.length_take, List.length_replicate,
        List.length_cons, List.length_nil]
      rw [← ha.1]
      omega
    · rw [if_neg hq]
      push_neg at hq
      simp only [List.length_append, List.length_take, List.length_nil]
      rw [← ha.1]
      omega
  · intro x hx
    rcases List.mem_append.mp hx with h | h
    · exact ha.2 x (List.mem_of_mem_take h)
    · by_cases hq : k >>> 6 < a.length
      · rw [if_pos hq] at h
        rcases List.mem_append.mp h with h1 | h1
        · rcases List.mem_singleton.mp h1 with h2
          subst h2
          calc a.getD (k >>> 6) 0 % 2 ^ (k % 64) ≤ a.getD (k >>> 6) 0 := Nat.mod_le _ _
            _ < B := getD_lt ha _ (by rw [← ha.1]; exact hq)
        · rw [List.eq_of_mem_replicate h1]
          exact B_pos
      · rw [if_neg hq] at h
        simp at h

theorem mod2k_val {N a} (ha : Good N a) (k : Nat) (hk : k / 64 < N) :
    valB (mod2k a k) = valB a % 2 ^ k := by
  have hq6 : k >>> 6 = k / 64 := by rw [Nat.shiftRight_eq_div_pow]
  set q := k / 64 with hqdef
  set r := k % 64 with hrdef
  have hqla : q < a.length := by rw [ha.1]; exact hk
  have hkeq : k = 64 * q + r := by omega
  have hpow : (2 : Nat) ^ k = B ^ q * 2 ^ r := by
    rw [hkeq, pow_add, B, ← pow_mul]
  have hsplit : valB a = valB (a.take q) + B ^ q * (a.getD q 0 + B * valB (a.drop (q + 1))) := by
    conv_lhs => rw [← List.take_append_drop q a]
    rw [valB_append, List.length_take, Nat.min_eq_left (by omega)]
    congr 2
    rw [List.getD_eq_getElem?_getD, List.getElem?_eq_getElem hqla, Option.getD_some]
    rw [List.drop_eq_getElem_cons hqla]
    rfl
  have htq : valB (a.take q) < B ^ q := by
    have hx := valB_lt_pow (a.take q) (fun x hx => ha.2 x (List.mem_of_mem_take hx))
    rwa [List.length_take, Nat.min_eq_left (by omega)] at hx
  have hlhs : valB (mod2k a k) = valB (a.take q) + B ^ q * (a.getD q 0 % 2 ^ r) := by
    rw [mod2k]
    simp only [hq6, ← hqdef, ← hrdef, if_pos hqla]
    rw [valB_append, valB_append, List.length_take, Nat.min_eq_left (by omega)]
    simp [valB, valB_replicate_zero]
  rw [hlhs, hsplit, hpow]
  -- (T + B^q * X) % (B^q * 2^r) = T + B^q * (X % 2^r)
  rw [mod_mul_split _ _ _ _ htq (Nat.pos_pow_of_pos _ (by omega))]
  congr 2
  -- (d + B * rest) % 2^r = d % 2^r  since 2^r | B
  have hBdvd : 2 ^ r ∣ B := by
    rw [B]
    exact pow_dvd_pow 2 (by omega)
  obtain ⟨c, hc⟩ := hBdvd
  rw [hc]
  rw [show a.getD q 0 + 2 ^ r * c * valB (a.drop (q + 1))
    = a.getD q 0 + 2 ^ r * (c * valB (a.drop (q + 1))) by ring]
  rw [Nat.add_mul_mod_self_left]

/-! ## Shifts (`ShlAssign` / `ShrAssign` for `Bigi`)

Rust left shift: `q = rhs >> 6; r = rhs & 63;` then, scanning `i` from `N-q-1` down to `0`:
`digits[i+q+1] += digits[i] >> (64-r)` (when `r > 0` and `i+q+1 ≤ N-1`) and
`digits[i+q] = digits[i] << r`; finally `digits[0..q] = 0`.  Net effect per target digit
`j`: `0` for `j < q`, else `(digits[j-q] << r) % B + (digits[j-q-1] >> (64-r))`.
`shlDigits` computes the sub-word part pairwise (carrying the previous source digit),
`shlB` prepends the `q` vacated zero words and drops the `q` words shifted out on top. -/

def shlDigits (r : Nat) : List Nat → Nat → List Nat
  | [], _ => []
  | d :: ds, prev =>
    ((d <<< r) % B + (if 0 < r then prev >>> (64 - r) else 0)) :: shlDigits r ds d

def shlB (a : List Nat) (k : Nat) : List Nat :=
  let q := k >>> 6
  let r := k % 64
  List.replicate (min q a.length) 0 ++ shlDigits r (a.take (a.length - q)) 0

theorem shlDigits_length (r : Nat) : ∀ (a : List Nat) (prev : Nat),
    (shlDigits r a prev).length = a.length
  | [], _ => rfl
  | d :: ds, prev => by
    rw [shlDigits]
    simpa using shlDigits_length r ds d

theorem pow_split_B (r : Nat) (hr : r < 64) : 2 ^ r * 2 ^ (64 - r) = B := by
  rw [B, ← pow_add]
  congr 1
  omega

/-- A `u64` left-shift result has its low `r` bits clear. -/
theorem shl_mod_le (d r : Nat) (hr : r < 64) : (d * 2 ^ r) % B ≤ B - 2 ^ r := by
  have hpos : 0 < (2 : Nat) ^ r := Nat.pos_pow_of_pos _ (by omega)
  have e2 := pow_split_B r hr
  have hdvd : 2 ^ r ∣ (d * 2 ^ r) % B := by
    apply (Nat.dvd_mod_iff ?_).mpr (dvd_mul_left _ _)
    exact ⟨2 ^ (64 - r), e2.symm⟩
  have hlt : (d * 2 ^ r) % B < B := Nat.mod_lt _ B_pos
  obtain ⟨c, hc⟩ := hdvd
  rw [hc] at hlt ⊢
  have hcm : c < 2 ^ (64 - r) := by
    by_contra hcon
    push_neg at hcon
    have := Nat.mul_le_mul_left (2 ^ r) hcon
    omega
  have h4 : 2 ^ r * (c + 1) ≤ 2 ^ r * 2 ^ (64 - r) := Nat.mul_le_mul_left _ (by omega)
  rw [Nat.mul_add, Nat.mul_one] at h4
  omega

/-- The carried-in high bits fit below `2^r`. -/
theorem shr_div_lt (p r : Nat) (hr : r < 64) (hp : p < B) : p / 2 ^ (64 - r) < 2 ^ r := by
  have e2 : 2 ^ (64 - r) * 2 ^ r = B := by
    rw [B, ← pow_add]
    congr 1
    omega
  exact Nat.div_lt_of_lt_mul (by omega)

theorem shlDigits_digits (r : Nat) (hr : r < 64) : ∀ (a : List Nat) (prev : Nat),
    (∀ x ∈ a, x < B) → prev < B → ∀ x ∈ shlDigits r a prev, x < B
  | [], _, _, _ => by simp [shlDigits]
  | d :: ds, prev, ha, hprev => by
    rw [shlDigits]
    intro x hx
    rcases List.mem_cons.mp hx with h | h
    · subst h
      rw [Nat.shiftLeft_eq]
      have h1 := shl_mod_le d r hr
      have h2 : (if 0 < r then prev >>> (64 - r) else 0) < 2 ^ r := by
        split
        · rw [Nat.shiftRight_eq_div_pow]
          exact shr_div_lt prev r hr hprev
        · exact Nat.pos_pow_of_pos _ (by omega)
      have h3 : 0 < (2 : Nat) ^ r := Nat.pos_pow_of_pos _ (by omega)
      have h4 : 2 ^ r ≤ B := by
        rw [B]
        exact Nat.pow_le_pow_right (by omega) (by omega)
      omega
    · exact shlDigits_digits r hr ds d (fun y hy => ha y (by simp [hy]))
        (ha d (by simp)) x h

theorem shlDigits_val (r : Nat) (hr : r < 64) : ∀ (a : List Nat) (prev : Nat),
    (∀ x ∈ a, x < B) → prev < B →
    valB (shlDigits r a prev)
      = (prev / 2 ^ (64 - r) + valB a * 2 ^ r) % B ^ a.length
  | [], prev, _, hprev => by
    simp [shlDigits, valB, Nat.mod_one]
  | d :: ds, prev, ha, hprev => by
    have hd : d < B := ha d (by simp)
    have hprev2 : prev / 2 ^ (64 - r) < 2 ^ r := shr_div_lt prev r hr hprev
    have hifeq : (if 0 < r then prev >>> (64 - r) else 0) = prev / 2 ^ (64 - r) := by
      split
      · rw [Nat.shiftRight_eq_div_pow]
      · have hr0 : r = 0 := by omega
        subst hr0
        have h0 : prev / 2 ^ (64 - 0) = 0 :=
          Nat.div_eq_of_lt (by rw [show (2 : Nat) ^ (64 - 0) = B from rfl]; exact hprev)
        rw [h0]
    have hsh : d <<< r = d * 2 ^ r := Nat.shiftLeft_eq d r
    have hddiv : d * 2 ^ r / B = d / 2 ^ (64 - r) := by
      rw [← pow_split_B r hr, ← Nat.div_div_eq_div_mul,
        Nat.mul_div_cancel _ (Nat.pos_pow_of_pos _ (by omega))]
    have hdm : B * (d / 2 ^ (64 - r)) + (d * 2 ^ r) % B = d * 2 ^ r := by
      have h5 := Nat.div_add_mod (d * 2 ^ r) B
      rw [hddiv] at h5
      omega
    have hlow : (d * 2 ^ r) % B + prev / 2 ^ (64 - r) < B := by
      have h5 := shl_mod_le d r hr
      have h3 : 0 < (2 : Nat) ^ r := Nat.pos_pow_of_pos _ (by omega)
      have h4 : 2 ^ r ≤ B := by
        rw [B]
        exact Nat.pow_le_pow_right (by omega) (by omega)
      omega
    calc valB (shlDigits r (d :: ds) prev)
        = (d * 2 ^ r) % B + prev / 2 ^ (64 - r) + B * valB (shlDigits r ds d) := by
          rw [shlDigits, valB_cons, hifeq, hsh]
      _ = (d * 2 ^ r) % B + prev / 2 ^ (64 - r)
          + B * ((d / 2 ^ (64 - r) + valB ds * 2 ^ r) % B ^ ds.length) := by
          rw [shlDigits_val r hr ds d (fun y hy => ha y (by simp [hy])) hd]
      _ = ((d * 2 ^ r) % B + prev / 2 ^ (64 - r)
          + B * (d / 2 ^ (64 - r) + valB ds * 2 ^ r)) % B ^ (ds.length + 1) := by
          rw [digit_mod_pow _ _ _ hlow]
      _ = (prev / 2 ^ (64 - r) + valB (d :: ds) * 2 ^ r) % B ^ (d :: ds).length := by
          rw [valB_cons, List.length_cons]
          congr 1
          rw [Nat.add_mul, Nat.mul_add]
          have hassoc : B * (valB ds * 2 ^ r) = B * valB ds * 2 ^ r := by ring
          omega

theorem shlB_good {N a} (ha : Good N a) (k : Nat) : Good N (shlB a k) := by
  have hr : k % 64 < 64 := Nat.mod_lt _ (by omega)
  constructor
  · rw [shlB]
    simp only [List.length_append, List.length_replicate, shlDigits_length,
      List.length_take]
    rw [ha.1]
    omega
  · intro x hx
    rw [shlB] at hx
    rcases List.mem_append.mp hx with h | h
    · rw [List.eq_of_mem_replicate h]
      exact B_pos
    · exact shlDigits_digits (k % 64) hr _ 0
        (fun y hy => ha.2 y (List.mem_of_mem_take hy)) B_pos x h

theorem shlB_val {N a} (ha : Good N a) (k : Nat) (hk : k ≤ 64 * N) :
    valB (shlB a k) = valB a * 2 ^ k % B ^ N := by
  have hq6 : k >>> 6 = k / 64 := by rw [Nat.shiftRight_eq_div_pow]
  have hr : k % 64 < 64 := Nat.mod_lt _ (by omega)
  set q := k / 64 with hqdef
  set r := k % 64 with hrdef
  have hqN : q ≤ N := by omega
  have hqa : q ≤ a.length := by rw [ha.1]; exact hqN
  have hkeq : k = 64 * q + r := by omega
  rw [shlB]
  simp only [hq6, ← hqdef, ← hrdef]
  rw [valB_append, valB_replicate_zero, Nat.min_eq_left hqa, List.length_replicate]
  rw [shlDigits_val r hr _ 0 (fun y hy => ha.2 y (List.mem_of_mem_take hy)) B_pos]
  rw [Nat.zero_div, Nat.zero_add, Nat.zero_add]
  have hlen : (a.take (a.length - q)).length = N - q := by
    rw [List.length_take, ha.1, Nat.min_eq_left (by omega)]
  rw [hlen]
  -- valB (take (N-q) a) = valB a % B^(N-q)
  have htake : valB (a.take (a.length - q)) = valB a % B ^ (N - q) := by
    have hsplit : valB a = valB (a.take (a.length - q))
        + B ^ (N - q) * valB (a.drop (a.length - q)) := by
      conv_lhs => rw [← List.take_append_drop (a.length - q) a]
      rw [valB_append]
      congr 2
      rw [List.length_take, ha.1, Nat.min_eq_left (by omega)]
    have hlt : valB (a.take (a.length - q)) < B ^ (N - q) := by
      have hx := valB_lt_pow (a.take (a.length - q))
        (fun y hy => ha.2 y (List.mem_of_mem_take hy))
      rwa [hlen] at hx
    rw [hsplit, Nat.add_mul_mod_self_left, Nat.mod_eq_of_lt hlt]
  rw [htake]
  -- B^q * ((x % B^(N-q)) * 2^r % B^(N-q)) = x * 2^(64q+r) % B^N
  have hmulmod : valB a % B ^ (N - q) * 2 ^ r % B ^ (N - q)
      = valB a * 2 ^ r % B ^ (N - q) := Nat.mod_mul_mod
  rw [hmulmod]
  have hBsplit : B ^ N = B ^ q * B ^ (N - q) := by
    rw [← pow_add]
    congr 1
    omega
  have h2k : (2 : Nat) ^ k = B ^ q * 2 ^ r := by
    rw [hkeq, pow_add, B, ← pow_mul]
  rw [h2k, hBsplit]
  rw [show valB a * (B ^ q * 2 ^ r) = B ^ q * (valB a * 2 ^ r) by ring]
  rw [Nat.mul_mod_mul_left]

/-! Rust right shift: scanning `i` from `q` to `N-1`:
`digits[i-q] = digits[i] >> r` and `digits[i-q-1] += (digits[i] << (64-r)) % B`
(when `r > 0` and `i > q`); then the top `q` digits are zeroed.  Net effect per
target digit `j ≤ N-1-q`: `digits[j+q] >> r + ((digits[j+q+1] << (64-r)) % B)`. -/

def shrDigits (r : Nat) : List Nat → List Nat
  | [] => []
  | [d] => [d >>> r]
  | d :: d2 :: ds =>
    (d >>> r + (if 0 < r then (d2 <<< (64 - r)) % B else 0)) :: shrDigits r (d2 :: ds)

def shrB (a : List Nat) (k : Nat) : List Nat :=
  let q := k >>> 6
  let r := k % 64
  shrDigits r (a.drop q) ++ List.replicate (min q a.length) 0

theorem shrDigits_length (r : Nat) : ∀ (a : List Nat), (shrDigits r a).length = a.length
  | [] => rfl
  | [_] => rfl
  | d :: d2 :: ds => by
    rw [shrDigits]
    simpa using shrDigits_length r (d2 :: ds)

theorem shrDigits_digits (r : Nat) (hr : r < 64) : ∀ (a : List Nat),
    (∀ x ∈ a, x < B) → ∀ x ∈ shrDigits r a, x < B
  | [], _ => by simp [shrDigits]
  | [d], ha => by
    rw [shrDigits]
    intro x hx
    rcases List.mem_singleton.mp hx with h
    subst h
    rw [Nat.shiftRight_eq_div_pow]
    calc d / 2 ^ r ≤ d := Nat.div_le_self _ _
      _ < B := ha d (by simp)
  | d :: d2 :: ds, ha => by
    rw [shrDigits]
    intro x hx
    rcases List.mem_cons.mp hx with h | h
    · subst h
      have hd : d < B := ha d (by simp)
      have h1 : d >>> r < 2 ^ (64 - r) := by
        rw [Nat.shiftRight_eq_div_pow]
        apply Nat.div_lt_of_lt_mul
        rw [pow_split_B r hr]
        exact hd
      have h2 : (if 0 < r then (d2 <<< (64 - r)) % B else 0) ≤ B - 2 ^ (64 - r) := by
        split
        · rw [Nat.shiftLeft_eq]
          exact shl_mod_le d2 (64 - r) (by omega)
        · have : 0 < (2 : Nat) ^ (64 - r) := Nat.pos_pow_of_pos _ (by omega)
          omega
      have h3 : 2 ^ (64 - r) ≤ B := by
        rw [B]
        exact Nat.pow_le_pow_right (by omega) (by omega)
      omega
    · exact shrDigits_digits r hr (d2 :: ds) (fun y hy => ha y (by simp [hy])) x h

theorem shrDigits_val (r : Nat) (hr : r < 64) : ∀ (a : List Nat),
    (∀ x ∈ a, x < B) → valB (shrDigits r a) = valB a / 2 ^ r
  | [], _ => by simp [shrDigits, valB]
  | [d], _ => by
    simp [shrDigits, valB, Nat.shiftRight_eq_div_pow]
  | d :: d2 :: ds, ha => by
    have hd2 : d2 < B := ha d2 (by simp)
    have hifeq : (if 0 < r then (d2 <<< (64 - r)) % B else 0) = d2 % 2 ^ r * 2 ^ (64 - r) := by
      split
      · rw [Nat.shiftLeft_eq]
        -- (d2 * 2^(64-r)) % B = (d2 % 2^r) * 2^(64-r)
        have e2 : 2 ^ (64 - r) * 2 ^ r = B := by
          rw [B, ← pow_add]
          congr 1
          omega
        rw [← e2, Nat.mul_comm (2 ^ (64 - r)) (2 ^ r)]
        exact Nat.mul_mod_mul_right _ _ _
      · have hr0 : r = 0 := by omega
        subst hr0
        simp [Nat.mod_one]
    have hrec := shrDigits_val r hr (d2 :: ds) (fun y hy => ha y (by simp [hy]))
    have hsplit : d2 = 2 ^ r * (d2 / 2 ^ r) + d2 % 2 ^ r := (Nat.div_add_mod d2 (2 ^ r)).symm
    calc valB (shrDigits r (d :: d2 :: ds))
        = d >>> r + d2 % 2 ^ r * 2 ^ (64 - r) + B * valB (shrDigits r (d2 :: ds)) := by
          rw [shrDigits, valB_cons, hifeq]
      _ = d / 2 ^ r + d2 % 2 ^ r * 2 ^ (64 - r) + B * (valB (d2 :: ds) / 2 ^ r) := by
          rw [Nat.shiftRight_eq_div_pow, hrec]
      _ = valB (d :: d2 :: ds) / 2 ^ r := by
          rw [valB_cons]
          -- (d + B*(d2 + B*w)) / 2^r with exact splitting
          have hpos : 0 < (2 : Nat) ^ r := Nat.pos_pow_of_pos _ (by omega)
          have e2 : 2 ^ r * 2 ^ (64 - r) = B := pow_split_B r hr
          have hform : d + B * (d2 + B * valB ds)
              = d + 2 ^ r * (d2 % 2 ^ r * 2 ^ (64 - r) + B * (d2 / 2 ^ r)
                + B * (2 ^ (64 - r) * valB ds)) := by
            rw [← e2]
            ring_nf
            conv_lhs => rw [hsplit]
            ring
          have hq2 : (d2 + B * valB ds) / 2 ^ r
              = d2 / 2 ^ r + 2 ^ (64 - r) * valB ds := by
            have hform2 : d2 + B * valB ds = d2 + 2 ^ r * (2 ^ (64 - r) * valB ds) := by
              rw [← e2]
              ring
            rw [hform2, Nat.add_mul_div_left _ _ hpos]
          rw [hq2]
          conv_rhs => rw [valB_cons, valB_cons]
          rw [hform, Nat.add_mul_div_left _ _ hpos]
          ring
      
theorem shrB_good {N a} (ha : Good N a) (k : Nat) : Good N (shrB a k) := by
  have hr : k % 64 < 64 := Nat.mod_lt _ (by omega)
  constructor
  · rw [shrB]
    simp only [List.length_append, List.length_replicate, shrDigits_length,
      List.length_drop]
    rw [ha.1]
    omega
  · intro x hx
    rw [shrB] at hx
    rcases List.mem_append.mp hx with h | h
    · exact shrDigits_digits (k % 64) hr _
        (fun y hy => ha.2 y (List.mem_of_mem_drop hy)) x h
    · rw [List.eq_of_mem_replicate h]
      exact B_pos

theorem valB_drop {N a} (ha : Good N a) (q : Nat) (hq : q ≤ N) :
    valB (a.drop q) = valB a / B ^ q := by
  have hqa : q ≤ a.length := by rw [ha.1]; exact hq
  have hsplit : valB a = valB (a.take q) + B ^ q * valB (a.drop q) := by
    conv_lhs => rw [← List.take_append_drop q a]
    rw [valB_append, List.length_take, Nat.min_eq_left hqa]
  have htq : valB (a.take q) < B ^ q := by
    have hx := valB_lt_pow (a.take q) (fun y hy => ha.2 y (List.mem_of_mem_take hy))
    rwa [List.length_take, Nat.min_eq_left hqa] at hx
  rw [hsplit, Nat.add_mul_div_left _ _ (Nat.pos_pow_of_pos _ B_pos),
    Nat.div_eq_of_lt htq]
  omega

theorem shrB_val {N a} (ha : Good N a) (k : Nat) (hk : k ≤ 64 * N) :
    valB (shrB a k) = valB a / 2 ^ k := by
  have hq6 : k >>> 6 = k / 64 := by rw [Nat.shiftRight_eq_div_pow]
  have hr : k % 64 < 64 := Nat.mod_lt _ (by omega)
  set q := k / 64 with hqdef
  set r := k % 64 with hrdef
  have hqN : q ≤ N := by omega
  have hkeq : k = 64 * q + r := by omega
  rw [shrB]
  simp only [hq6, ← hqdef, ← hrdef]
  rw [valB_append, valB_replicate_zero]
  rw [shrDigits_val r hr _ (fun y hy => ha.2 y (List.mem_of_mem_drop hy))]
  rw [valB_drop ha q hqN]
  rw [Nat.mul_zero, Nat.add_zero, Nat.div_div_eq_div_mul]
  congr 1
  rw [hkeq, pow_add, B, ← pow_mul]

/-! ## Long division (`Bigi::divide`)

Rust mutates the receiver into the remainder and returns the quotient.  The
algorithm: with `order1 = self.get_order()`, `order2 = divisor.get_order()`, if
`order1 >= order2` iterate from `shf = order1 - order2`: read `extra = digits[order2+shf]`
(0 out of range); when `extra == 0` and the `order2`-digit window of `self` at `shf` is
lexicographically below `divisor`, decrement `shf` (or finish at `shf == 0`); otherwise
estimate `factor` from the leading 128-bit windows, add it into `res.digits[shf]`, and
subtract `divisor * factor` at word offset `shf` with borrow propagation (`redLoop`),
applying a final borrow to `digits[order2+shf]`.  The unbounded `loop` gets fuel. -/

/-- `Bigi::lead_u128`: the top two digits as a 128-bit value. -/
def lead_u128 (a : List Nat) : Nat :=
  let idx := getOrder a
  if idx = 0 then 0
  else if idx = 1 then a.getD 0 0
  else a.getD (idx - 1) 0 * B + a.getD (idx - 2) 0

/-- The `is_less` scan: compares the divisor against the window of `self` at word
offset `shf`, from digit `cnt - 1` down to `0`. -/
def isLessLoop (self divisor : List Nat) (shf : Nat) : Nat → Bool
  | 0 => false
  | i + 1 =>
    if divisor.getD i 0 < self.getD (i + shf) 0 then false
    else if self.getD (i + shf) 0 < divisor.getD i 0 then true
    else isLessLoop self divisor shf i

/-- The subtraction loop `for i in 0..order2` inside `divide`, with `fw` the
128-bit running borrow/carry. Returns the updated digits and the final `fw`. -/
def redLoop (divisor : List Nat) (factor shf : Nat) :
    List Nat → Nat → Nat → Nat → List Nat × Nat
  | self, fw, _, 0 => (self, fw)
  | self, fw, i, cnt + 1 =>
    let fw2 := divisor.getD i 0 * factor + fw
    let a := self.getD (i + shf) 0
    let low := fw2 % B
    let self2 := self.set (i + shf) ((B + a - low) % B)
    let fw3 := fw2 / B + (if a < low then 1 else 0)
    redLoop divisor factor shf self2 fw3 (i + 1) cnt

/-- The `bottom` selection in the factor estimate. -/
def divBottom (divisor : List Nat) (order2 : Nat) (self : List Nat) (shf : Nat) : Nat :=
  if 0 < (if order2 + shf < self.length then self.getD (order2 + shf) 0 else 0) then
    divisor.getD (order2 - 1) 0
  else if order2 = 1 ∧ 0 < shf then lead_u128 divisor * B
  else lead_u128 divisor

/-- The per-iteration quotient-digit estimate (`result as u64` truncates). -/
def divFactor (divisor : List Nat) (order2 : Nat) (self : List Nat) (shf : Nat) : Nat :=
  (if lead_u128 self = divBottom divisor order2 self shf then 1
   else lead_u128 self / (divBottom divisor order2 self shf + 1)) % B

/-- The dividend after one reduction: `redLoop` plus the final borrow into
`digits[order2+shf]` (wrapping, as `-=` of the truncated 128-bit carry). -/
def divSelf3 (divisor : List Nat) (order2 : Nat) (self : List Nat) (shf : Nat) : List Nat :=
  if 0 < (redLoop divisor (divFactor divisor order2 self shf) shf self 0 0 order2).2
      ∧ order2 + shf < self.length then
    (redLoop divisor (divFactor divisor order2 self shf) shf self 0 0 order2).1.set
      (order2 + shf)
      ((B + (redLoop divisor (divFactor divisor order2 self shf) shf self 0 0
          order2).1.getD (order2 + shf) 0
        - (redLoop divisor (divFactor divisor order2 self shf) shf self 0 0 order2).2 % B) % B)
  else (redLoop divisor (divFactor divisor order2 self shf) shf self 0 0 order2).1

/-- One `loop` of `Bigi::divide`, fuelled. -/
def divLoop (divisor : List Nat) (order2 : Nat) :
    Nat → List Nat → List Nat → Nat → Option (List Nat × List Nat)
  | 0, _, _, _ => none
  | fuel + 1, self, res, shf =>
    if (if order2 + shf < self.length then self.getD (order2 + shf) 0 else 0) = 0
        ∧ isLessLoop self divisor shf order2 = true then
      if shf ≠ 0 then divLoop divisor order2 fuel self res (shf - 1)
      else some (self, res)
    else
      divLoop divisor order2 fuel (divSelf3 divisor order2 self shf)
        (res.set shf ((res.getD shf 0 + divFactor divisor order2 self shf) % B)) shf

/-- `Bigi::divide` (fuelled): returns `(remainder, quotient)`. -/
def divide (a d : List Nat) (fuel : Nat) : Option (List Nat × List Nat) :=
  let res := List.replicate a.length 0
  let order1 := getOrder a
  let order2 := getOrder d
  if order2 ≤ order1 then divLoop d order2 fuel a res (order1 - order2)
  else some (a, res)

/-! ### Indexed-access helper lemmas -/

theorem getD_set_self (l : List Nat) (i v : Nat) (h : i < l.length) :
    (l.set i v).getD i 0 = v := by
  rw [List.getD_eq_getElem?_getD, List.getElem?_eq_getElem (by simpa using h),
    Option.getD_some, List.getElem_set]
  simp

theorem getD_set_ne (l : List Nat) (i j v : Nat) (h : i ≠ j) :
    (l.set i v).getD j 0 = l.getD j 0 := by
  by_cases hj : j < l.length
  · rw [List.getD_eq_getElem?_getD, List.getElem?_eq_getElem (by simpa using hj),
      Option.getD_some, List.getElem_set, if_neg h, List.getD_eq_getElem?_getD,
      List.getElem?_eq_getElem hj, Option.getD_some]
  · push_neg at hj
    rw [List.getD_eq_getElem?_getD, List.getD_eq_getElem?_getD,
      List.getElem?_eq_none (by simpa using hj), List.getElem?_eq_none hj]

theorem getD_drop (l : List Nat) (s j : Nat) : (l.drop s).getD j 0 = l.getD (s + j) 0 := by
  rw [List.getD_eq_getElem?_getD, List.getD_eq_getElem?_getD, List.getElem?_drop]

theorem valB_take_succ (l : List Nat) (m : Nat) :
    valB (l.take (m + 1)) = valB (l.take m) + B ^ m * l.getD m 0 := by
  by_cases h : m < l.length
  · rw [List.take_succ, List.getElem?_eq_getElem h, valB_append]
    rw [List.length_take, Nat.min_eq_left (by omega)]
    congr 2
    rw [List.getD_eq_getElem?_getD, List.getElem?_eq_getElem h]
    simp [valB]
  · push_neg at h
    rw [List.take_of_length_le (by omega), List.take_of_length_le h,
      List.getD_eq_getElem?_getD, List.getElem?_eq_none h]
    simp [Option.getD_none]

theorem valB_drop_split (l : List Nat) (s c : Nat) :
    valB (l.drop s) = valB ((l.drop s).take c) + B ^ c * valB (l.drop (s + c)) := by
  conv_lhs => rw [← List.take_append_drop c (l.drop s)]
  rw [valB_append, List.drop_drop]
  by_cases h : c ≤ (l.drop s).length
  · rw [List.length_take, Nat.min_eq_left h]
  · push_neg at h
    have h2 : l.length ≤ s + c := by
      rw [List.length_drop] at h
      omega
    rw [List.drop_eq_nil_of_le h2, List.take_of_length_le (by omega)]
    simp [valB]

theorem valB_drop_getOrder (l : List Nat) : valB (l.drop (getOrder l)) = 0 := by
  set g := getOrder l with hg
  have hsplit := getOrder_split l
  rw [← hg] at hsplit
  have hlen : (l.take g).length = g := by
    rw [List.length_take, Nat.min_eq_left]
    rw [hg]
    exact getOrder_le l
  conv_lhs => rw [hsplit]
  rw [List.drop_left' hlen]
  exact valB_replicate_zero _

/-- Effect of `set` on the value. -/
theorem valB_set (l : List Nat) (j v : Nat) (h : j < l.length) :
    valB (l.set j v) + B ^ j * l.getD j 0 = valB l + B ^ j * v := by
  induction l generalizing j with
  | nil => simp at h
  | cons d ds ih =>
    match j with
    | 0 =>
      rw [List.set_cons_zero, valB_cons, valB_cons]
      simp [List.getD_cons_zero]
      ring
    | j + 1 =>
      rw [List.set_cons_succ, valB_cons, valB_cons, List.getD_cons_succ]
      have h1 := ih (j := j) (by simpa using h)
      have h2 := congrArg (fun t => B * t) h1
      simp only [Nat.mul_add] at h2
      rw [pow_succ]
      have e1 : B ^ j * B * ds.getD j 0 = B * (B ^ j * ds.getD j 0) := by ring
      have e2 : B ^ j * B * v = B * (B ^ j * v) := by ring
      omega

/-- The wrapped per-word subtract step: `dnew + low = s0 + B * borrow`. -/
theorem borrow_digit (s0 low : Nat) (hs : s0 < B) (hl : low < B) :
    (B + s0 - low) % B + low = s0 + B * (if s0 < low then 1 else 0) := by
  have hB := B_eq
  rw [hB] at hs hl ⊢
  split <;> omega

/-- The borrow-propagating subtraction window: digit bounds, frame, and the
exact value identity `W + B^cnt * fw_out = W' + Dslice * factor + fw_in`. -/
theorem redLoop_spec (dv : List Nat) (factor shf : Nat) :
    ∀ (cnt i : Nat) (self : List Nat) (fw : Nat),
    i + shf + cnt ≤ self.length →
    (∀ x ∈ self, x < B) →
    (redLoop dv factor shf self fw i cnt).1.length = self.length ∧
    (∀ x ∈ (redLoop dv factor shf self fw i cnt).1, x < B) ∧
    (∀ j, j < i + shf ∨ i + shf + cnt ≤ j →
      (redLoop dv factor shf self fw i cnt).1.getD j 0 = self.getD j 0) ∧
    valB ((self.drop (i + shf)).take cnt) + B ^ cnt * (redLoop dv factor shf self fw i cnt).2
      = valB (((redLoop dv factor shf self fw i cnt).1.drop (i + shf)).take cnt)
        + valB ((dv.drop i).take cnt) * factor + fw
  | 0, i, self, fw, hlen, hdig => by
    refine ⟨rfl, hdig, fun j _ => rfl, ?_⟩
    simp [redLoop, valB]
  | cnt + 1, i, self, fw, hlen, hdig => by
    rw [redLoop]
    have hidx : i + shf < self.length := by omega
    set s0 := self.getD (i + shf) 0 with hs0
    set fw2 := dv.getD i 0 * factor + fw with hfw2
    set low := fw2 % B with hlow
    set dnew := (B + s0 - low) % B with hdnew
    set self2 := self.set (i + shf) dnew with hself2
    set borrow := if s0 < low then 1 else 0 with hborrow
    set fw3 := fw2 / B + borrow with hfw3
    have hs0B : s0 < B := getD_lt (N := self.length) ⟨rfl, hdig⟩ _ hidx
    have hlowB : low < B := by rw [hlow]; exact Nat.mod_lt _ B_pos
    have hdigit : dnew + low = s0 + B * borrow := by
      rw [hdnew, hborrow]
      exact borrow_digit s0 low hs0B hlowB
    have hlen2 : self2.length = self.length := by rw [hself2, List.length_set]
    have hdig2 : ∀ x ∈ self2, x < B := by
      intro x hx
      rcases List.mem_or_eq_of_mem_set hx with h | h
      · exact hdig x h
      · rw [h, hdnew]
        exact Nat.mod_lt _ B_pos
    obtain ⟨ihlen, ihdig, ihframe, ihval⟩ :=
      redLoop_spec dv factor shf cnt (i + 1) self2 fw3 (by omega) hdig2
    refine ⟨by rw [ihlen, hlen2], ihdig, ?_, ?_⟩
    · intro j hj
      have hne : i + shf ≠ j := by omega
      have hframe2 := ihframe j (by omega)
      rw [hframe2, hself2, getD_set_ne _ _ _ _ hne]
    · have hidxeq : i + 1 + shf = i + shf + 1 := by omega
      rw [hidxeq] at ihval
      have hd_self : (self.drop (i + shf)).take (cnt + 1)
          = s0 :: ((self.drop (i + shf + 1)).take cnt) := by
        rw [List.drop_eq_getElem_cons hidx, List.take_succ_cons]
        congr 1
        rw [hs0, List.getD_eq_getElem?_getD, List.getElem?_eq_getElem hidx, Option.getD_some]
      have hidx2 : i + shf < (redLoop dv factor shf self2 fw3 (i + 1) cnt).1.length := by
        rw [ihlen, hlen2]
        exact hidx
      have hd_out : ((redLoop dv factor shf self2 fw3 (i + 1) cnt).1.drop (i + shf)).take (cnt + 1)
          = dnew :: (((redLoop dv factor shf self2 fw3 (i + 1) cnt).1.drop (i + shf + 1)).take cnt) := by
        rw [List.drop_eq_getElem_cons hidx2, List.take_succ_cons]
        congr 1
        have hfr := ihframe (i + shf) (by omega)
        rw [hself2, getD_set_self _ _ _ hidx] at hfr
        rw [List.getD_eq_getElem?_getD, List.getElem?_eq_getElem hidx2, Option.getD_some] at hfr
        exact hfr
      have hd_dv : valB ((dv.drop i).take (cnt + 1))
          = dv.getD i 0 + B * valB ((dv.drop (i + 1)).take cnt) := by
        by_cases hdv : i < dv.length
        · rw [List.drop_eq_getElem_cons hdv, List.take_succ_cons, valB_cons]
          congr 2
          rw [List.getD_eq_getElem?_getD, List.getElem?_eq_getElem hdv, Option.getD_some]
        · push_neg at hdv
          rw [List.drop_eq_nil_of_le hdv, List.drop_eq_nil_of_le (by omega),
            List.getD_eq_getElem?_getD, List.getElem?_eq_none hdv]
          simp [valB]
      have hdrop2 : (self2.drop (i + shf + 1)).take cnt = (self.drop (i + shf + 1)).take cnt := by
        rw [hself2, List.drop_set, if_pos (by omega)]
      rw [hd_self, hd_out, hd_dv, valB_cons, valB_cons]
      rw [hdrop2] at ihval
      set Wrest := valB ((self.drop (i + shf + 1)).take cnt)
      set Wout := valB (((redLoop dv factor shf self2 fw3 (i + 1) cnt).1.drop (i + shf + 1)).take cnt)
      set Dr := valB ((dv.drop (i + 1)).take cnt)
      set F := (redLoop dv factor shf self2 fw3 (i + 1) cnt).2
      have hih := congrArg (fun t => B * t) ihval
      simp only [Nat.mul_add] at hih
      have hdm : B * (fw2 / B) + fw2 % B = fw2 := Nat.div_add_mod _ _
      have e3 : B ^ (cnt + 1) * F = B * (B ^ cnt * F) := by ring
      have e4 : (dv.getD i 0 + B * Dr) * factor
          = dv.getD i 0 * factor + B * (Dr * factor) := by ring
      have e5 : B * fw3 = B * (fw2 / B) + B * borrow := by
        rw [hfw3]
        ring
      omega

/-! ### Value characterizations used by the division proof -/

theorem getD_lt_B (l : List Nat) (h : ∀ x ∈ l, x < B) (i : Nat) : l.getD i 0 < B := by
  by_cases hi : i < l.length
  · exact getD_lt (N := l.length) ⟨rfl, h⟩ i hi
  · push_neg at hi
    rw [List.getD_eq_getElem?_getD, List.getElem?_eq_none hi]
    simpa using B_pos

theorem valB_take_lt (l : List Nat) (h : ∀ x ∈ l, x < B) (c : Nat) :
    valB (l.take c) < B ^ c := by
  have h1 := valB_lt_pow (l.take c) (fun x hx => h x (List.mem_of_mem_take hx))
  have h2 : (l.take c).length ≤ c := by
    rw [List.length_take]
    omega
  exact lt_of_lt_of_le h1 (Nat.pow_le_pow_right (le_of_lt one_lt_B) h2)

theorem getOrder_eq_zero_iff (a : List Nat) : getOrder a = 0 ↔ valB a = 0 := by
  constructor
  · intro h
    have := valB_take_getOrder a
    rw [h] at this
    simpa [valB] using this.symm
  · intro h
    by_contra hcon
    have hpos : 0 < getOrder a := by omega
    have h1 := valB_ge_top a hpos
    have h2 := getOrder_top_ne a hpos
    have h3 : 0 < B ^ (getOrder a - 1) := Nat.pos_pow_of_pos _ B_pos
    have h4 : 0 < a.getD (getOrder a - 1) 0 := Nat.pos_of_ne_zero h2
    have : 0 < valB a := lt_of_lt_of_le (Nat.mul_pos h3 h4) h1
    omega

theorem valB_ge_pow_getOrder (a : List Nat) (h : 0 < getOrder a) :
    B ^ (getOrder a - 1) ≤ valB a := by
  have h1 := valB_ge_top a h
  have h2 := getOrder_top_ne a h
  have h4 : 1 ≤ a.getD (getOrder a - 1) 0 := Nat.pos_of_ne_zero h2
  calc B ^ (getOrder a - 1) = B ^ (getOrder a - 1) * 1 := by ring
    _ ≤ B ^ (getOrder a - 1) * a.getD (getOrder a - 1) 0 := Nat.mul_le_mul_left _ h4
    _ ≤ valB a := h1

/-- `getOrder` counts base-`B` digits: a value characterization. -/
theorem getOrder_eq_succ_iff {N a} (ha : Good N a) (m : Nat) :
    getOrder a = m + 1 ↔ B ^ m ≤ valB a ∧ valB a < B ^ (m + 1) := by
  constructor
  · intro h
    have hpos : 0 < getOrder a := by omega
    have h1 := valB_ge_pow_getOrder a hpos
    have h2 := valB_lt_pow_getOrder ha
    rw [h] at h1 h2
    simpa using ⟨h1, h2⟩
  · rintro ⟨h1, h2⟩
    have hvpos : 0 < valB a := lt_of_lt_of_le (Nat.pos_pow_of_pos _ B_pos) h1
    have hpos : 0 < getOrder a := getOrder_pos_of_valB_pos a hvpos
    have h3 := valB_ge_pow_getOrder a hpos
    have h4 := valB_lt_pow_getOrder ha
    have h5 : m < getOrder a := by
      by_contra hcon
      push_neg at hcon
      have : B ^ (getOrder a) ≤ B ^ m := Nat.pow_le_pow_right (le_of_lt one_lt_B) hcon
      omega
    have h6 : getOrder a - 1 < m + 1 := by
      by_contra hcon
      push_neg at hcon
      have : B ^ (m + 1) ≤ B ^ (getOrder a - 1) := Nat.pow_le_pow_right (le_of_lt one_lt_B) hcon
      omega
    omega

/-- If the tail value fits in one word it is exactly the digit there. -/
theorem getD_eq_valB_drop (l : List Nat) (m : Nat) (h : valB (l.drop m) < B) :
    l.getD m 0 = valB (l.drop m) := by
  by_cases hm : m < l.length
  · rw [List.drop_eq_getElem_cons hm, valB_cons] at h ⊢
    have : valB (l.drop (m + 1)) = 0 := by
      by_contra hcon
      have : 1 ≤ valB (l.drop (m + 1)) := by omega
      have := Nat.mul_le_mul_left B this
      omega
    rw [this, List.getD_eq_getElem?_getD, List.getElem?_eq_getElem hm, Option.getD_some]
    omega
  · push_neg at hm
    rw [List.drop_eq_nil_of_le hm, List.getD_eq_getElem?_getD,
      List.getElem?_eq_none hm]
    simp [valB]

/-- The digit-wise lexicographic scan agrees with the numeric comparison of the
`cnt`-digit windows. -/
theorem isLessLoop_iff (self dv : List Nat) (shf : Nat)
    (hs : ∀ x ∈ self, x < B) (hd : ∀ x ∈ dv, x < B) :
    ∀ cnt, (isLessLoop self dv shf cnt = true ↔
      valB ((self.drop shf).take cnt) < valB (dv.take cnt))
  | 0 => by simp [isLessLoop, valB]
  | cnt + 1 => by
    rw [isLessLoop]
    have hws : (self.drop shf).getD cnt 0 = self.getD (cnt + shf) 0 := by
      rw [getD_drop]
      congr 1
      omega
    have hWdec := valB_take_succ (self.drop shf) cnt
    rw [hws] at hWdec
    have hDdec := valB_take_succ dv cnt
    set ws := self.getD (cnt + shf) 0 with hwsv
    set ds := dv.getD cnt 0 with hdsv
    set P := B ^ cnt with hP
    have hWlow : valB ((self.drop shf).take cnt) < P :=
      valB_take_lt _ (fun x hx => hs x (List.mem_of_mem_drop hx)) cnt
    have hDlow : valB (dv.take cnt) < P := valB_take_lt _ hd cnt
    by_cases h1 : ds < ws
    · rw [if_pos h1, hWdec, hDdec]
      have hm : P * (ds + 1) ≤ P * ws := Nat.mul_le_mul_left _ (by omega)
      rw [Nat.mul_add, Nat.mul_one] at hm
      constructor
      · intro hcon
        exact absurd hcon (by simp)
      · intro hcon
        omega
    · rw [if_neg h1]
      by_cases h2 : ws < ds
      · rw [if_pos h2, hWdec, hDdec]
        have hm : P * (ws + 1) ≤ P * ds := Nat.mul_le_mul_left _ (by omega)
        rw [Nat.mul_add, Nat.mul_one] at hm
        constructor
        · intro _
          omega
        · intro _
          rfl
      · rw [if_neg h2, hWdec, hDdec]
        have heq : ws = ds := by omega
        rw [isLessLoop_iff self dv shf hs hd cnt, heq]
        constructor <;> intro <;> omega

/-- `lead_u128` is the value of the two top retained digits. -/
theorem lead_eq_drop (a : List Nat) (h : 2 ≤ getOrder a) :
    valB (a.drop (getOrder a - 2)) = lead_u128 a := by
  set g := getOrder a with hg
  have hle := getOrder_le a
  rw [← hg] at hle
  have h2 : g - 2 < a.length := by omega
  have h1 : g - 1 < a.length := by omega
  have hlead : lead_u128 a = a.getD (g - 1) 0 * B + a.getD (g - 2) 0 := by
    rw [lead_u128, ← hg, if_neg (by omega), if_neg (by omega)]
  have hdrop0 : valB (a.drop g) = 0 := by
    rw [hg]
    exact valB_drop_getOrder a
  have hstep1 : a.drop (g - 2) = a[g - 2] :: a.drop (g - 1) := by
    rw [List.drop_eq_getElem_cons h2]
    have he : g - 2 + 1 = g - 1 := by omega
    rw [he]
  have hstep2 : a.drop (g - 1) = a[g - 1] :: a.drop g := by
    rw [List.drop_eq_getElem_cons h1]
    have he : g - 1 + 1 = g := by omega
    rw [he]
  rw [hstep1, valB_cons, hstep2, valB_cons, hdrop0, hlead]
  rw [List.getD_eq_getElem?_getD, List.getElem?_eq_getElem h1, Option.getD_some,
    List.getD_eq_getElem?_getD, List.getElem?_eq_getElem h2, Option.getD_some]
  ring

/-- For a single-digit value, `lead_u128` is the value itself. -/
theorem lead_eq_val_one (a : List Nat) (h : getOrder a = 1) : lead_u128 a = valB a := by
  have hlead : lead_u128 a = a.getD 0 0 := by
    rw [lead_u128, h]
    simp
  have hlen : 1 ≤ a.length := le_trans (by omega) (getOrder_le a)
  have hv : valB a = valB (a.take 1) := (valB_take_getOrder a).symm.trans (by rw [h])
  have ht := valB_take_succ a 0
  simp [valB] at ht
  rw [hlead, hv, ht, List.getD_eq_getElem?_getD]

/-- Peeling the top digit off the value. -/
theorem valB_top_decomp (a : List Nat) (h : 0 < getOrder a) :
    valB a = valB (a.take (getOrder a - 1))
      + B ^ (getOrder a - 1) * a.getD (getOrder a - 1) 0 := by
  have h1 : getOrder a - 1 + 1 = getOrder a := by omega
  have h2 := valB_take_succ a (getOrder a - 1)
  rw [h1, valB_take_getOrder] at h2
  exact h2

theorem valB_take_one (l : List Nat) : valB (l.take 1) = l.getD 0 0 := by
  have ht := valB_take_succ l 0
  rw [List.take_zero, valB_nil, pow_zero, one_mul] at ht
  exact ht.trans (Nat.zero_add _)

theorem valB_drop_succ (l : List Nat) (m : Nat) :
    valB (l.drop m) = l.getD m 0 + B * valB (l.drop (m + 1)) := by
  have h := valB_drop_split l m 1
  rw [valB_take_one, getD_drop, pow_one, Nat.add_zero] at h
  exact h

/-- Bounds on the per-iteration factor estimate: when the exit test fails, the
estimated digit is at least `1` and the subtracted amount fits in the current
window. -/
theorem divFactor_bounds {N : Nat} (dv self : List Nat) (shf : Nat)
    (hdv : Good N dv) (hD : 0 < valB dv) (hself : Good N self)
    (hc : valB (self.drop shf) < valB dv * B)
    (hns : ¬((if getOrder dv + shf < self.length then self.getD (getOrder dv + shf) 0 else 0) = 0
        ∧ isLessLoop self dv shf (getOrder dv) = true)) :
    1 ≤ divFactor dv (getOrder dv) self shf ∧
    valB dv * divFactor dv (getOrder dv) self shf ≤ valB (self.drop shf) := by
  have hg2pos : 0 < getOrder dv := getOrder_pos_of_valB_pos dv hD
  have hdtop1 : dv.getD (getOrder dv - 1) 0 ≠ 0 := getOrder_top_ne dv hg2pos
  have hdtopB : dv.getD (getOrder dv - 1) 0 < B := getD_lt_B dv hdv.2 _
  have hDlt : valB dv < B ^ getOrder dv := valB_lt_pow_getOrder hdv
  have hDge : B ^ (getOrder dv - 1) ≤ valB dv := valB_ge_pow_getOrder dv hg2pos
  have hDdecomp := valB_top_decomp dv hg2pos
  have hDlow : valB (dv.take (getOrder dv - 1)) < B ^ (getOrder dv - 1) :=
    valB_take_lt dv hdv.2 _
  have hDub : valB dv < B ^ (getOrder dv - 1) * (dv.getD (getOrder dv - 1) 0 + 1) := by
    have e : B ^ (getOrder dv - 1) * (dv.getD (getOrder dv - 1) 0 + 1)
        = B ^ (getOrder dv - 1) * dv.getD (getOrder dv - 1) 0 + B ^ (getOrder dv - 1) := by
      ring
    omega
  have hsplitW := valB_drop_split self shf (getOrder dv)
  have hWlt : valB ((self.drop shf).take (getOrder dv)) < B ^ getOrder dv :=
    valB_take_lt _ (fun x hx => hself.2 x (List.mem_of_mem_drop hx)) _
  have hextraB : valB (self.drop (shf + getOrder dv)) < B := by
    by_contra hcon
    push_neg at hcon
    have h1 : B ^ getOrder dv * B ≤ B ^ getOrder dv * valB (self.drop (shf + getOrder dv)) :=
      Nat.mul_le_mul_left _ hcon
    have h2 : valB dv * B < B ^ getOrder dv * B := mul_lt_mul_of_pos_right hDlt B_pos
    omega
  have hextra_dig : self.getD (shf + getOrder dv) 0 = valB (self.drop (shf + getOrder dv)) :=
    getD_eq_valB_drop self _ hextraB
  have hif : (if getOrder dv + shf < self.length then self.getD (getOrder dv + shf) 0 else 0)
      = valB (self.drop (shf + getOrder dv)) := by
    by_cases hin : getOrder dv + shf < self.length
    · rw [if_pos hin, ← hextra_dig]
      congr 1
      omega
    · rw [if_neg hin]
      push_neg at hin
      rw [List.drop_eq_nil_of_le (by omega), valB_nil]
  have hT : valB (self.take shf) < B ^ shf := valB_take_lt self hself.2 shf
  have hglobal : valB self = valB (self.take shf) + B ^ shf * valB (self.drop shf) := by
    have h := valB_drop_split self 0 shf
    simpa using h
  by_cases hx : valB (self.drop (shf + getOrder dv)) = 0
  · -- no digit above the window: the comparison must have failed
    rw [hif, hx] at hns
    have hless : ¬ isLessLoop self dv shf (getOrder dv) = true := fun hcon => hns ⟨rfl, hcon⟩
    rw [isLessLoop_iff self dv shf hself.2 hdv.2 (getOrder dv)] at hless
    push_neg at hless
    rw [valB_take_getOrder dv] at hless
    have hdropW : valB (self.drop shf) = valB ((self.drop shf).take (getOrder dv)) := by
      rw [hsplitW, hx, Nat.mul_zero, Nat.add_zero]
    have hDleW : valB dv ≤ valB (self.drop shf) := by
      rw [hdropW]
      exact hless
    have hWltg : valB (self.drop shf) < B ^ getOrder dv := by
      rw [hdropW]
      exact hWlt
    have horder : getOrder self = shf + getOrder dv := by
      have hWge : B ^ (getOrder dv - 1) ≤ valB (self.drop shf) := by omega
      have hp1 : B ^ shf * B ^ (getOrder dv - 1) = B ^ (shf + getOrder dv - 1) := by
        rw [← pow_add]
        congr 1
        omega
      have hp2 : B ^ shf * B ^ getOrder dv = B ^ (shf + getOrder dv) := by rw [← pow_add]
      have hlb : B ^ (shf + getOrder dv - 1) ≤ valB self := by
        rw [hglobal, ← hp1]
        have h1 := Nat.mul_le_mul_left (B ^ shf) hWge
        omega
      have hub2 : valB self < B ^ (shf + getOrder dv) := by
        rw [hglobal, ← hp2]
        have h1 : B ^ shf * (valB (self.drop shf) + 1) ≤ B ^ shf * B ^ getOrder dv :=
          Nat.mul_le_mul_left _ (by omega)
        have h2 : B ^ shf * (valB (self.drop shf) + 1)
            = B ^ shf * valB (self.drop shf) + B ^ shf := by ring
        omega
      have h := (getOrder_eq_succ_iff hself (shf + getOrder dv - 1)).mpr ⟨hlb, by
        have he : shf + getOrder dv - 1 + 1 = shf + getOrder dv := by omega
        rw [he]
        exact hub2⟩
      omega
    by_cases hcase : getOrder dv = 1 ∧ 0 < shf
    · -- single-digit divisor shifted up: bottom = lead(divisor) * B
      obtain ⟨hg21, hshf⟩ := hcase
      have hleadD : lead_u128 dv = valB dv := lead_eq_val_one dv hg21
      have hbot : divBottom dv (getOrder dv) self shf = valB dv * B := by
        simp only [divBottom]
        rw [hif, hx, if_neg (by omega), if_pos ⟨hg21, hshf⟩, hleadD]
      have horder1 : getOrder self = shf + 1 := by rw [horder, hg21]
      have h2le : 2 ≤ getOrder self := by omega
      have htop := lead_eq_drop self h2le
      rw [horder1] at htop
      have hidx : shf + 1 - 2 = shf - 1 := by omega
      rw [hidx] at htop
      have hdecomp := valB_drop_succ self (shf - 1)
      have he1 : shf - 1 + 1 = shf := by omega
      rw [he1] at hdecomp
      have hwprev : self.getD (shf - 1) 0 < B := getD_lt_B self hself.2 _
      have hWB : valB (self.drop shf) < B := by
        have h := hWltg
        rw [hg21, pow_one] at h
        exact h
      have hbotle : valB dv * B ≤ lead_u128 self := by
        rw [← htop, hdecomp]
        have h1 : valB dv * B ≤ valB (self.drop shf) * B := Nat.mul_le_mul_right _ hDleW
        have h2 : valB (self.drop shf) * B = B * valB (self.drop shf) := by ring
        omega
      simp only [divFactor]
      rw [hbot]
      by_cases heq : lead_u128 self = valB dv * B
      · rw [if_pos heq, Nat.mod_eq_of_lt one_lt_B]
        exact ⟨le_refl 1, by rw [Nat.mul_one]; exact hDleW⟩
      · rw [if_neg heq]
        have hDBpos : 0 < valB dv * B + 1 := by omega
        have hgt : valB dv * B + 1 ≤ lead_u128 self := by omega
        have hfraw1 : 1 ≤ lead_u128 self / (valB dv * B + 1) :=
          (Nat.one_le_div_iff hDBpos).mpr hgt
        have htopB2 : lead_u128 self < B * (valB dv * B + 1) := by
          rw [← htop, hdecomp]
          have hBle : B ≤ valB dv * B := Nat.le_mul_of_pos_left B hD
          have h1 : B * (valB (self.drop shf) + 1) ≤ B * (valB dv * B) :=
            Nat.mul_le_mul_left _ (by omega)
          have h2 : B * (valB (self.drop shf) + 1) = B * valB (self.drop shf) + B := by ring
          have h3 : B * (valB dv * B + 1) = B * (valB dv * B) + B := by ring
          omega
        have hfrB : lead_u128 self / (valB dv * B + 1) < B := by
          rw [Nat.div_lt_iff_lt_mul hDBpos]
          exact htopB2
        rw [Nat.mod_eq_of_lt hfrB]
        refine ⟨hfraw1, ?_⟩
        set fr := lead_u128 self / (valB dv * B + 1) with hfr
        have hfpos : 0 < fr := hfraw1
        have hmul1 : fr * (valB dv * B + 1) ≤ lead_u128 self := by
          rw [hfr]
          exact Nat.div_mul_le_self _ _
        have e1 : fr * (valB dv * B + 1) = valB dv * fr * B + fr := by ring
        have h2 : lead_u128 self < (valB (self.drop shf) + 1) * B := by
          rw [← htop, hdecomp]
          have e2 : (valB (self.drop shf) + 1) * B = B * valB (self.drop shf) + B := by ring
          omega
        have hlt : valB dv * fr * B < (valB (self.drop shf) + 1) * B := by omega
        have hfin := lt_of_mul_lt_mul_right hlt (Nat.zero_le B)
        omega
    · by_cases hg21 : getOrder dv = 1
      · -- single-digit divisor, no shift left: bottom = lead(divisor)
        have hshf0 : shf = 0 := by
          by_contra hcon
          exact hcase ⟨hg21, by omega⟩
        have hleadD : lead_u128 dv = valB dv := lead_eq_val_one dv hg21
        have hbot : divBottom dv (getOrder dv) self shf = valB dv := by
          simp only [divBottom]
          rw [hif, hx, if_neg (by omega), if_neg (by simp [hshf0]), hleadD]
        have horder1 : getOrder self = 1 := by rw [horder, hg21, hshf0]
        have htopv : lead_u128 self = valB self := lead_eq_val_one self horder1
        have hself0 : valB (self.drop shf) = valB self := by rw [hshf0, List.drop_zero]
        have hts : lead_u128 self = valB (self.drop shf) := by rw [htopv, hself0]
        have hWB0 : valB (self.drop shf) < B := by
          have h := hWltg
          rw [hg21, pow_one] at h
          exact h
        simp only [divFactor]
        rw [hbot]
        by_cases heq : lead_u128 self = valB dv
        · rw [if_pos heq, Nat.mod_eq_of_lt one_lt_B]
          exact ⟨le_refl 1, by rw [Nat.mul_one]; exact hDleW⟩
        · rw [if_neg heq]
          have hpos : 0 < valB dv + 1 := by omega
          have hgt : valB dv + 1 ≤ lead_u128 self := by
            have h := hDleW
            rw [← hts] at h
            omega
          have hfraw1 : 1 ≤ lead_u128 self / (valB dv + 1) := (Nat.one_le_div_iff hpos).mpr hgt
          have hfrB : lead_u128 self / (valB dv + 1) < B := by
            rw [Nat.div_lt_iff_lt_mul hpos]
            have h1 : B * 1 ≤ B * (valB dv + 1) := Nat.mul_le_mul_left _ (by omega)
            rw [Nat.mul_one] at h1
            have h2 : lead_u128 self < B := by
              rw [hts]
              exact hWB0
            omega
          rw [Nat.mod_eq_of_lt hfrB]
          refine ⟨hfraw1, ?_⟩
          have hmul1 : lead_u128 self / (valB dv + 1) * (valB dv + 1) ≤ lead_u128 self :=
            Nat.div_mul_le_self _ _
          set fr := lead_u128 self / (valB dv + 1) with hfr
          have e1 : fr * (valB dv + 1) = valB dv * fr + fr := by ring
          rw [hts] at hmul1
          omega
      · -- multi-digit divisor: bottom = lead(divisor)
        have hg22 : 2 ≤ getOrder dv := by omega
        have hbotlead := lead_eq_drop dv hg22
        have hbot : divBottom dv (getOrder dv) self shf = lead_u128 dv := by
          simp only [divBottom]
          rw [hif, hx, if_neg (by omega), if_neg (fun h => hg21 h.1)]
        have h2le : 2 ≤ getOrder self := by omega
        have htop := lead_eq_drop self h2le
        rw [horder] at htop
        have hidx : shf + getOrder dv - 2 = shf + (getOrder dv - 2) := by omega
        rw [hidx] at htop
        have hsplitT := valB_drop_split self shf (getOrder dv - 2)
        rw [htop] at hsplitT
        have hlowW : valB ((self.drop shf).take (getOrder dv - 2)) < B ^ (getOrder dv - 2) :=
          valB_take_lt _ (fun x hx2 => hself.2 x (List.mem_of_mem_drop hx2)) _
        have hsplitD := valB_drop_split dv 0 (getOrder dv - 2)
        rw [List.drop_zero, Nat.zero_add, hbotlead] at hsplitD
        have hlowD : valB (dv.take (getOrder dv - 2)) < B ^ (getOrder dv - 2) :=
          valB_take_lt dv hdv.2 _
        have hp1 : B ^ (getOrder dv - 2) * B = B ^ (getOrder dv - 1) := by
          rw [← pow_succ]
          congr 1
          omega
        have hp2 : B ^ (getOrder dv - 2) * (B * B) = B ^ getOrder dv := by
          rw [show B * B = B ^ 2 by ring, ← pow_add]
          congr 1
          omega
        have hbotlb : B ≤ lead_u128 dv := by
          by_contra hcon
          push_neg at hcon
          have h1 : B ^ (getOrder dv - 2) * (lead_u128 dv + 1) ≤ B ^ (getOrder dv - 2) * B :=
            Nat.mul_le_mul_left _ (by omega)
          have h2 : B ^ (getOrder dv - 2) * (lead_u128 dv + 1)
              = B ^ (getOrder dv - 2) * lead_u128 dv + B ^ (getOrder dv - 2) := by ring
          rw [hp1] at h1
          omega
        have htopub : lead_u128 self < B * B := by
          by_contra hcon
          push_neg at hcon
          have h1 : B ^ (getOrder dv - 2) * (B * B) ≤ B ^ (getOrder dv - 2) * lead_u128 self :=
            Nat.mul_le_mul_left _ hcon
          rw [hp2] at h1
          omega
        have hble : lead_u128 dv ≤ lead_u128 self := by
          by_contra hcon
          push_neg at hcon
          have h1 : B ^ (getOrder dv - 2) * (lead_u128 self + 1)
              ≤ B ^ (getOrder dv - 2) * lead_u128 dv := Nat.mul_le_mul_left _ (by omega)
          have h2 : B ^ (getOrder dv - 2) * (lead_u128 self + 1)
              = B ^ (getOrder dv - 2) * lead_u128 self + B ^ (getOrder dv - 2) := by ring
          omega
        simp only [divFactor]
        rw [hbot]
        by_cases heq : lead_u128 self = lead_u128 dv
        · rw [if_pos heq, Nat.mod_eq_of_lt one_lt_B]
          exact ⟨le_refl 1, by rw [Nat.mul_one]; exact hDleW⟩
        · rw [if_neg heq]
          have hpos : 0 < lead_u128 dv + 1 := by omega
          have hgt : lead_u128 dv + 1 ≤ lead_u128 self := by omega
          have hfraw1 : 1 ≤ lead_u128 self / (lead_u128 dv + 1) :=
            (Nat.one_le_div_iff hpos).mpr hgt
          have hfrB : lead_u128 self / (lead_u128 dv + 1) < B := by
            rw [Nat.div_lt_iff_lt_mul hpos]
            have h1 : B * B ≤ B * (lead_u128 dv + 1) := Nat.mul_le_mul_left _ (by omega)
            omega
          rw [Nat.mod_eq_of_lt hfrB]
          refine ⟨hfraw1, ?_⟩
          set fr := lead_u128 self / (lead_u128 dv + 1) with hfr
          have hfpos : 0 < fr := hfraw1
          have hmul1 : fr * (lead_u128 dv + 1) ≤ lead_u128 self := by
            rw [hfr]
            exact Nat.div_mul_le_self _ _
          have hDub2 : valB dv < B ^ (getOrder dv - 2) * (lead_u128 dv + 1) := by
            have e : B ^ (getOrder dv - 2) * (lead_u128 dv + 1)
                = B ^ (getOrder dv - 2) * lead_u128 dv + B ^ (getOrder dv - 2) := by ring
            omega
          have h1 : valB dv * fr < (B ^ (getOrder dv - 2) * (lead_u128 dv + 1)) * fr :=
            mul_lt_mul_of_pos_right hDub2 hfpos
          have h2 : (B ^ (getOrder dv - 2) * (lead_u128 dv + 1)) * fr
              = B ^ (getOrder dv - 2) * ((lead_u128 dv + 1) * fr) := by ring
          have h3 : B ^ (getOrder dv - 2) * ((lead_u128 dv + 1) * fr)
              ≤ B ^ (getOrder dv - 2) * lead_u128 self := by
            apply Nat.mul_le_mul_left
            rw [Nat.mul_comm]
            exact hmul1
          omega
  · -- a nonzero digit sits right above the window
    have hxpos : 0 < valB (self.drop (shf + getOrder dv)) := Nat.pos_of_ne_zero hx
    have hp2 : B ^ shf * B ^ getOrder dv = B ^ (shf + getOrder dv) := by rw [← pow_add]
    have hlb : B ^ (shf + getOrder dv) ≤ valB self := by
      rw [hglobal, ← hp2]
      have h1 : B ^ getOrder dv * 1 ≤ B ^ getOrder dv * valB (self.drop (shf + getOrder dv)) :=
        Nat.mul_le_mul_left _ hxpos
      rw [Nat.mul_one] at h1
      have h2 : B ^ shf * B ^ getOrder dv ≤ B ^ shf * valB (self.drop shf) := by
        apply Nat.mul_le_mul_left
        omega
      omega
    have hub : valB self < B ^ (shf + getOrder dv + 1) := by
      rw [hglobal]
      have hpp : B ^ (shf + getOrder dv + 1) = B ^ shf * (B ^ getOrder dv * B) := by
        rw [pow_add, pow_add, pow_one]
        ring
      rw [hpp]
      have h0 : valB dv * B < B ^ getOrder dv * B := mul_lt_mul_of_pos_right hDlt B_pos
      have h1 : valB (self.drop shf) + 1 ≤ B ^ getOrder dv * B := by omega
      have h2 : B ^ shf * (valB (self.drop shf) + 1) ≤ B ^ shf * (B ^ getOrder dv * B) :=
        Nat.mul_le_mul_left _ h1
      have h3 : B ^ shf * (valB (self.drop shf) + 1)
          = B ^ shf * valB (self.drop shf) + B ^ shf := by ring
      omega
    have horder : getOrder self = shf + getOrder dv + 1 :=
      (getOrder_eq_succ_iff hself (shf + getOrder dv)).mpr ⟨hlb, hub⟩
    have h2le : 2 ≤ getOrder self := by omega
    have htop := lead_eq_drop self h2le
    rw [horder] at htop
    have hidx : shf + getOrder dv + 1 - 2 = shf + (getOrder dv - 1) := by omega
    rw [hidx] at htop
    have hbot : divBottom dv (getOrder dv) self shf = dv.getD (getOrder dv - 1) 0 := by
      simp only [divBottom]
      rw [hif, if_pos hxpos]
    have hsplitT := valB_drop_split self shf (getOrder dv - 1)
    rw [htop] at hsplitT
    have hlowW : valB ((self.drop shf).take (getOrder dv - 1)) < B ^ (getOrder dv - 1) :=
      valB_take_lt _ (fun x hx2 => hself.2 x (List.mem_of_mem_drop hx2)) _
    have htopdec := valB_drop_succ self (shf + (getOrder dv - 1))
    have he : shf + (getOrder dv - 1) + 1 = shf + getOrder dv := by omega
    rw [he, htop] at htopdec
    have hwdig : self.getD (shf + (getOrder dv - 1)) 0 < B := getD_lt_B self hself.2 _
    have hextra_le : valB (self.drop (shf + getOrder dv)) ≤ dv.getD (getOrder dv - 1) 0 := by
      by_contra hcon
      push_neg at hcon
      have hp1 : B ^ (getOrder dv - 1) * B = B ^ getOrder dv := by
        rw [← pow_succ]
        congr 1
        omega
      have h1 : valB dv * B < (B ^ (getOrder dv - 1) * (dv.getD (getOrder dv - 1) 0 + 1)) * B :=
        mul_lt_mul_of_pos_right hDub B_pos
      have h2 : (B ^ (getOrder dv - 1) * (dv.getD (getOrder dv - 1) 0 + 1)) * B
          = B ^ getOrder dv * (dv.getD (getOrder dv - 1) 0 + 1) := by
        rw [← hp1]
        ring
      have h3 : B ^ getOrder dv * (dv.getD (getOrder dv - 1) 0 + 1)
          ≤ B ^ getOrder dv * valB (self.drop (shf + getOrder dv)) :=
        Nat.mul_le_mul_left _ (by omega)
      omega
    have htople : B ≤ lead_u128 self := by
      have h1 : B * 1 ≤ B * valB (self.drop (shf + getOrder dv)) :=
        Nat.mul_le_mul_left _ hxpos
      rw [Nat.mul_one] at h1
      omega
    have htopub : lead_u128 self < (dv.getD (getOrder dv - 1) 0 + 1) * B := by
      have h1 : B * valB (self.drop (shf + getOrder dv)) ≤ B * dv.getD (getOrder dv - 1) 0 :=
        Nat.mul_le_mul_left _ hextra_le
      have h2 : (dv.getD (getOrder dv - 1) 0 + 1) * B
          = B * dv.getD (getOrder dv - 1) 0 + B := by ring
      omega
    simp only [divFactor]
    rw [hbot]
    have hne : lead_u128 self ≠ dv.getD (getOrder dv - 1) 0 := by omega
    rw [if_neg hne]
    have hpos : 0 < dv.getD (getOrder dv - 1) 0 + 1 := by omega
    have hgt : dv.getD (getOrder dv - 1) 0 + 1 ≤ lead_u128 self := by omega
    have hfraw1 : 1 ≤ lead_u128 self / (dv.getD (getOrder dv - 1) 0 + 1) :=
      (Nat.one_le_div_iff hpos).mpr hgt
    have hfrB : lead_u128 self / (dv.getD (getOrder dv - 1) 0 + 1) < B := by
      rw [Nat.div_lt_iff_lt_mul hpos]
      have e : B * (dv.getD (getOrder dv - 1) 0 + 1)
          = (dv.getD (getOrder dv - 1) 0 + 1) * B := by ring
      omega
    rw [Nat.mod_eq_of_lt hfrB]
    refine ⟨hfraw1, ?_⟩
    set fr := lead_u128 self / (dv.getD (getOrder dv - 1) 0 + 1) with hfr
    have hfpos : 0 < fr := hfraw1
    have hmul1 : fr * (dv.getD (getOrder dv - 1) 0 + 1) ≤ lead_u128 self := by
      rw [hfr]
      exact Nat.div_mul_le_self _ _
    have h1 : valB dv * fr < (B ^ (getOrder dv - 1) * (dv.getD (getOrder dv - 1) 0 + 1)) * fr :=
      mul_lt_mul_of_pos_right hDub hfpos
    have h2 : (B ^ (getOrder dv - 1) * (dv.getD (getOrder dv - 1) 0 + 1)) * fr
        = B ^ (getOrder dv - 1) * ((dv.getD (getOrder dv - 1) 0 + 1) * fr) := by ring
    have h3 : B ^ (getOrder dv - 1) * ((dv.getD (getOrder dv - 1) 0 + 1) * fr)
        ≤ B ^ (getOrder dv - 1) * lead_u128 self := by
      apply Nat.mul_le_mul_left
      rw [Nat.mul_comm]
      exact hmul1
    omega

theorem getD_eq_getElem (l : List Nat) (i : Nat) (h : i < l.length) : l.getD i 0 = l[i] := by
  rw [List.getD_eq_getElem?_getD, List.getElem?_eq_getElem h, Option.getD_some]

theorem drop_eq_of_getD_eq (l1 l2 : List Nat) (hlen : l1.length = l2.length) (m : Nat)
    (h : ∀ j, m ≤ j → l1.getD j 0 = l2.getD j 0) : l1.drop m = l2.drop m := by
  apply List.ext_getElem?
  intro i
  rw [List.getElem?_drop, List.getElem?_drop]
  by_cases hj : m + i < l1.length
  · rw [List.getElem?_eq_getElem hj, List.getElem?_eq_getElem (show m + i < l2.length by omega)]
    have hh := h (m + i) (by omega)
    rw [getD_eq_getElem _ _ hj, getD_eq_getElem _ _ (show m + i < l2.length by omega)] at hh
    rw [hh]
  · rw [List.getElem?_eq_none (by omega), List.getElem?_eq_none (by omega)]

theorem take_eq_of_getD_eq (l1 l2 : List Nat) (hlen : l1.length = l2.length) (m : Nat)
    (h : ∀ j, j < m → l1.getD j 0 = l2.getD j 0) : l1.take m = l2.take m := by
  apply List.ext_getElem?
  intro i
  rw [List.getElem?_take, List.getElem?_take]
  by_cases him : i < m
  · rw [if_pos him, if_pos him]
    by_cases hj : i < l1.length
    · rw [List.getElem?_eq_getElem hj, List.getElem?_eq_getElem (show i < l2.length by omega)]
      have hh := h i him
      rw [getD_eq_getElem _ _ hj, getD_eq_getElem _ _ (show i < l2.length by omega)] at hh
      rw [hh]
    · rw [List.getElem?_eq_none (by omega), List.getElem?_eq_none (by omega)]
  · rw [if_neg him, if_neg him]

/-- One reduction step of the division loop: the dividend shrinks by exactly
`divisor * factor` at word offset `shf`, well-formedness is preserved, the
digits below `shf` are untouched, and the new result digit does not overflow. -/
theorem divStep_ok {N : Nat} (dv self res : List Nat) (shf : Nat)
    (hdv : Good N dv) (hD : 0 < valB dv) (hself : Good N self) (hres : Good N res)
    (hfN : getOrder dv + shf ≤ N)
    (hc : valB (self.drop shf) < valB dv * B)
    (hd : valB (self.drop shf) + valB dv * res.getD shf 0 < valB dv * B)
    (hns : ¬((if getOrder dv + shf < self.length then self.getD (getOrder dv + shf) 0 else 0) = 0
        ∧ isLessLoop self dv shf (getOrder dv) = true)) :
    Good N (divSelf3 dv (getOrder dv) self shf) ∧
    (divSelf3 dv (getOrder dv) self shf).take shf = self.take shf ∧
    valB ((divSelf3 dv (getOrder dv) self shf).drop shf)
      + valB dv * divFactor dv (getOrder dv) self shf = valB (self.drop shf) ∧
    1 ≤ divFactor dv (getOrder dv) self shf ∧
    res.getD shf 0 + divFactor dv (getOrder dv) self shf < B := by
  obtain ⟨hf1, hDfle⟩ := divFactor_bounds dv self shf hdv hD hself hc hns
  have hg2pos : 0 < getOrder dv := getOrder_pos_of_valB_pos dv hD
  have hselflen : self.length = N := hself.1
  have hDlt : valB dv < B ^ getOrder dv := valB_lt_pow_getOrder hdv
  -- the new result digit fits in a word
  have hdigit_ok : res.getD shf 0 + divFactor dv (getOrder dv) self shf < B := by
    by_contra hcon
    push_neg at hcon
    have h1 : valB dv * B ≤ valB dv * (res.getD shf 0 + divFactor dv (getOrder dv) self shf) :=
      Nat.mul_le_mul_left _ hcon
    have e : valB dv * (res.getD shf 0 + divFactor dv (getOrder dv) self shf)
        = valB dv * res.getD shf 0 + valB dv * divFactor dv (getOrder dv) self shf := by ring
    omega
  -- run the window subtraction
  obtain ⟨rl_len, rl_dig, rl_frame, rl_val⟩ :=
    redLoop_spec dv (divFactor dv (getOrder dv) self shf) shf (getOrder dv) 0 self 0
      (by omega) hself.2
  simp only [Nat.zero_add, List.drop_zero, Nat.add_zero] at rl_val rl_frame
  rw [valB_take_getOrder dv] at rl_val
  set f := divFactor dv (getOrder dv) self shf with hfdef
  set rp := redLoop dv f shf self 0 0 (getOrder dv) with hrp
  -- window decomposition of the dividend
  have hWsplit := valB_drop_split self shf (getOrder dv)
  have hWlt : valB ((self.drop shf).take (getOrder dv)) < B ^ getOrder dv :=
    valB_take_lt _ (fun x hx => hself.2 x (List.mem_of_mem_drop hx)) _
  have hextraB : valB (self.drop (shf + getOrder dv)) < B := by
    by_contra hcon
    push_neg at hcon
    have h1 : B ^ getOrder dv * B ≤ B ^ getOrder dv * valB (self.drop (shf + getOrder dv)) :=
      Nat.mul_le_mul_left _ hcon
    have h2 : valB dv * B < B ^ getOrder dv * B := mul_lt_mul_of_pos_right hDlt B_pos
    omega
  have hW'lt : valB ((rp.1.drop shf).take (getOrder dv)) < B ^ getOrder dv :=
    valB_take_lt _ (fun x hx => rl_dig x (List.mem_of_mem_drop hx)) _
  -- the final borrow is at most the digit above the window
  have hfw_le : rp.2 ≤ valB (self.drop (shf + getOrder dv)) := by
    by_contra hcon
    push_neg at hcon
    have h1 : B ^ getOrder dv * (valB (self.drop (shf + getOrder dv)) + 1)
        ≤ B ^ getOrder dv * rp.2 := Nat.mul_le_mul_left _ (by omega)
    have h2 : B ^ getOrder dv * (valB (self.drop (shf + getOrder dv)) + 1)
        = B ^ getOrder dv * valB (self.drop (shf + getOrder dv)) + B ^ getOrder dv := by ring
    omega
  -- frame: the digits above the window survive the subtraction
  have hdropEq : rp.1.drop (shf + getOrder dv) = self.drop (shf + getOrder dv) :=
    drop_eq_of_getD_eq _ _ rl_len _ (fun j hj => rl_frame j (Or.inr hj))
  have htakeEq : rp.1.take shf = self.take shf :=
    take_eq_of_getD_eq _ _ rl_len _ (fun j hj => rl_frame j (Or.inl hj))
  have hW'split := valB_drop_split rp.1 shf (getOrder dv)
  rw [hdropEq] at hW'split
  simp only [divSelf3]
  rw [← hfdef, ← hrp]
  by_cases hcond : 0 < rp.2 ∧ getOrder dv + shf < self.length
  · -- positive final borrow: it is taken from the digit above the window
    rw [if_pos hcond]
    obtain ⟨hfwpos, hin⟩ := hcond
    have hxd : self.getD (shf + getOrder dv) 0 = valB (self.drop (shf + getOrder dv)) :=
      getD_eq_valB_drop self _ hextraB
    have hcomm : getOrder dv + shf = shf + getOrder dv := by omega
    have hrd : rp.1.getD (getOrder dv + shf) 0 = valB (self.drop (shf + getOrder dv)) := by
      rw [hcomm, rl_frame (shf + getOrder dv) (Or.inr (le_refl _)), hxd]
    have hfwB : rp.2 % B = rp.2 := Nat.mod_eq_of_lt (by omega)
    have hnd : (B + rp.1.getD (getOrder dv + shf) 0 - rp.2 % B) % B
        = valB (self.drop (shf + getOrder dv)) - rp.2 := by
      rw [hrd, hfwB]
      have he : B + valB (self.drop (shf + getOrder dv)) - rp.2
          = B + (valB (self.drop (shf + getOrder dv)) - rp.2) := by omega
      rw [he, Nat.add_mod_left, Nat.mod_eq_of_lt (by omega)]
    rw [hnd]
    have hsetlen : (rp.1.set (getOrder dv + shf)
        (valB (self.drop (shf + getOrder dv)) - rp.2)).length = N := by
      rw [List.length_set, rl_len, hselflen]
    refine ⟨⟨hsetlen, ?_⟩, ?_, ?_, hf1, hdigit_ok⟩
    · intro x hx
      rcases List.mem_or_eq_of_mem_set hx with h | h
      · exact rl_dig x h
      · rw [h]
        omega
    · apply take_eq_of_getD_eq _ _ (by rw [hsetlen, hselflen]) shf
      intro j hj
      rw [getD_set_ne _ _ _ _ (by omega), rl_frame j (Or.inl hj)]
    · -- value identity with the extra borrow folded in
      have hdset := @List.drop_set Nat rp.1 shf (getOrder dv + shf)
        (valB (self.drop (shf + getOrder dv)) - rp.2)
      rw [if_neg (by omega)] at hdset
      rw [hdset]
      have hidx2 : getOrder dv + shf - shf = getOrder dv := by omega
      rw [hidx2]
      have hglen : getOrder dv < (rp.1.drop shf).length := by
        rw [List.length_drop, rl_len, hselflen]
        omega
      have hvset := valB_set (rp.1.drop shf) (getOrder dv)
        (valB (self.drop (shf + getOrder dv)) - rp.2) hglen
      have hgd : (rp.1.drop shf).getD (getOrder dv) 0
          = valB (self.drop (shf + getOrder dv)) := by
        rw [getD_drop, ← hcomm, hrd, hcomm]
      rw [hgd] at hvset
      obtain ⟨E2, hE2⟩ : ∃ E2, valB (self.drop (shf + getOrder dv)) = E2 + rp.2 :=
        ⟨valB (self.drop (shf + getOrder dv)) - rp.2, by omega⟩
      rw [hE2, Nat.add_sub_cancel] at hvset
      rw [hE2] at hWsplit hW'split
      rw [hE2, Nat.add_sub_cancel]
      have hlink : B ^ getOrder dv * (E2 + rp.2)
          = B ^ getOrder dv * E2 + B ^ getOrder dv * rp.2 := by ring
      omega
  · -- no positive borrow survives
    rw [if_neg hcond]
    have hfw0 : rp.2 = 0 := by
      rcases Decidable.not_and_iff_or_not.mp hcond with h | h
      · omega
      · push_neg at h
        have : self.drop (shf + getOrder dv) = [] := List.drop_eq_nil_of_le (by omega)
        rw [this, valB_nil] at hfw_le
        omega
    refine ⟨⟨by rw [rl_len, hselflen], rl_dig⟩, htakeEq, ?_, hf1, hdigit_ok⟩
    rw [hW'split]
    have hn0 : B ^ getOrder dv * rp.2 = 0 := by rw [hfw0, Nat.mul_zero]
    omega

/-- The digit just above the current window, as probed by the loop's exit test,
equals the value of the whole tail above the window (which fits in one word). -/
theorem div_extra_eq {N : Nat} (dv self : List Nat) (shf : Nat)
    (hdv : Good N dv) (hself : Good N self)
    (hc : valB (self.drop shf) < valB dv * B) :
    valB (self.drop (shf + getOrder dv)) < B ∧
    (if getOrder dv + shf < self.length then self.getD (getOrder dv + shf) 0 else 0)
      = valB (self.drop (shf + getOrder dv)) := by
  have hDlt : valB dv < B ^ getOrder dv := valB_lt_pow_getOrder hdv
  have hsplitW := valB_drop_split self shf (getOrder dv)
  have hextraB : valB (self.drop (shf + getOrder dv)) < B := by
    by_contra hcon
    push_neg at hcon
    have h1 : B ^ getOrder dv * B ≤ B ^ getOrder dv * valB (self.drop (shf + getOrder dv)) :=
      Nat.mul_le_mul_left _ hcon
    have h2 : valB dv * B < B ^ getOrder dv * B := mul_lt_mul_of_pos_right hDlt B_pos
    omega
  refine ⟨hextraB, ?_⟩
  by_cases hin : getOrder dv + shf < self.length
  · have hco : getOrder dv + shf = shf + getOrder dv := by omega
    rw [if_pos hin, hco, getD_eq_valB_drop self _ hextraB]
  · rw [if_neg hin]
    push_neg at hin
    rw [List.drop_eq_nil_of_le (by omega), valB_nil]

/-- Total correctness of the main division loop, by induction on the fuel.
The invariants are: the window fits below `valB dv * B` both before and after
accounting for the pending result digit, result digits below `shf` are zero,
and the fuel dominates `valB self / valB dv + shf`. -/
theorem divLoop_ok {N : Nat} (dv : List Nat) (hdv : Good N dv) (hD : 0 < valB dv) :
    ∀ (fuel : Nat) (self res : List Nat) (shf : Nat),
    Good N self → Good N res →
    getOrder dv + shf ≤ N →
    valB (self.drop shf) < valB dv * B →
    (∀ j, j < shf → res.getD j 0 = 0) →
    valB (self.drop shf) + valB dv * res.getD shf 0 < valB dv * B →
    valB self + valB dv * shf < valB dv * fuel →
    ∃ r q, divLoop dv (getOrder dv) fuel self res shf = some (r, q) ∧
      Good N r ∧ Good N q ∧
      valB r + valB dv * valB q = valB self + valB dv * valB res ∧
      valB r < valB dv
  | 0 => by
    intro self res shf _ _ _ _ _ _ hfuel
    omega
  | fuel + 1 => by
    intro self res shf hself hres hfN hc he hd hfuel
    rw [divLoop]
    by_cases hcond : (if getOrder dv + shf < self.length then self.getD (getOrder dv + shf) 0
        else 0) = 0 ∧ isLessLoop self dv shf (getOrder dv) = true
    · rw [if_pos hcond]
      obtain ⟨hexB, hif⟩ := div_extra_eq dv self shf hdv hself hc
      rw [hif] at hcond
      obtain ⟨hx0, hless⟩ := hcond
      rw [isLessLoop_iff self dv shf hself.2 hdv.2 (getOrder dv)] at hless
      rw [valB_take_getOrder dv] at hless
      have hWsplit := valB_drop_split self shf (getOrder dv)
      have hWD : valB (self.drop shf) < valB dv := by
        rw [hWsplit, hx0, Nat.mul_zero, Nat.add_zero]
        exact hless
      by_cases hshf : shf ≠ 0
      · rw [if_pos hshf]
        have hdig : self.getD (shf - 1) 0 < B := getD_lt_B self hself.2 _
        have hdecomp := valB_drop_succ self (shf - 1)
        have he1 : shf - 1 + 1 = shf := by omega
        rw [he1] at hdecomp
        have hc' : valB (self.drop (shf - 1)) < valB dv * B := by
          rw [hdecomp]
          have h1 : B * (valB (self.drop shf) + 1) ≤ B * valB dv :=
            Nat.mul_le_mul_left _ (by omega)
          have h2 : B * (valB (self.drop shf) + 1) = B * valB (self.drop shf) + B := by ring
          have h3 : B * valB dv = valB dv * B := by ring
          omega
        have he' : ∀ j, j < shf - 1 → res.getD j 0 = 0 := fun j hj => he j (by omega)
        have hres0 : res.getD (shf - 1) 0 = 0 := he (shf - 1) (by omega)
        have hd' : valB (self.drop (shf - 1)) + valB dv * res.getD (shf - 1) 0
            < valB dv * B := by
          rw [hres0, Nat.mul_zero, Nat.add_zero]
          exact hc'
        have hfe1 : valB dv * shf = valB dv * (shf - 1) + valB dv := by
          have hs : shf = shf - 1 + 1 := by omega
          conv_lhs => rw [hs]
          rw [Nat.mul_add, Nat.mul_one]
        have hfe2 : valB dv * (fuel + 1) = valB dv * fuel + valB dv := by
          rw [Nat.mul_add, Nat.mul_one]
        exact @divLoop_ok N dv hdv hD fuel self res (shf - 1) hself hres (by omega) hc'
          he' hd' (by omega)
      · rw [if_neg hshf]
        push_neg at hshf
        rw [hshf, List.drop_zero] at hWD
        exact ⟨self, res, rfl, hself, hres, rfl, hWD⟩
    · rw [if_neg hcond]
      obtain ⟨hstep_good, hstep_take, hstep_val, hstep_f1, hstep_digit⟩ :=
        divStep_ok dv self res shf hdv hD hself hres hfN hc hd hcond
      have hg2pos : 0 < getOrder dv := getOrder_pos_of_valB_pos dv hD
      have hshfN : shf < N := by omega
      have hreslen : shf < res.length := by
        rw [hres.1]
        exact hshfN
      have hresset_good : Good N (res.set shf ((res.getD shf 0
          + divFactor dv (getOrder dv) self shf) % B)) := by
        constructor
        · rw [List.length_set, hres.1]
        · intro x hx
          rcases List.mem_or_eq_of_mem_set hx with h | h
          · exact hres.2 x h
          · rw [h]
            exact Nat.mod_lt _ B_pos
      have hmodid : (res.getD shf 0 + divFactor dv (getOrder dv) self shf) % B
          = res.getD shf 0 + divFactor dv (getOrder dv) self shf :=
        Nat.mod_eq_of_lt hstep_digit
      have hresset_val : valB (res.set shf ((res.getD shf 0
          + divFactor dv (getOrder dv) self shf) % B))
          = valB res + divFactor dv (getOrder dv) self shf * B ^ shf := by
        rw [hmodid]
        have hv := valB_set res shf (res.getD shf 0
          + divFactor dv (getOrder dv) self shf) hreslen
        have e : B ^ shf * (res.getD shf 0 + divFactor dv (getOrder dv) self shf)
            = B ^ shf * res.getD shf 0 + B ^ shf * divFactor dv (getOrder dv) self shf := by
          ring
        have e2 : divFactor dv (getOrder dv) self shf * B ^ shf
            = B ^ shf * divFactor dv (getOrder dv) self shf := by ring
        omega
      have hglobal_self : valB self
          = valB (self.take shf) + B ^ shf * valB (self.drop shf) := by
        have h := valB_drop_split self 0 shf
        simpa using h
      have hglobal_self3 : valB (divSelf3 dv (getOrder dv) self shf)
          = valB (self.take shf)
            + B ^ shf * valB ((divSelf3 dv (getOrder dv) self shf).drop shf) := by
        have h := valB_drop_split (divSelf3 dv (getOrder dv) self shf) 0 shf
        simp only [List.drop_zero, Nat.zero_add] at h
        rw [hstep_take] at h
        exact h
      have hc3 : valB ((divSelf3 dv (getOrder dv) self shf).drop shf) < valB dv * B := by
        omega
      have he3 : ∀ j, j < shf → (res.set shf ((res.getD shf 0
          + divFactor dv (getOrder dv) self shf) % B)).getD j 0 = 0 := by
        intro j hj
        rw [getD_set_ne _ _ _ _ (by omega)]
        exact he j hj
      have hd3 : valB ((divSelf3 dv (getOrder dv) self shf).drop shf)
          + valB dv * (res.set shf ((res.getD shf 0
            + divFactor dv (getOrder dv) self shf) % B)).getD shf 0 < valB dv * B := by
        rw [getD_set_self _ _ _ hreslen, hmodid]
        have e : valB dv * (res.getD shf 0 + divFactor dv (getOrder dv) self shf)
            = valB dv * res.getD shf 0
              + valB dv * divFactor dv (getOrder dv) self shf := by ring
        omega
      have hfuel3 : valB (divSelf3 dv (getOrder dv) self shf) + valB dv * shf
          < valB dv * fuel := by
        have hDle : valB dv ≤ valB dv * divFactor dv (getOrder dv) self shf := by
          have h1 : valB dv * 1 ≤ valB dv * divFactor dv (getOrder dv) self shf :=
            Nat.mul_le_mul_left _ hstep_f1
          rw [Nat.mul_one] at h1
          exact h1
        have hBpow : 1 ≤ B ^ shf := Nat.pos_pow_of_pos _ B_pos
        have hkey : valB (divSelf3 dv (getOrder dv) self shf) + valB dv ≤ valB self := by
          rw [hglobal_self, hglobal_self3]
          have h1 : B ^ shf * valB ((divSelf3 dv (getOrder dv) self shf).drop shf)
              + B ^ shf * (valB dv * divFactor dv (getOrder dv) self shf)
              = B ^ shf * valB (self.drop shf) := by
            rw [← Nat.mul_add, hstep_val]
          have h2 : valB dv ≤ B ^ shf * (valB dv * divFactor dv (getOrder dv) self shf) := by
            calc valB dv ≤ valB dv * divFactor dv (getOrder dv) self shf := hDle
              _ = 1 * (valB dv * divFactor dv (getOrder dv) self shf) := by ring
              _ ≤ B ^ shf * (valB dv * divFactor dv (getOrder dv) self shf) :=
                  Nat.mul_le_mul_right _ hBpow
          omega
        have hfe2 : valB dv * (fuel + 1) = valB dv * fuel + valB dv := by
          rw [Nat.mul_add, Nat.mul_one]
        omega
      obtain ⟨r, q, hre, hgr, hgq, hval, hrem⟩ :=
        @divLoop_ok N dv hdv hD fuel (divSelf3 dv (getOrder dv) self shf)
          (res.set shf ((res.getD shf 0 + divFactor dv (getOrder dv) self shf) % B)) shf
          hstep_good hresset_good hfN hc3 he3 hd3 hfuel3
      refine ⟨r, q, hre, hgr, hgq, ?_, hrem⟩
      rw [hval, hresset_val]
      have e1 : valB dv * (valB res + divFactor dv (getOrder dv) self shf * B ^ shf)
          = valB dv * valB res
            + B ^ shf * (valB dv * divFactor dv (getOrder dv) self shf) := by ring
      have h1 : B ^ shf * valB ((divSelf3 dv (getOrder dv) self shf).drop shf)
          + B ^ shf * (valB dv * divFactor dv (getOrder dv) self shf)
          = B ^ shf * valB (self.drop shf) := by
        rw [← Nat.mul_add, hstep_val]
      omega

theorem getD_replicate_zero (n i : Nat) : (List.replicate n 0).getD i 0 = 0 := by
  by_cases h : i < n
  · rw [List.getD_eq_getElem?_getD, List.getElem?_eq_getElem (by simpa using h)]
    simp
  · rw [List.getD_eq_getElem?_getD, List.getElem?_eq_none (by simpa using h)]
    rfl

/-- Total correctness of `Bigi::divide`, given enough fuel: the returned pair
`(r, q)` satisfies the Euclidean specification. -/
theorem divide_spec {N : Nat} (a d : List Nat) (ha : Good N a) (hd : Good N d)
    (hdpos : 0 < valB d) (fuel : Nat) (hfuel : valB a + valB d * N < valB d * fuel) :
    ∃ r q, divide a d fuel = some (r, q) ∧ Good N r ∧ Good N q ∧
      valB a = valB q * valB d + valB r ∧ valB r < valB d := by
  have halen : a.length = N := ha.1
  have hg2pos : 0 < getOrder d := getOrder_pos_of_valB_pos d hdpos
  have hg1le : getOrder a ≤ N := by
    have := getOrder_le a
    omega
  have hres_good : Good N (List.replicate a.length 0) := by
    constructor
    · rw [List.length_replicate, halen]
    · intro x hx
      rw [List.eq_of_mem_replicate hx]
      exact B_pos
  have hres_val : valB (List.replicate a.length 0) = 0 := valB_replicate_zero _
  simp only [divide]
  by_cases hord : getOrder d ≤ getOrder a
  · rw [if_pos hord]
    have hDge : B ^ (getOrder d - 1) ≤ valB d := valB_ge_pow_getOrder d hg2pos
    have hidx : getOrder a - getOrder d + getOrder d = getOrder a := by omega
    have hsplit := valB_drop_split a (getOrder a - getOrder d) (getOrder d)
    rw [hidx, valB_drop_getOrder, Nat.mul_zero, Nat.add_zero] at hsplit
    have hWlt : valB ((a.drop (getOrder a - getOrder d)).take (getOrder d)) < B ^ getOrder d :=
      valB_take_lt _ (fun x hx => ha.2 x (List.mem_of_mem_drop hx)) _
    have hpow : B ^ (getOrder d - 1) * B = B ^ getOrder d := by
      rw [← pow_succ]
      congr 1
      omega
    have hc : valB (a.drop (getOrder a - getOrder d)) < valB d * B := by
      have h1 : B ^ (getOrder d - 1) * B ≤ valB d * B :=
        Nat.mul_le_mul_right _ hDge
      rw [hpow] at h1
      omega
    have he : ∀ j, j < getOrder a - getOrder d →
        (List.replicate a.length 0).getD j 0 = 0 :=
      fun j _ => getD_replicate_zero _ _
    have hdinv : valB (a.drop (getOrder a - getOrder d))
        + valB d * (List.replicate a.length 0).getD (getOrder a - getOrder d) 0
        < valB d * B := by
      rw [getD_replicate_zero, Nat.mul_zero, Nat.add_zero]
      exact hc
    have hfuel2 : valB a + valB d * (getOrder a - getOrder d) < valB d * fuel := by
      have h1 : valB d * (getOrder a - getOrder d) ≤ valB d * N :=
        Nat.mul_le_mul_left _ (by omega)
      omega
    obtain ⟨r, q, hre, hgr, hgq, hval, hrem⟩ :=
      @divLoop_ok N d hd hdpos fuel a (List.replicate a.length 0)
        (getOrder a - getOrder d) ha hres_good (by omega) hc he hdinv hfuel2
    refine ⟨r, q, hre, hgr, hgq, ?_, hrem⟩
    rw [hres_val, Nat.mul_zero, Nat.add_zero] at hval
    have e : valB q * valB d = valB d * valB q := by ring
    omega
  · rw [if_neg hord]
    push_neg at hord
    refine ⟨a, List.replicate a.length 0, rfl, ha, hres_good, ?_, ?_⟩
    · rw [hres_val, Nat.zero_mul, Nat.zero_add]
    · have h1 : valB a < B ^ getOrder a := valB_lt_pow_getOrder ha
      have h2 : B ^ getOrder a ≤ B ^ (getOrder d - 1) :=
        Nat.pow_le_pow_right (le_of_lt one_lt_B) (by omega)
      have h3 : B ^ (getOrder d - 1) ≤ valB d := valB_ge_pow_getOrder d hg2pos
      omega

/-- C1: for every well-formed value `a` and every nonzero divisor `d`,
`divide` (run with sufficient fuel for the source's unbounded `loop`) returns
the quotient `q` and mutates the receiver into the remainder `r`, with the
original value satisfying `a = q*d + r` and `0 ≤ r < d`. -/
theorem C1_divide_correct {N : Nat} (a d : List Nat) (ha : Good N a) (hd : Good N d)
    (hdpos : 0 < valB d) :
    ∃ r q, divide a d (valB a + N + 1) = some (r, q) ∧ Good N r ∧ Good N q ∧
      valB a = valB q * valB d + valB r ∧ valB r < valB d := by
  apply divide_spec a d ha hd hdpos
  have h1 : valB d * N ≤ valB d * N := le_refl _
  have h2 : valB d * (valB a + N + 1) = valB d * valB a + valB d * N + valB d := by ring
  have h3 : valB a ≤ valB d * valB a := Nat.le_mul_of_pos_left _ hdpos
  omega

/-- C1 witness: `14 = 3 * 4 + 2` at `N = 1`. -/
theorem C1_divide_correct_witness :
    ∃ r q, divide [14] [4] (valB [14] + 1 + 1) = some (r, q) ∧ Good 1 r ∧ Good 1 q ∧
      valB [14] = valB q * valB [4] + valB r ∧ valB r < valB [4] :=
  @C1_divide_correct 1 [14] [4] (by decide) (by decide) (by decide)

/-! ## Extended Euclid (`euclidean_extended` in `prime.rs`)

The Rust `while !b.is_zero()` loop takes a fuel parameter; the inner
`a.divide(&b)` always terminates (shown by `divide_spec`), so we run it with
the fuel `valB a + a.length + 1` that `divide_spec` shows sufficient. -/

def eucExtLoop : Nat → List Nat → List Nat → List Nat → List Nat → List Nat → List Nat →
    Bool → Option (List Nat × List Nat × List Nat × Bool)
  | 0, a, b, aa, ab, _, _, inv => if isZero b then some (a, aa, ab, inv) else none
  | fuel + 1, a, b, aa, ab, ba, bb, inv =>
    if isZero b then some (a, aa, ab, inv)
    else match divide a b (valB a + a.length + 1) with
      | none => none
      | some (r, q) =>
        eucExtLoop fuel b r ba bb (subB aa (mulB q ba)) (subB ab (mulB q bb)) (!inv)

/-- `euclidean_extended` (fuelled). -/
def euclidean_extended (x y : List Nat) (fuel : Nat) :
    Option (List Nat × List Nat × List Nat) :=
  match eucExtLoop fuel x y (fromU64 x.length 1) (fromU64 x.length 0)
      (fromU64 x.length 0) (fromU64 x.length 1) false with
  | none => none
  | some (a, aa, ab, inv) =>
    if inv then some (a, addB aa y, addB (subB (fromU64 x.length 0) ab) x)
    else some (a, aa, subB (fromU64 x.length 0) ab)

/-- Wrapped update `s - Q * (-t)` equals `s + Q*t` exactly when it fits. -/
theorem wrap_sub_mul_pos (M s t Q : Nat) (hM : 0 < M) (ht : t ≤ M) (hlt : s + Q * t < M) :
    (s + M - Q * ((M - t) % M) % M) % M = s + Q * t := by
  set z := Q * ((M - t) % M) % M with hz
  have hzM : z < M := Nat.mod_lt _ hM
  have hcong : (z + Q * t) % M = 0 := by
    rw [hz, Nat.mod_add_mod, ← Nat.mul_add]
    by_cases ht0 : t = 0
    · subst ht0
      simp
    · rw [Nat.mod_eq_of_lt (show M - t < M by omega), (show M - t + t = M by omega)]
      exact Nat.mul_mod_left Q M
  obtain ⟨c, hc⟩ := Nat.dvd_of_mod_eq_zero hcong
  have hc2 : c = 0 ∨ c = 1 := by
    by_contra hcon
    push_neg at hcon
    have h1 : M * 2 ≤ M * c := Nat.mul_le_mul_left _ (by omega)
    have h2 : M * 2 = M + M := by ring
    omega
  rcases hc2 with h | h
  · rw [h, Nat.mul_zero] at hc
    have hz0 : z = 0 := by omega
    have hQt : Q * t = 0 := by omega
    rw [hz0, Nat.sub_zero, Nat.add_mod_right, Nat.mod_eq_of_lt (by omega), hQt, Nat.add_zero]
  · rw [h, Nat.mul_one] at hc
    have he : s + M - z = s + Q * t := by omega
    rw [he, Nat.mod_eq_of_lt hlt]

/-- Wrapped update `(-s) - Q * t` equals `-(s + Q*t)` exactly when it fits. -/
theorem wrap_sub_mul_neg (M s t Q : Nat) (hM : 0 < M) (hs : s ≤ M) (hlt : s + Q * t < M) :
    ((M - s) % M + M - Q * t % M) % M = (M - (s + Q * t)) % M := by
  have hQt : Q * t % M = Q * t := Nat.mod_eq_of_lt (by omega)
  rw [hQt]
  by_cases hs0 : s = 0
  · subst hs0
    rw [Nat.sub_zero, Nat.mod_self, Nat.zero_add, Nat.zero_add]
  · have h1 : (M - s) % M = M - s := Nat.mod_eq_of_lt (by omega)
    rw [h1]
    have h2 : M - s + M - Q * t = M + (M - (s + Q * t)) := by omega
    rw [h2, Nat.add_mod_left]

/-- Wrapped negation of a wrapped negation. -/
theorem wrap_neg_neg (M t : Nat) (hM : 0 < M) (ht : t < M) : (M - (M - t) % M) % M = t := by
  by_cases ht0 : t = 0
  · subst ht0
    rw [Nat.sub_zero, Nat.mod_self, Nat.sub_zero, Nat.mod_self]
  · rw [Nat.mod_eq_of_lt (show M - t < M by omega), (show M - (M - t) = t by omega),
      Nat.mod_eq_of_lt ht]

/-- Adding `v` to a wrapped `-t` gives the exact `v - t` when `t ≤ v`. -/
theorem wrap_neg_add (M t v : Nat) (hM : 0 < M) (htv : t ≤ v) (hv : v < M) :
    ((M - t) % M + v) % M = v - t := by
  by_cases ht0 : t = 0
  · subst ht0
    rw [Nat.sub_zero, Nat.mod_self, Nat.zero_add, Nat.mod_eq_of_lt hv, Nat.sub_zero]
  · rw [Nat.mod_eq_of_lt (show M - t < M by omega), (show M - t + v = M + (v - t) by omega),
      Nat.add_mod_left, Nat.mod_eq_of_lt (show v - t < M by omega)]

/-- Loop invariant for `euclidean_extended`. The exact Bezout magnitudes
`sa ta sb tb` shadow the wrapped coefficient registers, with signs alternating
with `inv`; the two column identities `x = a*tb + b*ta` and `y = a*sb + b*sa`
bound every magnitude by the inputs. -/
theorem eucExtLoop_inv {N : Nat} (x y : List Nat) (hNx : valB x < B ^ N)
    (hNy : valB y < B ^ N) :
    ∀ (fuel : Nat) (a b aa ab ba bb : List Nat) (inv : Bool) (sa ta sb tb : Nat),
    Good N a → Good N b → Good N aa → Good N ab → Good N ba → Good N bb →
    1 ≤ valB a →
    valB b < fuel →
    (cond inv (valB a + sa * valB x = ta * valB y ∧ valB b + tb * valB y = sb * valB x)
      (valB a + ta * valB y = sa * valB x ∧ valB b + sb * valB x = tb * valB y)) →
    valB x = valB a * tb + valB b * ta →
    valB y = valB a * sb + valB b * sa →
    Nat.gcd (valB a) (valB b) = Nat.gcd (valB x) (valB y) →
    (cond inv (valB aa = (B ^ N - sa) % B ^ N ∧ valB ab = ta
        ∧ valB ba = sb ∧ valB bb = (B ^ N - tb) % B ^ N)
      (valB aa = sa ∧ valB ab = (B ^ N - ta) % B ^ N
        ∧ valB ba = (B ^ N - sb) % B ^ N ∧ valB bb = tb)) →
    sa ≤ valB y → ta ≤ valB x →
    ∃ g aaf abf invf saf taf,
      eucExtLoop fuel a b aa ab ba bb inv = some (g, aaf, abf, invf) ∧
      Good N g ∧ Good N aaf ∧ Good N abf ∧
      valB g = Nat.gcd (valB x) (valB y) ∧ 1 ≤ valB g ∧
      saf ≤ valB y ∧ taf ≤ valB x ∧
      (cond invf (valB g + saf * valB x = taf * valB y
          ∧ valB aaf = (B ^ N - saf) % B ^ N ∧ valB abf = taf)
        (valB g + taf * valB y = saf * valB x
          ∧ valB aaf = saf ∧ valB abf = (B ^ N - taf) % B ^ N))
  | 0 => by
    intro a b aa ab ba bb inv sa ta sb tb _ _ _ _ _ _ _ hfuel _ _ _ _ _ _ _
    exact absurd hfuel (Nat.not_lt_zero _)
  | fuel + 1 => by
    intro a b aa ab ba bb inv sa ta sb tb ha hb haa hab hba hbb hapos hfuel heq
      hcolx hcoly hgcd hrep hsa hta
    rw [eucExtLoop]
    by_cases hbz : isZero b = true
    · rw [if_pos hbz]
      exact ⟨a, aa, ab, inv, sa, ta, rfl, ha, haa, hab,
        by rw [← hgcd, (isZero_iff b).mp hbz, Nat.gcd_zero_right], hapos, hsa, hta,
        by
          cases inv with
          | false => exact ⟨heq.1, hrep.1, hrep.2.1⟩
          | true => exact ⟨heq.1, hrep.1, hrep.2.1⟩⟩
    · rw [if_neg hbz]
      have hbpos : 1 ≤ valB b := by
        rcases Nat.eq_zero_or_pos (valB b) with h | h
        · exact absurd ((isZero_iff b).mpr h) hbz
        · exact h
      have hM : 0 < B ^ N := Nat.pos_pow_of_pos _ B_pos
      obtain ⟨r, q, hre, hgr, hgq, hval, hrem⟩ := divide_spec a b ha hb hbpos
        (valB a + a.length + 1) (by
          rw [ha.1]
          have h1 : 1 * (valB a + N + 1) ≤ valB b * (valB a + N + 1) :=
            Nat.mul_le_mul_right _ hbpos
          rw [Nat.one_mul] at h1
          have e : valB b * (valB a + N + 1)
              = valB b * valB a + valB b * N + valB b := by ring
          have h3 : valB a ≤ valB b * valB a := Nat.le_mul_of_pos_left _ hbpos
          omega)
      rw [hre]
      -- the new exact magnitudes
      have hsb' : valB y = valB b * (sa + valB q * sb) + valB r * sb := by
        have m1 : valB b * (sa + valB q * sb)
            = valB b * sa + valB q * (valB b * sb) := by ring
        have m2 : (valB q * valB b + valB r) * sb
            = valB q * (valB b * sb) + valB r * sb := by ring
        have hA : valB a * sb = (valB q * valB b + valB r) * sb := by rw [← hval]
        omega
      have htb' : valB x = valB b * (ta + valB q * tb) + valB r * tb := by
        have m1 : valB b * (ta + valB q * tb)
            = valB b * ta + valB q * (valB b * tb) := by ring
        have m2 : (valB q * valB b + valB r) * tb
            = valB q * (valB b * tb) + valB r * tb := by ring
        have hA : valB a * tb = (valB q * valB b + valB r) * tb := by rw [← hval]
        omega
      have hsb'le : sa + valB q * sb ≤ valB y := by
        have h1 : 1 * (sa + valB q * sb) ≤ valB b * (sa + valB q * sb) :=
          Nat.mul_le_mul_right _ hbpos
        rw [Nat.one_mul] at h1
        omega
      have htb'le : ta + valB q * tb ≤ valB x := by
        have h1 : 1 * (ta + valB q * tb) ≤ valB b * (ta + valB q * tb) :=
          Nat.mul_le_mul_right _ hbpos
        rw [Nat.one_mul] at h1
        omega
      have hsble : sb ≤ valB y := by
        have h1 : 1 * sb ≤ valB a * sb := Nat.mul_le_mul_right _ hapos
        rw [Nat.one_mul] at h1
        omega
      have htble : tb ≤ valB x := by
        have h1 : 1 * tb ≤ valB a * tb := Nat.mul_le_mul_right _ hapos
        rw [Nat.one_mul] at h1
        omega
      have hgcd' : Nat.gcd (valB b) (valB r) = Nat.gcd (valB x) (valB y) := by
        have hmod : valB a % valB b = valB r := by
          rw [hval, Nat.mul_comm (valB q) (valB b), Nat.mul_add_mod, Nat.mod_eq_of_lt hrem]
        calc Nat.gcd (valB b) (valB r) = Nat.gcd (valB r) (valB b) := Nat.gcd_comm _ _
          _ = Nat.gcd (valB a % valB b) (valB b) := by rw [hmod]
          _ = Nat.gcd (valB b) (valB a) := (Nat.gcd_rec _ _).symm
          _ = Nat.gcd (valB a) (valB b) := Nat.gcd_comm _ _
          _ = Nat.gcd (valB x) (valB y) := hgcd
      have hfuel' : valB r < fuel := by omega
      cases inv with
      | false =>
        obtain ⟨heq1, heq2⟩ := heq
        obtain ⟨hraa, hrab, hrba, hrbb⟩ := hrep
        -- the reduced value equation for r
        have heqr : valB r + (ta + valB q * tb) * valB y
            = (sa + valB q * sb) * valB x := by
          have l1 : (ta + valB q * tb) * valB y
              = ta * valB y + valB q * (tb * valB y) := by ring
          have l2 : (sa + valB q * sb) * valB x
              = sa * valB x + valB q * (sb * valB x) := by ring
          have l3 : valB q * (valB b + sb * valB x)
              = valB q * valB b + valB q * (sb * valB x) := by ring
          have hq2 : valB q * (valB b + sb * valB x) = valB q * (tb * valB y) := by
            rw [heq2]
          omega
        -- wrapped register updates
        have hba' : valB (subB aa (mulB q ba)) = sa + valB q * sb := by
          rw [subB_val haa (mulB_good hgq hba), mulB_val hgq hba, hraa, hrba]
          exact wrap_sub_mul_pos (B ^ N) sa sb (valB q) hM (by omega) (by omega)
        have hbb' : valB (subB ab (mulB q bb)) = (B ^ N - (ta + valB q * tb)) % B ^ N := by
          rw [subB_val hab (mulB_good hgq hbb), mulB_val hgq hbb, hrab, hrbb]
          exact wrap_sub_mul_neg (B ^ N) ta tb (valB q) hM (by omega) (by omega)
        exact @eucExtLoop_inv N x y hNx hNy fuel b r ba bb
          (subB aa (mulB q ba)) (subB ab (mulB q bb)) true sb tb
          (sa + valB q * sb) (ta + valB q * tb)
          hb hgr hba hbb (subB_good haa (mulB_good hgq hba))
          (subB_good hab (mulB_good hgq hbb)) hbpos hfuel'
          ⟨heq2, heqr⟩ htb' hsb' hgcd' ⟨hrba, hrbb, hba', hbb'⟩ hsble htble
      | true =>
        obtain ⟨heq1, heq2⟩ := heq
        obtain ⟨hraa, hrab, hrba, hrbb⟩ := hrep
        have heqr : valB r + (sa + valB q * sb) * valB x
            = (ta + valB q * tb) * valB y := by
          have l1 : (ta + valB q * tb) * valB y
              = ta * valB y + valB q * (tb * valB y) := by ring
          have l2 : (sa + valB q * sb) * valB x
              = sa * valB x + valB q * (sb * valB x) := by ring
          have l3 : valB q * (valB b + tb * valB y)
              = valB q * valB b + valB q * (tb * valB y) := by ring
          have hq2 : valB q * (valB b + tb * valB y) = valB q * (sb * valB x) := by
            rw [heq2]
          omega
        have hba' : valB (subB aa (mulB q ba)) = (B ^ N - (sa + valB q * sb)) % B ^ N := by
          rw [subB_val haa (mulB_good hgq hba), mulB_val hgq hba, hraa, hrba]
          exact wrap_sub_mul_neg (B ^ N) sa sb (valB q) hM (by omega) (by omega)
        have hbb' : valB (subB ab (mulB q bb)) = ta + valB q * tb := by
          rw [subB_val hab (mulB_good hgq hbb), mulB_val hgq hbb, hrab, hrbb]
          exact wrap_sub_mul_pos (B ^ N) ta tb (valB q) hM (by omega) (by omega)
        exact @eucExtLoop_inv N x y hNx hNy fuel b r ba bb
          (subB aa (mulB q ba)) (subB ab (mulB q bb)) false sb tb
          (sa + valB q * sb) (ta + valB q * tb)
          hb hgr hba hbb (subB_good haa (mulB_good hgq hba))
          (subB_good hab (mulB_good hgq hbb)) hbpos hfuel'
          ⟨heq2, heqr⟩ htb' hsb' hgcd' ⟨hrba, hrbb, hba', hbb'⟩ hsble htble

/-- Full specification of `euclidean_extended` for positive inputs: gcd,
the exact Bezout identity `x*ra - y*rb = g`, and the coefficient bounds. -/
theorem eucExt_spec {N : Nat} (x y : List Nat) (hx : Good N x) (hy : Good N y)
    (hxpos : 1 ≤ valB x) (hypos : 1 ≤ valB y) (fuel : Nat) (hfuel : valB y < fuel) :
    ∃ g ra rb, euclidean_extended x y fuel = some (g, ra, rb) ∧
      Good N g ∧ Good N ra ∧ Good N rb ∧
      valB g = Nat.gcd (valB x) (valB y) ∧
      valB x * valB ra = valB y * valB rb + valB g ∧
      valB ra ≤ valB y ∧ valB rb ≤ valB x := by
  have hN1 : 1 ≤ N := by
    by_contra h
    push_neg at h
    have h0 : N = 0 := by omega
    have hlen : x.length = 0 := by rw [hx.1, h0]
    rw [List.length_eq_zero] at hlen
    rw [hlen] at hxpos
    simp [valB] at hxpos
  have hM : 0 < B ^ N := Nat.pos_pow_of_pos _ B_pos
  have hNx : valB x < B ^ N := valB_lt N x hx
  have hNy : valB y < B ^ N := valB_lt N y hy
  have h1B : 1 < B := one_lt_B
  obtain ⟨g, aaf, abf, invf, saf, taf, hloop, hgg, hgaa, hgab, hgval, hgpos,
      hsaf, htaf, hfin⟩ :=
    @eucExtLoop_inv N x y hNx hNy fuel x y (fromU64 N 1) (fromU64 N 0)
      (fromU64 N 0) (fromU64 N 1) false 1 0 0 1
      hx hy (fromU64_good hN1 h1B) (fromU64_good hN1 B_pos)
      (fromU64_good hN1 B_pos) (fromU64_good hN1 h1B)
      hxpos hfuel
      ⟨by ring, by ring⟩ (by ring) (by ring) rfl
      ⟨fromU64_val hN1,
       by rw [fromU64_val hN1, Nat.sub_zero, Nat.mod_self],
       by rw [fromU64_val hN1, Nat.sub_zero, Nat.mod_self],
       fromU64_val hN1⟩
      hypos (Nat.zero_le _)
  simp only [euclidean_extended]
  rw [hx.1, hloop]
  cases invf with
  | false =>
    obtain ⟨hfe, hfaa, hfab⟩ := hfin
    refine ⟨g, aaf, subB (fromU64 N 0) abf, rfl, hgg, hgaa,
      subB_good (fromU64_good hN1 B_pos) hgab, hgval, ?_, ?_, ?_⟩
    · rw [subB_val (fromU64_good hN1 B_pos) hgab, fromU64_val hN1, Nat.zero_add,
        hfab, wrap_neg_neg _ _ hM (by omega), hfaa]
      have e1 : saf * valB x = valB x * saf := by ring
      have e2 : taf * valB y = valB y * taf := by ring
      omega
    · rw [hfaa]
      exact hsaf
    · rw [subB_val (fromU64_good hN1 B_pos) hgab, fromU64_val hN1, Nat.zero_add,
        hfab, wrap_neg_neg _ _ hM (by omega)]
      exact htaf
  | true =>
    obtain ⟨hfe, hfaa, hfab⟩ := hfin
    have hra : valB (addB aaf y) = valB y - saf := by
      rw [addB_val hgaa hy, hfaa, wrap_neg_add _ _ _ hM hsaf hNy]
    have hrb : valB (addB (subB (fromU64 N 0) abf) x) = valB x - taf := by
      rw [addB_val (subB_good (fromU64_good hN1 B_pos) hgab) hx,
        subB_val (fromU64_good hN1 B_pos) hgab, fromU64_val hN1, Nat.zero_add, hfab,
        wrap_neg_add _ _ _ hM htaf hNx]
    refine ⟨g, addB aaf y, addB (subB (fromU64 N 0) abf) x, rfl, hgg,
      addB_good hgaa hy, addB_good (subB_good (fromU64_good hN1 B_pos) hgab) hx,
      hgval, ?_, ?_, ?_⟩
    · rw [hra, hrb]
      have e1 : valB x * (valB y - saf + saf) = valB x * (valB y - saf) + valB x * saf := by
        ring
      have e2 : valB y - saf + saf = valB y := by omega
      have e3 : valB y * (valB x - taf + taf) = valB y * (valB x - taf) + valB y * taf := by
        ring
      have e4 : valB x - taf + taf = valB x := by omega
      rw [e2] at e1
      rw [e4] at e3
      have e5 : saf * valB x = valB x * saf := by ring
      have e6 : taf * valB y = valB y * taf := by ring
      have e7 : valB x * valB y = valB y * valB x := by ring
      omega
    · rw [hra]
      omega
    · rw [hrb]
      omega

/-- C6 counterexample: on input `x = 0`, `y = 1` the function returns
`(g, ra, rb) = (1, 1, 2^64 - 1)`, and the claimed exact integer identity
`x*ra - y*rb = g` fails (the coefficient `rb` has wrapped). -/
theorem C6_counterexample :
    ∃ g ra rb, euclidean_extended [0] [1] 2 = some (g, ra, rb) ∧
      ¬(valB [0] * valB ra = valB [1] * valB rb + valB g) := by
  refine ⟨[1], [1], [B - 1], by decide, ?_⟩
  intro h
  rw [B_eq] at h
  simp [valB, B_eq] at h

/-- C6 (amended): for inputs `x ≥ 1` and `y ≥ 1`, `euclidean_extended` (with
sufficient fuel) returns `(g, ra, rb)` with `g = gcd(x, y)`, the exact integer
identity `x*ra - y*rb = g` (stated additively over ℕ), and both coefficients
non-negative and at most the respective other input: `ra ≤ y`, `rb ≤ x`.
The original claim's strict bounds and `x = 0` cases fail, see
`C6_counterexample`. -/
theorem C6_euclid_extended {N : Nat} (x y : List Nat) (hx : Good N x) (hy : Good N y)
    (hxpos : 1 ≤ valB x) (hypos : 1 ≤ valB y) :
    ∃ g ra rb, euclidean_extended x y (valB y + 1) = some (g, ra, rb) ∧
      Good N g ∧ Good N ra ∧ Good N rb ∧
      valB g = Nat.gcd (valB x) (valB y) ∧
      valB x * valB ra = valB y * valB rb + valB g ∧
      valB ra ≤ valB y ∧ valB rb ≤ valB x :=
  eucExt_spec x y hx hy hxpos hypos (valB y + 1) (by omega)

/-- C6 witness: `euclidean_extended 110 66` (the doc example) at `N = 1`. -/
theorem C6_euclid_extended_witness :
    ∃ g ra rb, euclidean_extended [110] [66] (valB [66] + 1) = some (g, ra, rb) ∧
      Good 1 g ∧ Good 1 ra ∧ Good 1 rb ∧
      valB g = Nat.gcd (valB [110]) (valB [66]) ∧
      valB [110] * valB ra = valB [66] * valB rb + valB g ∧
      valB ra ≤ valB [66] ∧ valB rb ≤ valB [110] :=
  @C6_euclid_extended 1 [110] [66] (by decide) (by decide) (by decide) (by decide)

/-! ## Montgomery arithmetic (`montgomery.rs`)

`MontgomeryAlg { k, n, ni }` is carried as the triple of its fields. The
`assert!(k >= n.bit_length())` becomes a theorem precondition. `%` delegates
to `divide` (`RemAssign`), run with self-sufficient fuel as justified by
`divide_spec`; the `while res >= n` subtraction loop gets fuel `B ^ N`, enough
for any representable value. -/

/-- `Bigi % Bigi` (`RemAssign`): the remainder component of `divide`. -/
def remB (a d : List Nat) : Option (List Nat) :=
  match divide a d (valB a + a.length + 1) with
  | none => none
  | some (r, _) => some r

/-- `MontgomeryAlg::new`: `ni` is the third component of
`euclidean_extended(1 << k, n)`. -/
def mont_new (k : Nat) (n : List Nat) : Option (Nat × List Nat × List Nat) :=
  match euclidean_extended (shlB (fromU64 n.length 1) k) n (valB n + 1) with
  | none => none
  | some (_, _, ni) => some (k, n, ni)

/-- `MontgomeryAlg::to_repr`: `(a << k) % n`. -/
def mont_to_repr (k : Nat) (n a : List Nat) : Option (List Nat) :=
  remB (shlB a k) n

/-- The `while res >= self.n { res -= &self.n }` loop. -/
def mont_redLoop (n : List Nat) : Nat → List Nat → Option (List Nat)
  | 0, res => if ltB res n then some res else none
  | fuel + 1, res => if ltB res n then some res else mont_redLoop n fuel (subB res n)

/-- `MontgomeryAlg::mul`: the REDC step with the source's `+ 1` and
subtract-while normalization. -/
def mont_mul (k : Nat) (n ni a b : List Nat) : Option (List Nat) :=
  if isZero (mulB a b) then some (fromU64 n.length 0)
  else mont_redLoop n (B ^ n.length)
    (addB (addB (shrB (mulB (mod2k (mulB (mod2k (mulB a b) k) ni) k) n) k)
      (shrB (mulB a b) k)) (fromU64 n.length 1))

/-- `MontgomeryAlg::from_repr`: `mul(a, 1)`. -/
def mont_from_repr (k : Nat) (n ni a : List Nat) : Option (List Nat) :=
  mont_mul k n ni a (fromU64 n.length 1)

/-- `MontgomeryAlg::powmod`: square-and-multiply over the images. -/
def mont_powLoop (k : Nat) (n ni p : List Nat) :
    Nat → Nat → List Nat → List Nat → Option (List Nat)
  | _, 0, res, _ => some res
  | bit, cnt + 1, res, a2 =>
    match (if getBit p bit then mont_mul k n ni res a2 else some res) with
    | none => none
    | some res2 =>
      match mont_mul k n ni a2 a2 with
      | none => none
      | some a4 => mont_powLoop k n ni p (bit + 1) cnt res2 a4

def mont_powmod (k : Nat) (n ni a p : List Nat) : Option (List Nat) :=
  match mont_to_repr k n (fromU64 n.length 1) with
  | none => none
  | some res0 => mont_powLoop k n ni p 0 (bitLength p) res0 a

/-- `Bigi::powmod` (the plain engine in `operations.rs`). -/
def powmodLoop (m p : List Nat) : Nat → Nat → List Nat → List Nat → Option (List Nat)
  | _, 0, res, _ => some res
  | bit, cnt + 1, res, x =>
    match (if getBit p bit then remB (mulB res x) m else some res) with
    | none => none
    | some res2 =>
      match remB (mulB x x) m with
      | none => none
      | some x2 => powmodLoop m p (bit + 1) cnt res2 x2

def powmod (a p m : List Nat) : Option (List Nat) :=
  powmodLoop m p 0 (bitLength p) (fromU64 a.length 1) a

theorem remB_spec {N : Nat} (a d : List Nat) (ha : Good N a) (hd : Good N d)
    (hdpos : 0 < valB d) :
    ∃ r, remB a d = some r ∧ Good N r ∧ valB r = valB a % valB d := by
  obtain ⟨r, q, hre, hgr, hgq, hval, hrem⟩ := divide_spec a d ha hd hdpos
    (valB a + a.length + 1) (by
      rw [ha.1]
      have h1 : 1 * (valB a + N + 1) ≤ valB d * (valB a + N + 1) :=
        Nat.mul_le_mul_right _ hdpos
      rw [Nat.one_mul] at h1
      have e : valB d * (valB a + N + 1) = valB d * valB a + valB d * N + valB d := by ring
      have h3 : valB a ≤ valB d * valB a := Nat.le_mul_of_pos_left _ hdpos
      omega)
  refine ⟨r, ?_, hgr, ?_⟩
  · rw [remB, hre]
  · rw [hval, Nat.mul_comm (valB q) (valB d), Nat.mul_add_mod, Nat.mod_eq_of_lt hrem]

/-- `MontgomeryAlg::new` computes an `ni` with `2^k * ra = n * ni + 1`:
`ni` is minus the inverse of `n` modulo `2^k`. Needs the width cap
`n * 2^k ≤ 2^(64N)` so that `1 << k` does not wrap. -/
theorem mont_new_spec {N k : Nat} (n : List Nat) (hn : Good N n)
    (hodd : isOdd n = true) (hn1 : 1 < valB n) (hcap : valB n * 2 ^ k ≤ B ^ N) :
    ∃ ni, mont_new k n = some (k, n, ni) ∧ Good N ni ∧
      2 ^ k ∣ valB n * valB ni + 1 ∧ valB ni ≤ 2 ^ k := by
  have hN1 : 1 ≤ N := by
    by_contra h
    push_neg at h
    have h0 : N = 0 := by omega
    have hlen : n.length = 0 := by rw [hn.1, h0]
    rw [List.length_eq_zero] at hlen
    rw [hlen] at hn1
    simp [valB] at hn1
  have hBN : B ^ N = 2 ^ (64 * N) := by rw [B, ← pow_mul]
  have hRpos : 0 < (2 : Nat) ^ k := Nat.pos_pow_of_pos _ (by omega)
  have hRM : 2 ^ k < B ^ N := by
    have h1 : 2 * 2 ^ k ≤ valB n * 2 ^ k := Nat.mul_le_mul_right _ (by omega)
    omega
  have hkN : k ≤ 64 * N := by
    by_contra h
    push_neg at h
    have : (2 : Nat) ^ (64 * N) ≤ 2 ^ k := Nat.pow_le_pow_right (by omega) (by omega)
    omega
  have hx_good : Good N (shlB (fromU64 N 1) k) := shlB_good (fromU64_good hN1 one_lt_B) k
  have hxval : valB (shlB (fromU64 N 1) k) = 2 ^ k := by
    rw [shlB_val (fromU64_good hN1 one_lt_B) k hkN, fromU64_val hN1, Nat.one_mul,
      Nat.mod_eq_of_lt hRM]
  have h2cop : Nat.gcd 2 (valB n) = 1 := by
    have hodd' : valB n % 2 = 1 := (isOdd_iff hN1 hn).mp hodd
    have hd : Nat.gcd 2 (valB n) ∣ 2 := Nat.gcd_dvd_left _ _
    have hdn : Nat.gcd 2 (valB n) ∣ valB n := Nat.gcd_dvd_right _ _
    rcases (Nat.dvd_prime Nat.prime_two).mp hd with h | h
    · exact h
    · exfalso
      rw [h] at hdn
      omega
  have hcop : Nat.gcd (2 ^ k) (valB n) = 1 := Nat.Coprime.pow_left k h2cop
  obtain ⟨g, ra, rb, hre, hgg, hgra, hgrb, hgval, hid, hrale, hrble⟩ :=
    eucExt_spec (shlB (fromU64 N 1) k) n hx_good hn (by rw [hxval]; omega) (by omega)
      (valB n + 1) (by omega)
  rw [hxval] at hgval hid hrble
  rw [hcop] at hgval
  refine ⟨rb, ?_, hgrb, ⟨valB ra, by omega⟩, hrble⟩
  rw [mont_new, hn.1, hre]

/-- The REDC step of `MontgomeryAlg::mul` on a product that fits below the
modulus: the result `r` satisfies `r * 2^k = a*b + n*u` with `r < n`. -/
theorem mont_mul_small {N k : Nat} (n ni a b : List Nat) (hn : Good N n) (hni : Good N ni)
    (ha : Good N a) (hb : Good N b) (hn1 : 1 < valB n)
    (hnR : valB n ≤ 2 ^ k) (hcap : valB n * 2 ^ k ≤ B ^ N)
    (hdvd : 2 ^ k ∣ valB n * valB ni + 1)
    (hsmall : valB a * valB b < valB n) :
    ∃ r, mont_mul k n ni a b = some r ∧ Good N r ∧ valB r < valB n ∧
      ∃ e, valB r * 2 ^ k = valB a * valB b + valB n * e := by
  have hN1 : 1 ≤ N := by
    by_contra h
    push_neg at h
    have h0 : N = 0 := by omega
    have hlen : n.length = 0 := by rw [hn.1, h0]
    rw [List.length_eq_zero] at hlen
    rw [hlen] at hn1
    simp [valB] at hn1
  have hBN : B ^ N = 2 ^ (64 * N) := by rw [B, ← pow_mul]
  have hRpos : 0 < (2 : Nat) ^ k := Nat.pos_pow_of_pos _ (by omega)
  have hnM : valB n < B ^ N := valB_lt N n hn
  have hRM : 2 ^ k < B ^ N := by
    have h1 : 2 * 2 ^ k ≤ valB n * 2 ^ k := Nat.mul_le_mul_right _ (by omega)
    omega
  have hkN : k < 64 * N := by
    by_contra h
    push_neg at h
    have : (2 : Nat) ^ (64 * N) ≤ 2 ^ k := Nat.pow_le_pow_right (by omega) (by omega)
    omega
  have hkN' : k / 64 < N := by omega
  have hTval : valB (mulB a b) = valB a * valB b := by
    rw [mulB_val ha hb, Nat.mod_eq_of_lt (by omega)]
  rw [mont_mul, hn.1]
  by_cases hz : isZero (mulB a b) = true
  · rw [if_pos hz]
    rw [isZero_iff, hTval] at hz
    refine ⟨fromU64 N 0, rfl, fromU64_good hN1 B_pos, ?_, 0, ?_⟩
    · rw [fromU64_val hN1]
      omega
    · rw [fromU64_val hN1, hz, Nat.zero_mul, Nat.mul_zero]
  · rw [if_neg hz]
    have hT1 : 1 ≤ valB (mulB a b) := by
      rcases Nat.eq_zero_or_pos (valB (mulB a b)) with h | h
      · exact absurd ((isZero_iff _).mpr h) hz
      · exact h
    rw [hTval] at hT1
    set T := valB a * valB b with hTdef
    have hTn : T < valB n := hsmall
    have hTR : T < 2 ^ k := by omega
    -- the chain of values
    have hmod1 : valB (mod2k (mulB a b) k) = T := by
      rw [mod2k_val (mulB_good ha hb) k hkN', hTval, Nat.mod_eq_of_lt hTR]
    have hupre : valB (mulB (mod2k (mulB a b) k) ni) = T * valB ni % B ^ N := by
      rw [mulB_val (mod2k_good (mulB_good ha hb) k) hni, hmod1]
    have hdvdM : (2 : Nat) ^ k ∣ B ^ N := by
      refine ⟨2 ^ (64 * N - k), ?_⟩
      rw [hBN, ← pow_add]
      congr 1
      omega
    have hU : valB (mod2k (mulB (mod2k (mulB a b) k) ni) k) = T * valB ni % 2 ^ k := by
      rw [mod2k_val (mulB_good (mod2k_good (mulB_good ha hb) k) hni) k hkN', hupre,
        Nat.mod_mod_of_dvd _ hdvdM]
    set U := T * valB ni % 2 ^ k with hUdef
    have hUlt : U < 2 ^ k := Nat.mod_lt _ hRpos
    have hUn : U * valB n < B ^ N := by
      have h1 : U * valB n ≤ (2 ^ k - 1) * valB n := Nat.mul_le_mul_right _ (by omega)
      have h2 : (2 ^ k - 1) * valB n + valB n = 2 ^ k * valB n := by
        have h3 : 2 ^ k - 1 + 1 = 2 ^ k := by omega
        calc (2 ^ k - 1) * valB n + valB n = (2 ^ k - 1 + 1) * valB n := by ring
          _ = 2 ^ k * valB n := by rw [h3]
      have h4 : 2 ^ k * valB n = valB n * 2 ^ k := by ring
      omega
    have hwpre : valB (mulB (mod2k (mulB (mod2k (mulB a b) k) ni) k) n) = U * valB n := by
      rw [mulB_val (mod2k_good (mulB_good (mod2k_good (mulB_good ha hb) k) hni) k) hn, hU,
        Nat.mod_eq_of_lt hUn]
    have hw : valB (shrB (mulB (mod2k (mulB (mod2k (mulB a b) k) ni) k) n) k)
        = U * valB n / 2 ^ k := by
      rw [shrB_val (mulB_good (mod2k_good (mulB_good (mod2k_good (mulB_good ha hb) k) hni) k) hn)
        k (by omega), hwpre]
    have htshr : valB (shrB (mulB a b) k) = 0 := by
      rw [shrB_val (mulB_good ha hb) k (by omega), hTval]
      exact Nat.div_eq_of_lt hTR
    -- REDC divisibility
    have hured : 2 ^ k ∣ T + U * valB n := by
      have h1 : U * valB n ≡ T * valB ni * valB n [MOD 2 ^ k] :=
        Nat.ModEq.mul_right (valB n) (Nat.mod_modEq (T * valB ni) (2 ^ k))
      have h2 : T + U * valB n ≡ T + T * valB ni * valB n [MOD 2 ^ k] :=
        Nat.ModEq.add_left T h1
      have h3 : T + T * valB ni * valB n = T * (valB n * valB ni + 1) := by ring
      rw [h3] at h2
      have h4 : (2 : Nat) ^ k ∣ T * (valB n * valB ni + 1) := Dvd.dvd.mul_left hdvd T
      have h5 : T + U * valB n ≡ 0 [MOD 2 ^ k] :=
        h2.trans ((Nat.modEq_zero_iff_dvd).mpr h4)
      exact (Nat.modEq_zero_iff_dvd).mp h5
    obtain ⟨c, hc⟩ := hured
    have hc1 : 1 ≤ c := by
      by_contra h
      push_neg at h
      have : c = 0 := by omega
      rw [this, Nat.mul_zero] at hc
      omega
    have hcRc : 2 ^ k * c = 2 ^ k * (c - 1) + 2 ^ k := by
      have h3 : c - 1 + 1 = c := by omega
      calc 2 ^ k * c = 2 ^ k * (c - 1 + 1) := by rw [h3]
        _ = 2 ^ k * (c - 1) + 2 ^ k := by ring
    have hwval : U * valB n / 2 ^ k = c - 1 := by
      have h1 : U * valB n = 2 ^ k * (c - 1) + (2 ^ k - T) := by omega
      rw [h1, Nat.mul_add_div hRpos, Nat.div_eq_of_lt (by omega), Nat.add_zero]
    have hcn : c < valB n := by
      by_contra h
      push_neg at h
      have h1 : 2 ^ k * valB n ≤ 2 ^ k * c := Nat.mul_le_mul_left _ h
      have h2 : U * valB n ≤ (2 ^ k - 1) * valB n := Nat.mul_le_mul_right _ (by omega)
      have h3 : (2 ^ k - 1) * valB n + valB n = 2 ^ k * valB n := by
        have h4 : 2 ^ k - 1 + 1 = 2 ^ k := by omega
        calc (2 ^ k - 1) * valB n + valB n = (2 ^ k - 1 + 1) * valB n := by ring
          _ = 2 ^ k * valB n := by rw [h4]
      omega
    -- the computed pre-normalization value is exactly c
    have hsum_good : Good N (addB (addB (shrB (mulB (mod2k (mulB (mod2k (mulB a b) k) ni) k)
        n) k) (shrB (mulB a b) k)) (fromU64 N 1)) :=
      addB_good (addB_good (shrB_good (mulB_good (mod2k_good (mulB_good (mod2k_good
        (mulB_good ha hb) k) hni) k) hn) k) (shrB_good (mulB_good ha hb) k))
        (fromU64_good hN1 one_lt_B)
    have hres0 : valB (addB (addB (shrB (mulB (mod2k (mulB (mod2k (mulB a b) k) ni) k)
        n) k) (shrB (mulB a b) k)) (fromU64 N 1)) = c := by
      rw [addB_val (addB_good (shrB_good (mulB_good (mod2k_good (mulB_good (mod2k_good
          (mulB_good ha hb) k) hni) k) hn) k) (shrB_good (mulB_good ha hb) k))
          (fromU64_good hN1 one_lt_B),
        addB_val (shrB_good (mulB_good (mod2k_good (mulB_good (mod2k_good
          (mulB_good ha hb) k) hni) k) hn) k) (shrB_good (mulB_good ha hb) k),
        hw, htshr, hwval, fromU64_val hN1]
      rw [Nat.mod_eq_of_lt (show c - 1 + 0 < B ^ N by omega)]
      rw [Nat.mod_eq_of_lt (show c - 1 + 0 + 1 < B ^ N by omega)]
      omega
    -- one unfolding of the subtract-while loop: the guard already holds
    have hfuel : B ^ N = (B ^ N - 1) + 1 := by omega
    rw [hfuel, mont_redLoop]
    rw [if_pos (by
      rw [ltB_iff hsum_good hn, hres0]
      exact hcn)]
    refine ⟨_, rfl, hsum_good, by rw [hres0]; exact hcn, U, ?_⟩
    rw [hres0]
    have e1 : c * 2 ^ k = 2 ^ k * c := by ring
    have e2 : U * valB n = valB n * U := by ring
    omega

/-- C2 (amended): the Montgomery round-trip `from_repr (to_repr a) = a` holds
for every `a < n` over an odd modulus `n > 1` and width `k ≥ bit_length(n)` —
PROVIDED additionally that `n * 2^k ≤ 2^(64N)`, so that the shifts inside
`to_repr` and the REDC products do not wrap at the fixed width. Without that
cap the claim is false, see `C2_counterexample`. -/
theorem C2_montgomery_roundtrip {N k : Nat} (n a : List Nat) (hn : Good N n)
    (ha : Good N a) (hodd : isOdd n = true) (hn1 : 1 < valB n)
    (hk : bitLength n ≤ k) (hcap : valB n * 2 ^ k ≤ B ^ N) (halt : valB a < valB n) :
    ∃ ni t r, mont_new k n = some (k, n, ni) ∧ mont_to_repr k n a = some t ∧
      mont_from_repr k n ni t = some r ∧ valB r = valB a := by
  have hN1 : 1 ≤ N := by
    by_contra h
    push_neg at h
    have h0 : N = 0 := by omega
    have hlen : n.length = 0 := by rw [hn.1, h0]
    rw [List.length_eq_zero] at hlen
    rw [hlen] at hn1
    simp [valB] at hn1
  have hRpos : 0 < (2 : Nat) ^ k := Nat.pos_pow_of_pos _ (by omega)
  have hnR : valB n ≤ 2 ^ k := by
    have h1 : valB n < 2 ^ bitLength n := lt_pow_bitLength hn
    have h2 : (2 : Nat) ^ bitLength n ≤ 2 ^ k := Nat.pow_le_pow_right (by omega) hk
    omega
  have hRM : 2 ^ k < B ^ N := by
    have h1 : 2 * 2 ^ k ≤ valB n * 2 ^ k := Nat.mul_le_mul_right _ (by omega)
    omega
  have hkN : k ≤ 64 * N := by
    have hBN : B ^ N = 2 ^ (64 * N) := by rw [B, ← pow_mul]
    by_contra h
    push_neg at h
    have : (2 : Nat) ^ (64 * N) ≤ 2 ^ k := Nat.pow_le_pow_right (by omega) (by omega)
    omega
  obtain ⟨ni, hnew, hgni, hdvd, hnile⟩ := mont_new_spec n hn hodd hn1 hcap
  -- to_repr: `(a << k) % n`, with the shift exact under the cap
  have hshl_good : Good N (shlB a k) := shlB_good ha k
  have hshl_val : valB (shlB a k) = valB a * 2 ^ k := by
    rw [shlB_val ha k hkN]
    apply Nat.mod_eq_of_lt
    have h1 : valB a * 2 ^ k ≤ (valB n - 1) * 2 ^ k := Nat.mul_le_mul_right _ (by omega)
    have h2 : (valB n - 1) * 2 ^ k + 2 ^ k = valB n * 2 ^ k := by
      have h3 : valB n - 1 + 1 = valB n := by omega
      calc (valB n - 1) * 2 ^ k + 2 ^ k = (valB n - 1 + 1) * 2 ^ k := by ring
        _ = valB n * 2 ^ k := by rw [h3]
    omega
  obtain ⟨t, hre, hgt, htval⟩ := remB_spec (shlB a k) n hshl_good hn (by omega)
  rw [hshl_val] at htval
  have htlt : valB t < valB n := by
    rw [htval]
    exact Nat.mod_lt _ (by omega)
  -- from_repr: mul(t, 1)
  obtain ⟨r, hrm, hgrm, hrlt, e, hrval⟩ := mont_mul_small n ni t (fromU64 N 1)
    hn hgni hgt (fromU64_good hN1 one_lt_B) hn1 hnR hcap hdvd
    (by rw [fromU64_val hN1, Nat.mul_one]; exact htlt)
  rw [fromU64_val hN1, Nat.mul_one, htval] at hrval
  refine ⟨ni, t, r, hnew, ?_, ?_, ?_⟩
  · rw [mont_to_repr, hre]
  · rw [mont_from_repr, hn.1]
    exact hrm
  · -- cancel the coprime factor 2^k
    have hcop : Nat.gcd (2 ^ k) (valB n) = 1 := by
      have h1 : Nat.gcd (2 ^ k) (valB n) ∣ 2 ^ k := Nat.gcd_dvd_left _ _
      have h2 : Nat.gcd (2 ^ k) (valB n) ∣ valB n := Nat.gcd_dvd_right _ _
      have h3 : Nat.gcd (2 ^ k) (valB n) ∣ valB n * valB ni + 1 := h1.trans hdvd
      have h4 : Nat.gcd (2 ^ k) (valB n) ∣ valB n * valB ni := Dvd.dvd.mul_right h2 _
      have h5 : Nat.gcd (2 ^ k) (valB n) ∣ 1 := by
        have := Nat.dvd_sub' h3 h4
        simpa using this
      exact Nat.dvd_one.mp h5
    have hq0 := Nat.div_add_mod (valB a * 2 ^ k) (valB n)
    have hcong : valB r * 2 ^ k % valB n = valB a * 2 ^ k % valB n := by
      have h1 : valB r * 2 ^ k + valB n * (valB a * 2 ^ k / valB n)
          = valB a * 2 ^ k + valB n * e := by omega
      have h2 := congrArg (fun z => z % valB n) h1
      simp only at h2
      rw [Nat.add_mul_mod_self_left, Nat.add_mul_mod_self_left] at h2
      exact h2
    have hmodeq : (2 ^ k * valB r) ≡ (2 ^ k * valB a) [MOD valB n] := by
      have e1 : 2 ^ k * valB r = valB r * 2 ^ k := by ring
      have e2 : 2 ^ k * valB a = valB a * 2 ^ k := by ring
      rw [Nat.ModEq, e1, e2]
      exact hcong
    have hcop2 : Nat.gcd (valB n) (2 ^ k) = 1 := by
      rw [Nat.gcd_comm]
      exact hcop
    have hfin : valB r ≡ valB a [MOD valB n] :=
      Nat.ModEq.cancel_left_of_coprime hcop2 hmodeq
    have h6 : valB r % valB n = valB a % valB n := hfin
    rw [Nat.mod_eq_of_lt hrlt, Nat.mod_eq_of_lt halt] at h6
    exact h6

/-- C2 counterexample: at `N = 1`, `n = 3`, `k = 64` (which satisfies
`k ≥ bit_length(n)`), `1 << 64` wraps to `0`, `ni` becomes `2^64 - 1`, and the
round trip of `a = 1` returns `0`. -/
theorem C2_counterexample :
    ∃ ni t r, mont_new 64 [3] = some (64, [3], ni) ∧
      mont_to_repr 64 [3] [1] = some t ∧ mont_from_repr 64 [3] ni t = some r ∧
      isOdd [3] = true ∧ bitLength [3] ≤ 64 ∧ valB [1] < valB [3] ∧
      valB r ≠ valB [1] :=
  ⟨[B - 1], [0], [0], by decide, by decide, by decide, by decide, by decide,
    by decide, by decide⟩

/-- C2 witness: the crate's doc example `n = 23`, `k = 5`, `a = 6` at `N = 1`. -/
theorem C2_montgomery_roundtrip_witness :
    ∃ ni t r, mont_new 5 [23] = some (5, [23], ni) ∧
      mont_to_repr 5 [23] [6] = some t ∧ mont_from_repr 5 [23] ni t = some r ∧
      valB r = valB [6] :=
  @C2_montgomery_roundtrip 1 5 [23] [6] (by decide) (by decide) (by decide)
    (by decide) (by decide) (by decide) (by decide)

/-- C3: the two exponentiation paths DISAGREE — a code bug. At `N = 1`,
`n = 3` (odd), `k = 2 = bit_length(3)`, base `a = 2 < n`, exponent `p = 2`,
the plain engine computes `2^2 mod 3 = 1` while the Montgomery engine returns
`2`. The cause is the `+ 1` in `MontgomeryAlg::mul`'s REDC step: when the
double-width product `t` is a nonzero multiple of `2^k` (here `t = 2*2 = 4`,
`k = 2`), the truncated quotient needs no increment, and the result is one
unit of `n`⁻¹-scaling too large. -/
theorem C3_powmod_paths_disagree :
    isOdd [3] = true ∧ bitLength [3] ≤ 2 ∧ valB [2] < valB [3] ∧
    powmod [2] [2] [3] = some [1] ∧
    mont_new 2 [3] = some (2, [3], [1]) ∧
    mont_to_repr 2 [3] [2] = some [2] ∧
    mont_powmod 2 [3] [1] [2] [2] = some [2] ∧
    mont_from_repr 2 [3] [1] [2] = some [2] ∧
    valB [2] ≠ valB [1] := by
  refine ⟨by decide, by decide, by decide, by decide, by decide, by decide, ?_, by decide,
    by decide⟩
  decide

/-! ## Random candidate generation (`random.rs::gen_random`) and
`prime.rs::quick_prime_check` / `gen_prime`

The RNG is modelled as a stream: `gen_random` draws its `u64`s from a list
`words`, `gen_prime` consumes one `(words, mrWords)` package per loop
iteration. -/

/-- The `for i in 0..quotient { res.digits[i] = rng.gen(); }` loop. -/
def genFill (words : List Nat) : Nat → List Nat → List Nat
  | 0, res => res
  | i + 1, res => (genFill words i res).set i (words.getD i 0)

/-- `Bigi::gen_random` (the `update_order` call only maintains a cached field
and does not change the digits). -/
def gen_random (N : Nat) (words : List Nat) (bits : Nat) (strict : Bool) : List Nat :=
  let quotient := bits / 64
  let remainder := bits % 64
  let res := genFill words quotient (List.replicate N 0)
  if 0 < remainder then
    let res2 := res.set quotient (words.getD quotient 0 % 2 ^ remainder)
    if strict then res2.set quotient (res2.getD quotient 0 ||| 2 ^ (remainder - 1)) else res2
  else
    if strict ∧ 0 < quotient then
      res.set (quotient - 1) (res.getD (quotient - 1) 0 ||| 2 ^ 63)
    else res

def QUICK_PRIMES : List Nat :=
  [3, 5, 7, 11, 13, 17, 19, 23, 29, 31, 37, 41, 43, 47, 53, 59, 61, 67, 71, 73, 79, 83,
   89, 97, 101, 103, 107, 109, 113, 127, 131, 137, 139, 149, 151, 157, 163, 167, 173,
   179, 181, 191, 193, 197, 199, 211, 223, 227, 229, 233]

def qpcLoop (x : List Nat) : List Nat → Option Bool
  | [] => some true
  | p :: ps =>
    match remB x (fromU64 x.length p) with
    | none => none
    | some r => if isZero r then some (x == fromU64 x.length p) else qpcLoop x ps

/-- `quick_prime_check`: trial division by the fixed small primes. -/
def quick_prime_check (x : List Nat) : Option Bool :=
  if isEven x then some false else qpcLoop x QUICK_PRIMES

/-! ## `prime.rs::miller_rabin` -/

/-- The `while d.is_even() { d >>= 1; s += 1 }` factoring loop (diverges when
`d` starts at zero, hence the fuel). -/
def mrDS : Nat → List Nat → Nat → Option (List Nat × Nat)
  | 0, _, _ => none
  | fuel + 1, d, s => if isEven d then mrDS fuel (shrB d 1) (s + 1) else some (d, s)

/-- The `for _r in 0..s` witness-squaring loop. -/
def mrWitLoop (x n : List Nat) : Nat → List Nat → Option Bool
  | 0, _ => some false
  | r + 1, b =>
    if b == n then some true
    else match powmod b (fromU64 x.length 2) x with
      | none => none
      | some b2 => mrWitLoop x n r b2

/-- One round of the Miller-Rabin `for _i in 0..k` loop. -/
def mrRound (x n d : List Nat) (bits s : Nat) (words : List Nat) : Option Bool :=
  match remB (gen_random x.length words bits false) x with
  | none => none
  | some a =>
    if isZero a then some true
    else match powmod a d x with
      | none => none
      | some b =>
        if b == fromU64 x.length 1 then some true
        else mrWitLoop x n s b

def mrLoop (x n d : List Nat) (bits s : Nat) : Nat → List (List Nat) → Option Bool
  | 0, _ => some true
  | i + 1, ws =>
    match mrRound x n d bits s (ws.headD []) with
    | none => none
    | some true => mrLoop x n d bits s i ws.tail
    | some false => some false

/-- `miller_rabin` (randomness drawn from the stream `ws`, `dsFuel` bounds the
unbounded factoring loop). -/
def miller_rabin (x : List Nat) (k : Nat) (ws : List (List Nat)) (dsFuel : Nat) :
    Option Bool :=
  match mrDS dsFuel (subB x (fromU64 x.length 1)) 0 with
  | none => none
  | some (d, s) =>
    mrLoop x (subB x (fromU64 x.length 1)) d (bitLength x) s k ws

/-- `gen_prime` (fuelled loop; one `(words, mrWords)` randomness package per
iteration). -/
def gen_prime (N bits dsFuel : Nat) :
    Nat → List (List Nat × List (List Nat)) → Option (List Nat)
  | 0, _ => none
  | fuel + 1, rs =>
    match quick_prime_check (gen_random N (rs.headD ([], [])).1 bits true) with
    | none => none
    | some false => gen_prime N bits dsFuel fuel rs.tail
    | some true =>
      match miller_rabin (gen_random N (rs.headD ([], [])).1 bits true) 100
          (rs.headD ([], [])).2 dsFuel with
      | none => none
      | some true => some (gen_random N (rs.headD ([], [])).1 bits true)
      | some false => gen_prime N bits dsFuel fuel rs.tail

theorem le_lor_right (a b : Nat) : b ≤ a ||| b :=
  Nat.le_of_testBit (fun i h => by rw [Nat.testBit_or, h, Bool.or_true])

theorem valB_drop_zero_aux (l : List Nat) :
    ∀ (c m : Nat), l.length ≤ m + c → (∀ j, m ≤ j → l.getD j 0 = 0) →
    valB (l.drop m) = 0
  | 0, m, hc, _ => by
    rw [List.drop_eq_nil_of_le (show l.length ≤ m by omega), valB_nil]
  | c + 1, m, hc, h => by
    rw [valB_drop_succ, h m (le_refl m),
      valB_drop_zero_aux l c (m + 1) (by omega) (fun j hj => h j (by omega))]
    simp

theorem valB_drop_zero (l : List Nat) (m : Nat) (h : ∀ j, m ≤ j → l.getD j 0 = 0) :
    valB (l.drop m) = 0 :=
  valB_drop_zero_aux l l.length m (by omega) h

theorem genFill_length (words : List Nat) : ∀ (i : Nat) (res : List Nat),
    (genFill words i res).length = res.length
  | 0, _ => rfl
  | i + 1, res => by rw [genFill, List.length_set, genFill_length words i res]

theorem genFill_getD_lt (words : List Nat) : ∀ (i : Nat) (res : List Nat) (j : Nat),
    j < i → i ≤ res.length → (genFill words i res).getD j 0 = words.getD j 0
  | 0, _, j, hj, _ => absurd hj (Nat.not_lt_zero _)
  | i + 1, res, j, hj, hle => by
    rw [genFill]
    by_cases he : j = i
    · subst he
      exact getD_set_self _ _ _ (by rw [genFill_length]; omega)
    · rw [getD_set_ne _ _ _ _ (Ne.symm he)]
      exact genFill_getD_lt words i res j (by omega) (by omega)

theorem genFill_getD_ge (words : List Nat) : ∀ (i : Nat) (res : List Nat) (j : Nat),
    i ≤ j → (genFill words i res).getD j 0 = res.getD j 0
  | 0, _, _, _ => rfl
  | i + 1, res, j, hj => by
    rw [genFill, getD_set_ne _ _ _ _ (by omega), genFill_getD_ge words i res j (by omega)]

theorem good_of_getD {N : Nat} (l : List Nat) (hlen : l.length = N)
    (h : ∀ j, j < N → l.getD j 0 < B) : Good N l := by
  refine ⟨hlen, ?_⟩
  intro x hx
  obtain ⟨i, hi, hval⟩ := List.mem_iff_getElem.mp hx
  have h2 := h i (by omega)
  rw [getD_eq_getElem l i hi, hval] at h2
  exact h2

/-- A strict draw has its top bit (bit `bits - 1`) forced set and no higher
bit: its value lies in `[2^(bits-1), 2^bits)`. Note the bottom bit is NOT
forced: candidates need not be odd. -/
theorem gen_random_strict_spec {N : Nat} (words : List Nat) (bits : Nat)
    (hbits : 1 ≤ bits) (hbN : bits ≤ 64 * N) (hw : ∀ w ∈ words, w < B) :
    Good N (gen_random N words bits true) ∧
    2 ^ (bits - 1) ≤ valB (gen_random N words bits true) ∧
    valB (gen_random N words bits true) < 2 ^ bits := by
  have hwd : ∀ i, words.getD i 0 < B := getD_lt_B words hw
  simp only [gen_random]
  set q := bits / 64 with hq
  set r := bits % 64 with hr
  have hbits_eq : bits = 64 * q + r := by omega
  have hr64 : r < 64 := by omega
  have hreslen : (genFill words q (List.replicate N 0)).length = N := by
    rw [genFill_length, List.length_replicate]
  have hB64 : B = 2 ^ 64 := rfl
  have h2_63 : (2 : Nat) ^ 63 * 2 = 2 ^ 64 := by rw [← pow_succ]
  by_cases hrpos : 0 < r
  · rw [if_pos hrpos, if_pos (trivial : True)]
    have hqN : q < N := by omega
    have hqlen : q < (genFill words q (List.replicate N 0)).length := by omega
    have hd0 : ((genFill words q (List.replicate N 0)).set q
        (words.getD q 0 % 2 ^ r)).getD q 0 = words.getD q 0 % 2 ^ r :=
      getD_set_self _ _ _ hqlen
    rw [hd0]
    set d0 := words.getD q 0 % 2 ^ r with hd0def
    set dq := d0 ||| 2 ^ (r - 1) with hdqdef
    set result := ((genFill words q (List.replicate N 0)).set q d0).set q dq with hresult
    have hrpow : (2 : Nat) ^ (r - 1) * 2 = 2 ^ r := by
      rw [← pow_succ]
      congr 1
      omega
    have hrpos' : 0 < (2 : Nat) ^ r := Nat.pos_pow_of_pos _ (by omega)
    have h1le : 1 ≤ (2 : Nat) ^ (r - 1) := Nat.pos_pow_of_pos _ (by omega)
    have hd0lt : d0 < 2 ^ r := Nat.mod_lt _ hrpos'
    have hdqlt : dq < 2 ^ r := Nat.or_lt_two_pow hd0lt (by omega)
    have hdqge : 2 ^ (r - 1) ≤ dq := le_lor_right d0 _
    have hdqB : dq < B := by
      have h1 : (2 : Nat) ^ r ≤ 2 ^ 63 := Nat.pow_le_pow_right (by omega) (by omega)
      rw [hB64]
      omega
    have hlen2 : result.length = N := by
      rw [hresult, List.length_set, List.length_set, hreslen]
    have hgot : ∀ j, q < j → result.getD j 0 = 0 := by
      intro j hj
      rw [hresult, getD_set_ne _ _ _ _ (by omega), getD_set_ne _ _ _ _ (by omega),
        genFill_getD_ge words q _ j (by omega), getD_replicate_zero]
    have hgoodr : Good N result := by
      apply good_of_getD result hlen2
      intro j hj
      rcases Nat.lt_trichotomy j q with h | h | h
      · rw [hresult, getD_set_ne _ _ _ _ (by omega), getD_set_ne _ _ _ _ (by omega),
          genFill_getD_lt words q _ j h (by rw [List.length_replicate]; omega)]
        exact hwd j
      · subst h
        rw [hresult, getD_set_self _ _ _ (by rw [List.length_set]; omega)]
        exact hdqB
      · rw [hgot j h]
        exact B_pos
    have hdrop : valB (result.drop q) = dq := by
      rw [valB_drop_succ, valB_drop_zero result (q + 1) (fun j hj => hgot j (by omega)),
        Nat.mul_zero, Nat.add_zero, hresult,
        getD_set_self _ _ _ (by rw [List.length_set]; omega)]
    have hsplit := valB_drop_split result 0 q
    simp only [List.drop_zero, Nat.zero_add] at hsplit
    rw [hdrop] at hsplit
    have htake : valB (result.take q) < B ^ q := valB_take_lt result hgoodr.2 q
    have hBq : B ^ q = 2 ^ (64 * q) := by rw [hB64, ← pow_mul]
    have hlow : B ^ q * 2 ^ (r - 1) = 2 ^ (bits - 1) := by
      rw [hBq, ← pow_add]
      congr 1
      omega
    have hhigh : B ^ q * 2 ^ r = 2 ^ bits := by
      rw [hBq, ← pow_add]
      congr 1
      omega
    refine ⟨hgoodr, ?_, ?_⟩
    · rw [hsplit, ← hlow]
      have h1 : B ^ q * 2 ^ (r - 1) ≤ B ^ q * dq := Nat.mul_le_mul_left _ hdqge
      omega
    · rw [hsplit, ← hhigh]
      have h1 : B ^ q * (dq + 1) ≤ B ^ q * 2 ^ r := Nat.mul_le_mul_left _ (by omega)
      have h2 : B ^ q * (dq + 1) = B ^ q * dq + B ^ q := by ring
      omega
  · have hr0 : r = 0 := by omega
    have hq1 : 1 ≤ q := by omega
    have hqN : q ≤ N := by omega
    rw [if_neg hrpos, if_pos (show True ∧ 0 < q from ⟨trivial, by omega⟩)]
    have hq1lt : q - 1 < (genFill words q (List.replicate N 0)).length := by omega
    have hw0 : (genFill words q (List.replicate N 0)).getD (q - 1) 0
        = words.getD (q - 1) 0 := by
      rw [genFill_getD_lt words q _ (q - 1) (by omega) (by rw [List.length_replicate]; omega)]
    rw [hw0]
    set w := words.getD (q - 1) 0 with hwdef
    set dq := w ||| 2 ^ 63 with hdqdef
    set result := (genFill words q (List.replicate N 0)).set (q - 1) dq with hresult
    have hwB : w < 2 ^ 64 := by
      rw [← hB64]
      exact hwd _
    have hdqlt : dq < 2 ^ 64 := Nat.or_lt_two_pow hwB (by omega)
    have hdqge : 2 ^ 63 ≤ dq := le_lor_right w _
    have hlen2 : result.length = N := by rw [hresult, List.length_set, hreslen]
    have hgot : ∀ j, q - 1 < j → result.getD j 0 = 0 := by
      intro j hj
      rw [hresult, getD_set_ne _ _ _ _ (by omega),
        genFill_getD_ge words q _ j (by omega), getD_replicate_zero]
    have hgoodr : Good N result := by
      apply good_of_getD result hlen2
      intro j hj
      rcases Nat.lt_trichotomy j (q - 1) with h | h | h
      · rw [hresult, getD_set_ne _ _ _ _ (by omega),
          genFill_getD_lt words q _ j (by omega) (by rw [List.length_replicate]; omega)]
        exact hwd j
      · subst h
        rw [hresult, getD_set_self _ _ _ hq1lt]
        rw [← hB64] at hdqlt
        exact hdqlt
      · rw [hgot j h]
        exact B_pos
    have hdrop : valB (result.drop (q - 1)) = dq := by
      rw [valB_drop_succ, valB_drop_zero result (q - 1 + 1) (fun j hj => hgot j (by omega)),
        Nat.mul_zero, Nat.add_zero, hresult, getD_set_self _ _ _ hq1lt]
    have hsplit := valB_drop_split result 0 (q - 1)
    simp only [List.drop_zero, Nat.zero_add] at hsplit
    rw [hdrop] at hsplit
    have htake : valB (result.take (q - 1)) < B ^ (q - 1) := valB_take_lt result hgoodr.2 _
    have hBq : B ^ (q - 1) = 2 ^ (64 * (q - 1)) := by rw [hB64, ← pow_mul]
    have hlow : B ^ (q - 1) * 2 ^ 63 = 2 ^ (bits - 1) := by
      rw [hBq, ← pow_add]
      congr 1
      omega
    have hhigh : B ^ (q - 1) * 2 ^ 64 = 2 ^ bits := by
      rw [hBq, ← pow_add]
      congr 1
      omega
    refine ⟨hgoodr, ?_, ?_⟩
    · rw [hsplit, ← hlow]
      have h1 : B ^ (q - 1) * 2 ^ 63 ≤ B ^ (q - 1) * dq := Nat.mul_le_mul_left _ hdqge
      omega
    · rw [hsplit, ← hhigh]
      have h1 : B ^ (q - 1) * (dq + 1) ≤ B ^ (q - 1) * 2 ^ 64 :=
        Nat.mul_le_mul_left _ (by omega)
      have h2 : B ^ (q - 1) * (dq + 1) = B ^ (q - 1) * dq + B ^ (q - 1) := by ring
      omega

theorem gen_random_strict_bitLength {N : Nat} (words : List Nat) (bits : Nat)
    (hbits : 1 ≤ bits) (hbN : bits ≤ 64 * N) (hw : ∀ w ∈ words, w < B) :
    bitLength (gen_random N words bits true) = bits := by
  obtain ⟨hg, hlo, hhi⟩ := gen_random_strict_spec words bits hbits hbN hw
  have hle : bitLength (gen_random N words bits true) ≤ bits :=
    bitLength_le_of_lt hg bits hhi
  have hpos : 0 < valB (gen_random N words bits true) :=
    lt_of_lt_of_le (Nat.pos_pow_of_pos _ (by omega)) hlo
  obtain ⟨h1, h2, h3⟩ := bitLength_spec hg hpos
  by_contra hne
  have hlt : bitLength (gen_random N words bits true) ≤ bits - 1 := by omega
  have h4 : (2 : Nat) ^ bitLength (gen_random N words bits true) ≤ 2 ^ (bits - 1) :=
    Nat.pow_le_pow_right (by omega) hlt
  omega

/-- Only odd values pass `quick_prime_check`. -/
theorem odd_of_qpc {x : List Nat} (h : quick_prime_check x = some true) :
    isOdd x = true := by
  rw [quick_prime_check] at h
  by_cases he : isEven x = true
  · rw [if_pos he] at h
    simp at h
  · rw [isEven] at he
    rw [isOdd]
    simp at he ⊢
    omega

theorem gen_prime_spec {N bits dsFuel : Nat} (hbits : 1 ≤ bits) (hbN : bits ≤ 64 * N) :
    ∀ (fuel : Nat) (rs : List (List Nat × List (List Nat))) (x : List Nat),
    (∀ p ∈ rs, ∀ w ∈ p.1, w < B) →
    gen_prime N bits dsFuel fuel rs = some x →
    Good N x ∧ isOdd x = true ∧ bitLength x = bits
  | 0, rs, x, hw, hre => by exact Option.noConfusion hre
  | fuel + 1, rs, x, hw, hre => by
    have hws : ∀ w ∈ (rs.headD ([], [])).1, w < B := by
      cases rs with
      | nil => simp
      | cons p ps =>
        intro w hwmem
        exact hw p (by simp) w hwmem
    rw [gen_prime] at hre
    split at hre
    · exact Option.noConfusion hre
    · exact gen_prime_spec hbits hbN fuel rs.tail x
        (fun p hp => hw p (List.mem_of_mem_tail hp)) hre
    · rename_i hq
      split at hre
      · exact Option.noConfusion hre
      · -- Miller-Rabin accepted: the candidate is returned
        have hx : gen_random N (rs.headD ([], [])).1 bits true = x := Option.some.inj hre
        subst hx
        exact ⟨(gen_random_strict_spec _ bits hbits hbN hws).1, odd_of_qpc hq,
          gen_random_strict_bitLength _ bits hbits hbN hws⟩
      · exact gen_prime_spec hbits hbN fuel rs.tail x
          (fun p hp => hw p (List.mem_of_mem_tail hp)) hre

/-- C9 (amended): every candidate drawn inside `gen_prime` is a strict draw
whose top bit is forced, so it has *bit length exactly `bits`* — but it is NOT
forced odd (`gen_random` only sets the top bit; see `C9_counterexample`).
Every value `gen_prime` *returns* is additionally odd, because
`quick_prime_check` rejects all even candidates. -/
theorem C9_gen_prime_bits {N bits dsFuel fuel : Nat}
    (rs : List (List Nat × List (List Nat))) (x : List Nat)
    (hbits : 1 ≤ bits) (hbN : bits ≤ 64 * N)
    (hw : ∀ p ∈ rs, ∀ w ∈ p.1, w < B)
    (hre : gen_prime N bits dsFuel fuel rs = some x) :
    (Good N x ∧ isOdd x = true ∧ bitLength x = bits) ∧
    (∀ ws : List Nat, (∀ w ∈ ws, w < B) →
      bitLength (gen_random N ws bits true) = bits) :=
  ⟨gen_prime_spec hbits hbN fuel rs x hw hre,
   fun ws hws => gen_random_strict_bitLength ws bits hbits hbN hws⟩

/-- C9 counterexample: the candidate drawn by `gen_prime`'s first iteration at
`bits = 2` from the random word `0` is `2` — even, with only the top bit
forced. The claim that every drawn candidate is odd (bottom bit forced) is
false; the candidate is rejected by `quick_prime_check` instead. -/
theorem C9_counterexample :
    gen_random 1 [0] 2 true = [2] ∧ isOdd (gen_random 1 [0] 2 true) = false ∧
    quick_prime_check (gen_random 1 [0] 2 true) = some false ∧
    1 ≤ 2 ∧ 2 ≤ 64 * 1 := by
  refine ⟨by decide, by decide, ?_, by decide, by decide⟩
  decide

/-- C9 witness: `gen_prime` at `N = 1`, `bits = 8`, drawing the word `0x95`
returns the prime `149`, odd and of bit length exactly 8. -/
theorem C9_gen_prime_bits_witness :
    (Good 1 [149] ∧ isOdd [149] = true ∧ bitLength [149] = 8) ∧
    (∀ ws : List Nat, (∀ w ∈ ws, w < B) →
      bitLength (gen_random 1 ws 8 true) = 8) :=
  @C9_gen_prime_bits 1 8 300 3 [([149], [[3], [5], [7]])] [149]
    (by decide) (by decide) (by decide) (by decide)

/-! ## C10: termination of `miller_rabin` -/

/-- A non-strict draw stays within the width: all digits below `B`. -/
theorem gen_random_false_good {N : Nat} (words : List Nat) (bits : Nat)
    (hbN : bits ≤ 64 * N) (hw : ∀ w ∈ words, w < B) :
    Good N (gen_random N words bits false) := by
  have hwd : ∀ i, words.getD i 0 < B := getD_lt_B words hw
  simp only [gen_random]
  set q := bits / 64 with hq
  set r := bits % 64 with hr
  have hr64 : r < 64 := by omega
  have hrepl : (List.replicate N 0).length = N := by
    rw [List.length_replicate]
  have hreslen : (genFill words q (List.replicate N 0)).length = N := by
    rw [genFill_length, List.length_replicate]
  have hgood : Good N (genFill words q (List.replicate N 0)) := by
    refine good_of_getD _ hreslen ?_
    intro j hj
    by_cases hjq : j < q
    · rw [genFill_getD_lt words q _ j hjq (by omega)]
      exact hwd j
    · rw [genFill_getD_ge words q _ j (by omega), getD_replicate_zero]
      exact B_pos
  by_cases hrpos : 0 < r
  · rw [if_pos hrpos, if_neg (by decide : ¬ (false = true))]
    have hqN : q < N := by omega
    refine good_of_getD _ (by rw [List.length_set, hreslen]) ?_
    intro j hj
    by_cases hje : j = q
    · rw [hje, getD_set_self _ _ _ (by omega)]
      have h1 : words.getD q 0 % 2 ^ r < 2 ^ r :=
        Nat.mod_lt _ (Nat.pos_pow_of_pos _ (by omega))
      have h2 : (2 : Nat) ^ r < 2 ^ 64 := Nat.pow_lt_pow_right (by omega) hr64
      have hB : B = 2 ^ 64 := rfl
      omega
    · rw [getD_set_ne _ _ _ _ (Ne.symm hje)]
      exact getD_lt hgood j hj
  · rw [if_neg hrpos, if_neg (by simp)]
    exact hgood

/-- The `d / s` factoring loop of `miller_rabin` never finishes when `d`
starts at zero: zero is even and stays zero under halving. -/
theorem mrDS_none {N : Nat} (hN : 1 ≤ N) :
    ∀ (fuel : Nat) (d : List Nat) (s : Nat), Good N d → valB d = 0 →
      mrDS fuel d s = none
  | 0, _, _, _, _ => rfl
  | fuel + 1, d, s, hd, hv => by
    have he : isEven d = true := (isEven_iff hN hd).mpr (by omega)
    simp only [mrDS]
    rw [if_pos he]
    exact mrDS_none hN fuel (shrB d 1) (s + 1) (shrB_good hd 1)
      (by rw [shrB_val hd 1 (by omega), hv]; simp)

/-- The `d / s` factoring loop finishes as soon as `d` starts nonzero: the
number of halvings is bounded by the bit size of `d`. -/
theorem mrDS_terminates {N : Nat} (hN : 1 ≤ N) :
    ∀ (fuel : Nat) (d : List Nat) (s : Nat), Good N d → 1 ≤ valB d →
      valB d < 2 ^ fuel →
      ∃ d2 s2, mrDS fuel d s = some (d2, s2) ∧ isEven d2 = false
  | 0, d, s, _, h1, hlt => by rw [pow_zero] at hlt; omega
  | fuel + 1, d, s, hd, h1, hlt => by
    by_cases he : isEven d = true
    · have hv2 : valB d % 2 = 0 := (isEven_iff hN hd).mp he
      have hvd : valB (shrB d 1) = valB d / 2 ^ 1 := shrB_val hd 1 (by omega)
      rw [pow_one] at hvd
      rw [pow_succ] at hlt
      obtain ⟨d2, s2, hre, hodd⟩ := mrDS_terminates hN fuel (shrB d 1) (s + 1)
        (shrB_good hd 1) (by omega) (by omega)
      refine ⟨d2, s2, ?_, hodd⟩
      simp only [mrDS]
      rw [if_pos he]
      exact hre
    · rw [Bool.not_eq_true] at he
      refine ⟨d, s, ?_, he⟩
      simp only [mrDS]
      rw [if_neg (by rw [he]; decide)]

/-- The value of `x - 1` at fixed width: wraps to `2^(64N) - 1` when `x = 0`. -/
theorem subB_one_val {N : Nat} (x : List Nat) (hx : Good N x) (hN : 1 ≤ N) :
    valB (subB x (fromU64 x.length 1)) =
      if valB x = 0 then B ^ N - 1 else valB x - 1 := by
  have hone : Good N (fromU64 x.length 1) := by
    rw [hx.1]; exact fromU64_good hN one_lt_B
  have hv := subB_val hx hone
  have h1v : valB (fromU64 x.length 1) = 1 := by rw [hx.1]; exact fromU64_val hN
  rw [h1v] at hv
  have hB1 := one_lt_B
  have hBle : B ≤ B ^ N := by
    calc B = B ^ 1 := (pow_one B).symm
    _ ≤ B ^ N := Nat.pow_le_pow_right (by omega) hN
  have hxlt : valB x < B ^ N := valB_lt N x hx
  by_cases h0 : valB x = 0
  · rw [if_pos h0, hv, h0, Nat.mod_eq_of_lt (by omega)]
    omega
  · rw [if_neg h0, hv]
    have he : valB x + B ^ N - 1 = (valB x - 1) + B ^ N := by omega
    rw [he, Nat.add_mod_right, Nat.mod_eq_of_lt (by omega)]

/-- `powmodLoop` always succeeds over a nonzero modulus and keeps the width. -/
theorem powmodLoop_total {N : Nat} (m p : List Nat) (hm : Good N m)
    (hmpos : 0 < valB m) :
    ∀ (cnt bit : Nat) (res x : List Nat), Good N res → Good N x →
      ∃ r, powmodLoop m p bit cnt res x = some r ∧ Good N r
  | 0, _, res, _, hres, _ => ⟨res, rfl, hres⟩
  | cnt + 1, bit, res, x, hres, hx => by
    have hstep : ∃ res2, (if getBit p bit then remB (mulB res x) m else some res) =
        some res2 ∧ Good N res2 := by
      by_cases hb : getBit p bit
      · rw [if_pos hb]
        obtain ⟨r, hre, hg, _⟩ := remB_spec (mulB res x) m (mulB_good hres hx) hm hmpos
        exact ⟨r, hre, hg⟩
      · rw [if_neg hb]; exact ⟨res, rfl, hres⟩
    obtain ⟨res2, hre2, hg2⟩ := hstep
    obtain ⟨x2, hrex, hgx2, _⟩ := remB_spec (mulB x x) m (mulB_good hx hx) hm hmpos
    obtain ⟨r, hrer, hgr⟩ := powmodLoop_total m p hm hmpos cnt (bit + 1) res2 x2 hg2 hgx2
    refine ⟨r, ?_, hgr⟩
    simp only [powmodLoop, hre2, hrex]
    exact hrer

/-- `Bigi::powmod` always succeeds over a nonzero modulus. -/
theorem powmod_total {N : Nat} (a p m : List Nat) (ha : Good N a) (hm : Good N m)
    (hN : 1 ≤ N) (hmpos : 0 < valB m) :
    ∃ r, powmod a p m = some r ∧ Good N r := by
  rw [powmod, ha.1]
  exact powmodLoop_total m p hm hmpos (bitLength p) 0 (fromU64 N 1) a
    (fromU64_good hN one_lt_B) ha

/-- The witness-squaring loop of `miller_rabin` always finishes: it runs at
most `s` squarings. -/
theorem mrWitLoop_total {N : Nat} (x n : List Nat) (hx : Good N x) (hN : 1 ≤ N)
    (hxpos : 0 < valB x) :
    ∀ (r : Nat) (b : List Nat), Good N b → ∃ o, mrWitLoop x n r b = some o
  | 0, _, _ => ⟨false, rfl⟩
  | r + 1, b, hb => by
    by_cases he : (b == n) = true
    · refine ⟨true, ?_⟩
      simp only [mrWitLoop]
      rw [if_pos he]
    · obtain ⟨b2, hre, hg2⟩ := powmod_total b (fromU64 x.length 2) x hb hx hN hxpos
      obtain ⟨o, ho⟩ := mrWitLoop_total x n hx hN hxpos r b2 hg2
      refine ⟨o, ?_⟩
      simp only [mrWitLoop, hre]
      rw [if_neg he]
      exact ho

/-- One round of the Miller-Rabin trial loop always finishes for `x ≥ 2`. -/
theorem mrRound_total {N : Nat} (x n d : List Nat) (s : Nat) (words : List Nat)
    (hx : Good N x) (hN : 1 ≤ N) (hx2 : 2 ≤ valB x) (hw : ∀ w ∈ words, w < B) :
    ∃ o, mrRound x n d (bitLength x) s words = some o := by
  have hxpos : 0 < valB x := by omega
  have hbl : bitLength x ≤ 64 * N := by
    have hlt := valB_lt N x hx
    have hBN : B ^ N = 2 ^ (64 * N) := by rw [B, ← pow_mul]
    exact bitLength_le_of_lt hx (64 * N) (by omega)
  have hgr : Good N (gen_random x.length words (bitLength x) false) := by
    rw [hx.1]
    exact gen_random_false_good words (bitLength x) hbl hw
  obtain ⟨a, hrea, hga, _⟩ := remB_spec _ x hgr hx hxpos
  by_cases hz : isZero a = true
  · refine ⟨true, ?_⟩
    simp only [mrRound, hrea]
    rw [if_pos hz]
  · obtain ⟨b, hreb, hgb⟩ := powmod_total a d x hga hx hN hxpos
    by_cases hb1 : (b == fromU64 x.length 1) = true
    · refine ⟨true, ?_⟩
      simp only [mrRound, hrea, hreb]
      rw [if_neg hz, if_pos hb1]
    · obtain ⟨o, ho⟩ := mrWitLoop_total x n hx hN hxpos s b hgb
      refine ⟨o, ?_⟩
      simp only [mrRound, hrea, hreb]
      rw [if_neg hz, if_neg hb1]
      exact ho

/-- The `for _i in 0..k` trial loop of `miller_rabin` always finishes for
`x ≥ 2`: it runs at most `k` rounds. -/
theorem mrLoop_total {N : Nat} (x n d : List Nat) (s : Nat)
    (hx : Good N x) (hN : 1 ≤ N) (hx2 : 2 ≤ valB x) :
    ∀ (k : Nat) (ws : List (List Nat)), (∀ l ∈ ws, ∀ w ∈ l, w < B) →
      ∃ o, mrLoop x n d (bitLength x) s k ws = some o
  | 0, _, _ => ⟨true, rfl⟩
  | k + 1, ws, hws => by
    have hhead : ∀ w ∈ ws.headD [], w < B := by
      cases ws with
      | nil => intro w hw; simp at hw
      | cons h t => exact hws h (List.mem_cons_self h t)
    have htail : ∀ l ∈ ws.tail, ∀ w ∈ l, w < B := by
      cases ws with
      | nil => intro l hl; simp at hl
      | cons h t => exact fun l hl => hws l (List.mem_cons_of_mem h hl)
    obtain ⟨o, ho⟩ := mrRound_total x n d s (ws.headD []) hx hN hx2 hhead
    cases o with
    | true =>
      obtain ⟨o2, ho2⟩ := mrLoop_total x n d s hx hN hx2 k ws.tail htail
      refine ⟨o2, ?_⟩
      simp only [mrLoop, ho]
      exact ho2
    | false =>
      refine ⟨false, ?_⟩
      simp only [mrLoop, ho]

/-- With a zero divisor `d`, `divide`'s correction loop never exits: the
`is_less` scan over the empty divisor window (`order2 = 0`) is `false`, so
every iteration takes the subtract-and-bump branch and the loop spins
forever — `none` at every fuel. -/
theorem divLoop_zero_divisor (d : List Nat) :
    ∀ (fuel : Nat) (self res : List Nat) (shf : Nat),
      divLoop d 0 fuel self res shf = none
  | 0, _, _, _ => rfl
  | fuel + 1, self, res, shf => by
    simp only [divLoop]
    have hneg : ¬ ((if 0 + shf < self.length then self.getD (0 + shf) 0 else 0) = 0
        ∧ isLessLoop self d shf 0 = true) := by
      intro hc
      simp [isLessLoop] at hc
    rw [if_neg hneg]
    exact divLoop_zero_divisor d fuel _ _ _

/-- `divide` by zero never returns, at any fuel. -/
theorem divide_zero_divisor (a d : List Nat) (hd : valB d = 0) (fuel : Nat) :
    divide a d fuel = none := by
  have h2 : getOrder d = 0 := (getOrder_eq_zero_iff d).mpr hd
  simp only [divide, h2]
  rw [if_pos (Nat.zero_le (getOrder a))]
  exact divLoop_zero_divisor d fuel _ _ _

/-- `miller_rabin` on `x = 0` with at least one round also diverges: the
factoring loop exits at once (`x - 1` wraps to the odd `2^(64N) - 1`), but
the round's reduction `a % x` divides by zero and never returns. -/
theorem miller_rabin_zero_none {N : Nat} (x : List Nat) (hx : Good N x) (hN : 1 ≤ N)
    (h0 : valB x = 0) (dsFuel k : Nat) (ws : List (List Nat)) :
    miller_rabin x (k + 1) ws dsFuel = none := by
  have hd0g : Good N (subB x (fromU64 x.length 1)) := by
    rw [hx.1]; exact subB_good hx (fromU64_good hN one_lt_B)
  have hd0v : valB (subB x (fromU64 x.length 1)) = B ^ N - 1 := by
    rw [subB_one_val x hx hN, if_pos h0]
  have hbl : bitLength x = 0 := bitLength_zero x h0
  have hgr : ∀ words : List Nat, gen_random x.length words (bitLength x) false =
      List.replicate x.length 0 := by
    intro words
    rw [hbl]
    rfl
  have hrem : ∀ words : List Nat,
      remB (gen_random x.length words (bitLength x) false) x = none := by
    intro words
    rw [remB, hgr words]
    simp only [divide_zero_divisor (List.replicate x.length 0) x h0]
  have hround : ∀ (words d : List Nat) (s : Nat),
      mrRound x (subB x (fromU64 x.length 1)) d (bitLength x) s words = none := by
    intro words d s
    simp only [mrRound, hrem]
  cases dsFuel with
  | zero => rfl
  | succ f =>
    have hodd : isEven (subB x (fromU64 x.length 1)) = false := by
      cases h : isEven (subB x (fromU64 x.length 1))
      · rfl
      · exfalso
        have hmod := (isEven_iff hN hd0g).mp h
        rw [hd0v] at hmod
        have hBN : B ^ N = 2 ^ (64 * N) := by rw [B, ← pow_mul]
        have hdvd : 2 ∣ 2 ^ (64 * N) := dvd_pow_self 2 (by omega)
        have hpos : 0 < (2 : Nat) ^ (64 * N) := Nat.pos_pow_of_pos _ (by omega)
        omega
    have hds : mrDS (f + 1) (subB x (fromU64 x.length 1)) 0 =
        some (subB x (fromU64 x.length 1), 0) := by
      simp only [mrDS]
      rw [if_neg (by rw [hodd]; decide)]
    simp only [miller_rabin, hds]
    simp only [mrLoop, hround]

/-- **C10** (amended): for every round count `k`, `miller_rabin(x, k)`
terminates for every width-`N` input `x` other than `x == 1` and `x == 0`.
When `x == 1` the internal loop factoring `x - 1` into `d * 2^s` never
terminates — `x - 1` is zero and zero stays even under halving — so the
whole function diverges for every fuel. When `x == 0` (with at least one
round) the factoring loop does exit — `x - 1` wraps to the odd
`2^(64N) - 1` — but the round's reduction `a % x` divides by zero and
`divide`'s correction loop never exits. For every other `x` the factoring
loop reaches an odd `d` within `64·N` halvings, and (for `x ≥ 2`) the whole
function terminates: the witness loop is bounded by `s` and the round loop
by `k`. -/
theorem C10_miller_rabin_termination {N : Nat} (x : List Nat) (hx : Good N x)
    (hN : 1 ≤ N) :
    (valB x = 1 → ∀ (k dsFuel : Nat) (ws : List (List Nat)),
      miller_rabin x k ws dsFuel = none) ∧
    (valB x = 0 → ∀ (dsFuel k : Nat) (ws : List (List Nat)),
      miller_rabin x (k + 1) ws dsFuel = none) ∧
    (valB x ≠ 1 → ∃ d s, mrDS (64 * N) (subB x (fromU64 x.length 1)) 0 = some (d, s) ∧
      isEven d = false) ∧
    (2 ≤ valB x → ∀ (k : Nat) (ws : List (List Nat)),
      (∀ l ∈ ws, ∀ w ∈ l, w < B) →
      ∃ b, miller_rabin x k ws (64 * N) = some b) := by
  have hone : Good N (fromU64 N 1) := fromU64_good hN one_lt_B
  have hd0g : Good N (subB x (fromU64 x.length 1)) := by
    rw [hx.1]; exact subB_good hx hone
  have hd0v := subB_one_val x hx hN
  have hB1 := one_lt_B
  have hBle : B ≤ B ^ N := by
    calc B = B ^ 1 := (pow_one B).symm
    _ ≤ B ^ N := Nat.pow_le_pow_right (by omega) hN
  have hvlt : valB (subB x (fromU64 x.length 1)) < 2 ^ (64 * N) := by
    have h1 := valB_lt N _ hd0g
    have hBN : B ^ N = 2 ^ (64 * N) := by rw [B, ← pow_mul]
    omega
  refine ⟨?_, ?_, ?_, ?_⟩
  · intro h1 k dsFuel ws
    have hv0 : valB (subB x (fromU64 x.length 1)) = 0 := by
      rw [hd0v, if_neg (by omega)]
      omega
    have hds : mrDS dsFuel (subB x (fromU64 x.length 1)) 0 = none :=
      mrDS_none hN dsFuel _ 0 hd0g hv0
    simp only [miller_rabin, hds]
  · intro h0 dsFuel k ws
    exact miller_rabin_zero_none x hx hN h0 dsFuel k ws
  · intro hne
    have hv1 : 1 ≤ valB (subB x (fromU64 x.length 1)) := by
      rw [hd0v]
      by_cases h0 : valB x = 0
      · rw [if_pos h0]; omega
      · rw [if_neg h0]; omega
    exact mrDS_terminates hN (64 * N) _ 0 hd0g hv1 hvlt
  · intro hx2 k ws hws
    have hv1 : 1 ≤ valB (subB x (fromU64 x.length 1)) := by
      rw [hd0v, if_neg (by omega)]
      omega
    obtain ⟨d2, s2, hre, _⟩ := mrDS_terminates hN (64 * N) _ 0 hd0g hv1 hvlt
    obtain ⟨o, ho⟩ := mrLoop_total x (subB x (fromU64 x.length 1)) d2 s2 hx hN hx2 k ws hws
    refine ⟨o, ?_⟩
    simp only [miller_rabin, hre]
    exact ho

/-- C10 witness: at width 1, `miller_rabin` on `x = 1` returns no answer for
fuel 40; on `x = 0` with one round it returns no answer either; on `x = 6`
the factoring loop stops at the odd `d = 5`; on `x = 5` the whole procedure
terminates. -/
theorem C10_miller_rabin_termination_witness :
    miller_rabin [1] 5 [] 40 = none ∧
    miller_rabin [0] (0 + 1) [[5]] 64 = none ∧
    (∃ d s, mrDS (64 * 1) (subB [6] (fromU64 (List.length [6]) 1)) 0 = some (d, s) ∧
      isEven d = false) ∧
    (∃ b, miller_rabin [5] 1 [[7]] (64 * 1) = some b) :=
  ⟨(@C10_miller_rabin_termination 1 [1] (by decide) (by decide)).1 (by decide) 5 40 [],
   (@C10_miller_rabin_termination 1 [0] (by decide) (by decide)).2.1 (by decide) 64 0
     [[5]],
   (@C10_miller_rabin_termination 1 [6] (by decide) (by decide)).2.2.1 (by decide),
   (@C10_miller_rabin_termination 1 [5] (by decide) (by decide)).2.2.2 (by decide) 1
     [[7]] (by decide)⟩

/-- C10 counterexample: the claim as frozen says every `x` other than `1`
terminates, but `x = 0` also diverges once a round runs: `x - 1` wraps to
the odd `2^64 - 1` so the factoring loop exits at once, and the round's
reduction `a % x` calls `divide` with the zero divisor, whose correction
loop never returns — `none` here at fuels `0` and `64`, with the offending
division itself. -/
theorem C10_counterexample :
    valB [0] = 0 ∧ valB [0] ≠ 1 ∧
    miller_rabin [0] 1 [[5]] 0 = none ∧
    miller_rabin [0] 1 [[5]] 64 = none ∧
    divide [0] [0] 64 = none ∧
    mrDS 64 (subB [0] (fromU64 1 1)) 0 = some ([18446744073709551615], 0) ∧
    isEven [18446744073709551615] = false := by
  refine ⟨rfl, by decide, rfl, rfl, rfl, by decide, by decide⟩

/-! ## `prime.rs::legendre_symbol`, `prime.rs::sqrt_mod` and `Modulo::sqrt` -/

/-- The inner `while ac.is_even() { ac >>= 1; if i { t = -t; } }` loop of
`legendre_symbol`. -/
def legInner (i : Bool) : Nat → List Nat → Int → Option (List Nat × Int)
  | 0, ac, t => if isEven ac then none else some (ac, t)
  | fuel + 1, ac, t =>
    if isEven ac then legInner i fuel (shrB ac 1) (if i then -t else t)
    else some (ac, t)

/-- The outer `while !ac.is_zero()` loop of `legendre_symbol`:
`r = u64::from(&pc.mod_2k(3))`, halve `ac` flipping the sign when
`r == 3 || r == 5`, swap, flip the sign again when `r % 4 == 3` and the new
modulus is `3 (mod 4)`, then `ac %= &pc`. -/
def legLoop : Nat → List Nat → List Nat → Int → Option Int
  | 0, ac, _, t => if isZero ac then some t else none
  | fuel + 1, ac, pc, t =>
    if isZero ac then some t
    else
      match legInner (((mod2k pc 3).getD 0 0 == 3) || ((mod2k pc 3).getD 0 0 == 5))
          (64 * ac.length + 1) ac t with
      | none => none
      | some (ac2, t2) =>
        match remB pc ac2 with
        | none => none
        | some ac3 =>
          legLoop fuel ac3 ac2
            (if ((mod2k pc 3).getD 0 0 % 4 == 3) && ((mod2k ac2 2).getD 0 0 == 3)
             then -t2 else t2)

/-- `legendre_symbol` (fuelled outer loop). -/
def legendre_symbol (a p : List Nat) (fuel : Nat) : Option Int :=
  legLoop fuel a p 1

/-- The digits of a value at width `N` (little-endian). -/
def natToB : Nat → Nat → List Nat
  | 0, _ => []
  | n + 1, v => v % B :: natToB n (v / B)

/-- Modelled from the spec: `mul_mod(x, y, m)` returns `(x * y) % m` computed
through the double-width product (its helpers `multiply_overflowing` and
`divide_overflowing` are not present in the sources). -/
def mul_mod (N : Nat) (x y m : List Nat) : List Nat :=
  natToB N (valB x * valB y % valB m)

/-- The `while q.is_even() { q >>= 1; s += 1; }` factoring loop of
`sqrt_mod`. -/
def sqrtQS : Nat → List Nat → Nat → Option (List Nat × Nat)
  | 0, _, _ => none
  | fuel + 1, q, s => if isEven q then sqrtQS fuel (shrB q 1) (s + 1) else some (q, s)

/-- The `loop { if legendre_symbol(&z, &p) != 1 { break; } z += &one; }`
search for a non-residue. -/
def zSearch (p : List Nat) (legFuel : Nat) : Nat → List Nat → Option (List Nat)
  | 0, _ => none
  | fuel + 1, z =>
    match legendre_symbol z p legFuel with
    | none => none
    | some t =>
      if t == 1 then zSearch p legFuel fuel (addB z (fromU64 p.length 1))
      else some z

/-- The `while tp != one { tp = mul_mod(&tp, &tp, &p); i += 1; }` counter of
the Tonelli-Shanks loop. -/
def sqrtI (p one : List Nat) : Nat → List Nat → Nat → Option Nat
  | 0, tp, i => if tp == one then some i else none
  | fuel + 1, tp, i =>
    if tp == one then some i
    else sqrtI p one fuel (mul_mod p.length tp tp p) (i + 1)

/-- The Tonelli-Shanks `while t != one` loop of `sqrt_mod`. -/
def sqrtLoop (p one : List Nat) (iFuel : Nat) : Nat → List Nat → List Nat →
    List Nat → Nat → Option (List Nat)
  | 0, r, _, t, _ => if t == one then some r else none
  | fuel + 1, r, c, t, m =>
    if t == one then some r
    else
      match sqrtI p one iFuel t 0 with
      | none => none
      | some i =>
        match powmod c (shlB one (m - i - 1)) p with
        | none => none
        | some b =>
          sqrtLoop p one iFuel fuel (mul_mod p.length r b p) (mul_mod p.length b b p)
            (mul_mod p.length t (mul_mod p.length b b p) p) i

/-- The `else` branch of `sqrt_mod`: the full Tonelli-Shanks run
(`q`/`s` extraction, non-residue search, the four `powmod` seeds, the loop). -/
def sqrtTS (n p : List Nat) (fuel : Nat) : Option (List Nat) :=
  match sqrtQS (64 * p.length + 1) (subB p (fromU64 p.length 1)) 0 with
  | none => none
  | some (q, s) =>
    match zSearch p fuel fuel (fromU64 p.length 2) with
    | none => none
    | some z =>
      match powmod z q p with
      | none => none
      | some c =>
        match powmod n (shrB (addB q (fromU64 p.length 1)) 1) p with
        | none => none
        | some r =>
          match powmod n q p with
          | none => none
          | some t => sqrtLoop p (fromU64 p.length 1) fuel fuel r c t s

/-- `sqrt_mod`: the non-residue check first, then either the `p ≡ 3 (mod 4)`
shortcut `n.powmod(&((*p + &one) >> 2), &p)` or the Tonelli-Shanks branch,
then the second root `p - r` with the smaller root first. -/
def sqrt_mod (n p : List Nat) (fuel : Nat) :
    Option (Except String (List Nat × List Nat)) :=
  match legendre_symbol n p fuel with
  | none => none
  | some t =>
    if t == 1 then
      match (if mod2k p 2 == fromU64 p.length 3 then
               powmod n (shrB (addB p (fromU64 p.length 1)) 2) p
             else sqrtTS n p fuel) with
      | none => none
      | some r =>
        some (Except.ok (if ltB (subB p r) r then (subB p r, r) else (r, subB p r)))
    else some (Except.error "Non-quadratic residue")

/-- `Modulo::sqrt`: delegates to `sqrt_mod` with the stored modulus. -/
def Modulo.sqrt (self : Modulo) (x : List Nat) (fuel : Nat) :
    Option (Except String (List Nat × List Nat)) :=
  sqrt_mod x self.modulo fuel

/-- **C5**: whenever `sqrt_mod(n, p)` returns, it returns the
"Non-quadratic residue" error exactly when `legendre_symbol(n, p) != 1`.
The Legendre check is the first thing computed and the only error exit, so
in the error case no root is produced, and `Modulo::sqrt` — which delegates
to `sqrt_mod` with the stored modulus — inherits the property. -/
theorem C5_sqrt_mod_error_iff {n p : List Nat} {fuel : Nat}
    {res : Except String (List Nat × List Nat)}
    (hre : sqrt_mod n p fuel = some res) :
    (∃ t, legendre_symbol n p fuel = some t ∧
      ((∃ e, res = Except.error e) ↔ t ≠ 1)) ∧
    (∀ e, res = Except.error e → e = "Non-quadratic residue") ∧
    (∀ self : Modulo, self.modulo = p → Modulo.sqrt self n fuel = some res) := by
  have hdel : ∀ self : Modulo, self.modulo = p → Modulo.sqrt self n fuel = some res := by
    intro self hself
    rw [Modulo.sqrt, hself]
    exact hre
  rw [sqrt_mod] at hre
  split at hre
  · exact absurd hre (by simp)
  · rename_i t hleg
    by_cases ht : (t == 1) = true
    · rw [if_pos ht] at hre
      split at hre
      · exact absurd hre (by simp)
      · injection hre with h
        subst h
        refine ⟨⟨t, hleg, iff_of_false ?_ ?_⟩, ?_, hdel⟩
        · rintro ⟨e, he⟩
          exact Except.noConfusion he
        · intro hne
          exact hne (eq_of_beq ht)
        · intro e he
          exact Except.noConfusion he
    · rw [if_neg ht] at hre
      injection hre with h
      subst h
      refine ⟨⟨t, hleg, iff_of_true ⟨_, rfl⟩ ?_⟩, ?_, hdel⟩
      · intro h1
        rw [h1] at ht
        exact ht (by decide)
      · intro e he
        injection he with h2
        exact h2.symm

/-- C5 witness: `6` is a non-residue modulo the prime `137`
(`legendre_symbol(6, 137) = -1`), and `sqrt_mod(6, 137)` returns the
"Non-quadratic residue" error. -/
theorem C5_sqrt_mod_error_iff_witness :
    (∃ t, legendre_symbol [6] [137] 64 = some t ∧
      ((∃ e, (Except.error "Non-quadratic residue" :
          Except String (List Nat × List Nat)) = Except.error e) ↔ t ≠ 1)) ∧
    (∀ e, (Except.error "Non-quadratic residue" :
        Except String (List Nat × List Nat)) = Except.error e →
      e = "Non-quadratic residue") ∧
    (∀ self : Modulo, self.modulo = [137] →
      Modulo.sqrt self [6] 64 = some (Except.error "Non-quadratic residue")) :=
  @C5_sqrt_mod_error_iff [6] [137] 64 (Except.error "Non-quadratic residue") (by rfl)

/-! ## C4: the `sqrt_mod` postcondition fails at the fixed width

The counterexample needs a prime just above `2^32` — below, a Lucas
certificate for it (trial division inside `norm_num` is out of reach of the
kernel at this size, so the power residues are computed by a fast modular
exponentiation checked against `Nat.pow`). -/

/-- Fast modular exponentiation by binary recursion on the exponent. -/
def powModAux (m a : Nat) : Nat → Nat → Nat
  | 0, _ => 1 % m
  | fuel + 1, e =>
    if e = 0 then 1 % m
    else
      let h := powModAux m a fuel (e / 2)
      if e % 2 = 0 then h * h % m else h * h % m * a % m

theorem powModAux_correct (m a : Nat) :
    ∀ (fuel e : Nat), e < 2 ^ fuel → powModAux m a fuel e = a ^ e % m
  | 0, e, hlt => by
    rw [pow_zero] at hlt
    have he : e = 0 := by omega
    rw [powModAux, he, pow_zero]
  | fuel + 1, e, hlt => by
    by_cases he : e = 0
    · rw [powModAux, if_pos he, he, pow_zero]
    · rw [powModAux, if_neg he]
      have hh := powModAux_correct m a fuel (e / 2) (by rw [pow_succ] at hlt; omega)
      simp only [hh]
      by_cases hpar : e % 2 = 0
      · rw [if_pos hpar, ← Nat.mul_mod, ← pow_add]
        have h2 : e / 2 + e / 2 = e := by omega
        rw [h2]
      · rw [if_neg hpar, ← Nat.mul_mod, ← pow_add, Nat.mod_mul_mod, ← pow_succ]
        have h2 : e / 2 + e / 2 + 1 = e := by omega
        rw [h2]

theorem zmod_pow_bridge (p a e : Nat) (he : e < 2 ^ 64) :
    ((a : ZMod p)) ^ e = ((powModAux p a 64 e : Nat) : ZMod p) := by
  rw [powModAux_correct p a 64 e he, ZMod.natCast_mod, Nat.cast_pow]

theorem zmod_pow_val_ne_one (p a e v : Nat) (he : e < 2 ^ 64)
    (hv : powModAux p a 64 e = v) (hne : ¬ v % p = 1 % p) :
    ((a : Nat) : ZMod p) ^ e ≠ 1 := by
  intro hc
  rw [zmod_pow_bridge p a e he, hv] at hc
  rw [show (1 : ZMod p) = ((1 : Nat) : ZMod p) from (Nat.cast_one).symm] at hc
  exact hne ((ZMod.natCast_eq_natCast_iff _ _ _).mp hc)

/-- `4294967311 = 2^32 + 15` is prime (Lucas certificate with the primitive
root `3`; `4294967310 = 2 * 3^2 * 5 * 131 * 364289`). -/
theorem prime_4294967311 : Nat.Prime 4294967311 := by
  have hc3 : (3 : ZMod 4294967311) = ((3 : Nat) : ZMod 4294967311) := by norm_cast
  refine lucas_primality 4294967311 3 ?_ ?_
  · show (3 : ZMod 4294967311) ^ (4294967311 - 1) = 1
    rw [hc3, show (4294967311 - 1 : Nat) = 4294967310 from rfl,
      zmod_pow_bridge 4294967311 3 4294967310 (by norm_num),
      show powModAux 4294967311 3 64 4294967310 = 1 from rfl, Nat.cast_one]
  · intro q hq hdvd
    have h1 : (4294967311 - 1 : Nat) = 2 * (3 * (3 * (5 * (131 * 364289)))) := by norm_num
    rw [h1] at hdvd
    have hqe : q = 2 ∨ q = 3 ∨ q = 5 ∨ q = 131 ∨ q = 364289 := by
      rcases (Nat.Prime.dvd_mul hq).mp hdvd with h | h
      · exact Or.inl ((Nat.prime_dvd_prime_iff_eq hq (by norm_num)).mp h)
      rcases (Nat.Prime.dvd_mul hq).mp h with h | h
      · exact Or.inr (Or.inl ((Nat.prime_dvd_prime_iff_eq hq (by norm_num)).mp h))
      rcases (Nat.Prime.dvd_mul hq).mp h with h | h
      · exact Or.inr (Or.inl ((Nat.prime_dvd_prime_iff_eq hq (by norm_num)).mp h))
      rcases (Nat.Prime.dvd_mul hq).mp h with h | h
      · exact Or.inr (Or.inr (Or.inl ((Nat.prime_dvd_prime_iff_eq hq (by norm_num)).mp h)))
      rcases (Nat.Prime.dvd_mul hq).mp h with h | h
      · exact Or.inr (Or.inr (Or.inr (Or.inl
          ((Nat.prime_dvd_prime_iff_eq hq (by norm_num)).mp h))))
      · exact Or.inr (Or.inr (Or.inr (Or.inr
          ((Nat.prime_dvd_prime_iff_eq hq (by norm_num)).mp h))))
    rcases hqe with rfl | rfl | rfl | rfl | rfl
    · rw [show ((4294967311 - 1) / 2 : Nat) = 2147483655 from rfl, hc3]
      exact zmod_pow_val_ne_one _ _ _ 4294967310 (by norm_num) rfl (by decide)
    · rw [show ((4294967311 - 1) / 3 : Nat) = 1431655770 from rfl, hc3]
      exact zmod_pow_val_ne_one _ _ _ 2086193154 (by norm_num) rfl (by decide)
    · rw [show ((4294967311 - 1) / 5 : Nat) = 858993462 from rfl, hc3]
      exact zmod_pow_val_ne_one _ _ _ 239247313 (by norm_num) rfl (by decide)
    · rw [show ((4294967311 - 1) / 131 : Nat) = 32786010 from rfl, hc3]
      exact zmod_pow_val_ne_one _ _ _ 1859000016 (by norm_num) rfl (by decide)
    · rw [show ((4294967311 - 1) / 364289 : Nat) = 11790 from rfl, hc3]
      exact zmod_pow_val_ne_one _ _ _ 1338913740 (by norm_num) rfl (by decide)

/-- **C4** fails on the odd prime `p = 4294967311 = 2^32 + 15` at width
`N = 1`: `p ≡ 3 (mod 4)` and `n = 2 < p` is a quadratic residue
(`legendre_symbol(2, p) = 1`), so `sqrt_mod(2, p)` takes the shortcut
`n.powmod(&((*p + &one) >> 2), &p)` — but the squarings inside `powmod`
wrap at the fixed width because `p^2 > 2^64`, and the returned root is `0`:
`sqrt_mod` answers `Ok((0, p))` although `0 * 0 mod p = 0 ≠ 2`. -/
theorem C4_sqrt_mod_wrong_root :
    Nat.Prime 4294967311 ∧ isOdd [4294967311] = true ∧
    valB [2] < valB [4294967311] ∧
    legendre_symbol [2] [4294967311] 64 = some 1 ∧
    sqrt_mod [2] [4294967311] 64 = some (Except.ok ([0], [4294967311])) ∧
    valB [0] * valB [0] % valB [4294967311] ≠ valB [2] :=
  ⟨prime_4294967311, by decide, by decide, by rfl, by rfl, by decide⟩
